import Mathlib

/-!
Verification of the order-statistic red-black tree in `src/RBTree.h`.

The C++ code is a pointer structure with parent back-references; every
repair / navigation loop climbs the `parent` chain.  We embed it shallowly:
a node is an inductive value carrying the *stored* fields `black`,
`black_height`, `size` exactly as the struct `Node_` does, plus an `id`
modelling the node's address (the C++ code never inspects addresses except
for identity, which `id` captures).  The parent chain of a node is made
explicit as a `Path` (the list of ancestors together with the side we hang
off and the sibling subtree), and each C++ loop that climbs `parent`
becomes recursion over the `Path`.  `plug t p` rebuilds the whole tree from
a node `t` and its ancestor chain `p`, so a C++ `Node_*` into a live tree
corresponds to a pair `(t, p)`.

The virtual `Pull_` hook is a no-op in `RBTree` itself and is dropped.
-/

set_option linter.unusedVariables false

namespace RBT

/-- Tree node, mirroring `struct Node_` / `NodeVal_<T>` of `RBTree.h`:
stored color (`black`), stored `black_height`, stored `size`, the two child
pointers, the address (`id`) and the value.  `nil` is the null pointer. -/
inductive Node_ (α : Type) where
  | nil
  | node (black : Bool) (bh : Nat) (size : Nat) (l : Node_ α) (id : Nat) (v : α) (r : Node_ α)
deriving DecidableEq

variable {α : Type}

/-- Stored-size read `Size_(nd)` of `RBTree.h` (null reads as 0). -/
def Size_ : Node_ α → Nat
  | .nil => 0
  | .node _ _ s _ _ _ _ => s

/-- Stored black-height read, the helper `H` in `CheckRB_` (null reads as 0). -/
def BH_ : Node_ α → Nat
  | .nil => 0
  | .node _ h _ _ _ _ _ => h

/-- Color read treating null as black, as in the checks `!x || x->black`. -/
def RootBlack_ : Node_ α → Bool
  | .nil => true
  | .node b _ _ _ _ _ _ => b

/-- Actual number of nodes in a subtree (what `size` is supposed to cache). -/
def realSize : Node_ α → Nat
  | .nil => 0
  | .node _ _ _ l _ _ r => realSize l + realSize r + 1

/-- In-order sequence of (address, value) pairs of a subtree. -/
def toPairs : Node_ α → List (Nat × α)
  | .nil => []
  | .node _ _ _ l i v r => toPairs l ++ (i, v) :: toPairs r

/-- In-order sequence of stored values (what iteration over the tree yields). -/
def toList (t : Node_ α) : List α := (toPairs t).map Prod.snd

/-- In-order sequence of node addresses. -/
def toIds (t : Node_ α) : List Nat := (toPairs t).map Prod.fst

/-- Size-field invariant: every node's `size` equals `size(left)+size(right)+1`
(the size clause of the debug checker `CheckRB_`). -/
def SizeOk_ : Node_ α → Bool
  | .nil => true
  | .node _ _ s l _ _ r => (s == Size_ l + Size_ r + 1) && SizeOk_ l && SizeOk_ r

/-- Black-height-field invariant: every node's `black_height` equals the black
count contributed by either child plus the node's own color, and both children
agree (the black-height clause of `CheckRB_`). -/
def BHOk_ : Node_ α → Bool
  | .nil => true
  | .node b h _ l _ _ r =>
      (h == BH_ l + (cond b 1 0)) && (BH_ r == BH_ l) && BHOk_ l && BHOk_ r

/-- Red-red invariant: no red node has a red child (red clause of `CheckRB_`). -/
def NoRedRed_ : Node_ α → Bool
  | .nil => true
  | .node b _ _ l _ _ r =>
      (b || (RootBlack_ l && RootBlack_ r)) && NoRedRed_ l && NoRedRed_ r

/-- Full per-node structural invariant of a subtree. -/
def Valid_ (t : Node_ α) : Bool := SizeOk_ t && BHOk_ t && NoRedRed_ t

/-- Container-level invariant: the root (Head's left child) is valid and its
effective color is black, exactly the top-level check `CheckRB_()`. -/
def TreeOk_ (t : Node_ α) : Bool := Valid_ t && RootBlack_ t

/-- Inductive form of the red-black invariant used for the proofs:
`Ok t c n` states that subtree `t` is valid, its root's effective color is
`c` (`true` = black, with `nil` counting as black) and its stored black
height is `n`; the stored `size` fields are forced to be correct as well. -/
inductive Ok : Node_ α → Bool → Nat → Prop where
  | nil : Ok .nil true 0
  | red {l r : Node_ α} {n : Nat} {i : Nat} {v : α} :
      Ok l true n → Ok r true n →
      Ok (.node false n (Size_ l + Size_ r + 1) l i v r) false n
  | black {l r : Node_ α} {cl cr : Bool} {n : Nat} {i : Nat} {v : α} :
      Ok l cl n → Ok r cr n →
      Ok (.node true (n + 1) (Size_ l + Size_ r + 1) l i v r) true (n + 1)

theorem Ok.size_eq {t : Node_ α} {c : Bool} {n : Nat} (h : Ok t c n) :
    Size_ t = realSize t := by
  induction h with
  | nil => rfl
  | red hl hr ihl ihr => simp [Size_, realSize, ihl, ihr] at *; omega
  | black hl hr ihl ihr => simp [Size_, realSize, ihl, ihr] at *; omega

theorem Ok.bh_eq {t : Node_ α} {c : Bool} {n : Nat} (h : Ok t c n) : BH_ t = n := by
  cases h <;> rfl

theorem Ok.root_black {t : Node_ α} {c : Bool} {n : Nat} (h : Ok t c n) :
    RootBlack_ t = c := by
  cases h <;> rfl

theorem Ok.checks {t : Node_ α} {c : Bool} {n : Nat} (h : Ok t c n) :
    Valid_ t = true := by
  induction h with
  | nil => rfl
  | @red l r n i v hl hr ihl ihr =>
    simp only [Valid_, Bool.and_eq_true] at ihl ihr
    simp [Valid_, SizeOk_, BHOk_, NoRedRed_, ihl, ihr, hl.bh_eq, hr.bh_eq,
      hl.root_black, hr.root_black]
  | @black l r cl cr n i v hl hr ihl ihr =>
    simp only [Valid_, Bool.and_eq_true] at ihl ihr
    simp [Valid_, SizeOk_, BHOk_, NoRedRed_, ihl, ihr, hl.bh_eq, hr.bh_eq]

theorem ok_of_checks {t : Node_ α} (h : Valid_ t = true) :
    Ok t (RootBlack_ t) (BH_ t) := by
  induction t with
  | nil => exact .nil
  | node b h s l i v r ihl ihr =>
    simp only [Valid_, Bool.and_eq_true] at h
    obtain ⟨⟨hS, hB⟩, hN⟩ := h
    simp only [SizeOk_, Bool.and_eq_true, beq_iff_eq] at hS
    simp only [BHOk_, Bool.and_eq_true, beq_iff_eq] at hB
    simp only [NoRedRed_, Bool.and_eq_true, Bool.or_eq_true] at hN
    obtain ⟨⟨hs1, hsl⟩, hsr⟩ := hS
    obtain ⟨⟨⟨hb1, hb2⟩, hbl⟩, hbr⟩ := hB
    obtain ⟨⟨hn1, hnl⟩, hnr⟩ := hN
    have hl := ihl (by simp [Valid_, hsl, hbl, hnl])
    have hr := ihr (by simp [Valid_, hsr, hbr, hnr])
    rw [hb2] at hr
    show Ok (Node_.node b h s l i v r) b h
    cases b with
    | false =>
      simp only [cond, Nat.add_zero] at hb1
      rcases hn1 with hcontra | hrb
      · exact absurd hcontra (by simp)
      · rw [hrb.1] at hl; rw [hrb.2] at hr
        subst hs1; rw [hb1]
        exact .red hl hr
    | true =>
      simp only [cond] at hb1
      subst hs1; rw [hb1]
      exact .black hl hr

/-- Context (ancestor chain) of a node: the explicit form of the `parent`
pointers.  `isLeft b h s i v sib rest` means the focused subtree is the left
child of a node with stored fields `(b, h, s)`, address `i`, value `v` and
right child `sib`, whose own context is `rest`; `isRight` is the mirror
image (with `sib` the left child); `root` means the parent is `Head`. -/
inductive Path (α : Type) where
  | root
  | isLeft (black : Bool) (bh : Nat) (size : Nat) (id : Nat) (v : α) (sib : Node_ α) (rest : Path α)
  | isRight (black : Bool) (bh : Nat) (size : Nat) (id : Nat) (v : α) (sib : Node_ α) (rest : Path α)
deriving DecidableEq

/-- Rebuild the whole tree from a focused subtree and its context. -/
def plug (t : Node_ α) : Path α → Node_ α
  | .root => t
  | .isLeft b h s i v sib rest => plug (.node b h s t i v sib) rest
  | .isRight b h s i v sib rest => plug (.node b h s sib i v t) rest

/-- Pairs strictly to the left of the context hole, in order. -/
def leftP : Path α → List (Nat × α)
  | .root => []
  | .isLeft _ _ _ _ _ _ rest => leftP rest
  | .isRight _ _ _ i v sib rest => leftP rest ++ toPairs sib ++ [(i, v)]

/-- Pairs strictly to the right of the context hole, in order. -/
def rightP : Path α → List (Nat × α)
  | .root => []
  | .isLeft _ _ _ i v sib rest => (i, v) :: (toPairs sib ++ rightP rest)
  | .isRight _ _ _ _ _ _ rest => rightP rest

theorem toPairs_plug (t : Node_ α) (p : Path α) :
    toPairs (plug t p) = leftP p ++ toPairs t ++ rightP p := by
  induction p generalizing t with
  | root => simp [plug, leftP, rightP]
  | isLeft b h s i v sib rest ih => simp [plug, leftP, rightP, ih, toPairs]
  | isRight b h s i v sib rest ih => simp [plug, leftP, rightP, ih, toPairs]

/-- Invariant of a context: `Pok p c₀ n₀ c n m` says that if the hole is
filled with a subtree of effective color class `c`, stored black height `n`
and size `m`, then the whole tree is valid with root color class `c₀` and
black height `n₀`.  A hole under a red parent demands `c = true`; under a
black parent the hole color is unconstrained.  Stored sizes along the chain
are forced to be consistent with a hole of size `m`. -/
inductive Pok : Path α → Bool → Nat → Bool → Nat → Nat → Prop where
  | root {c : Bool} {n m : Nat} : Pok .root c n c n m
  | redL {sib : Node_ α} {rest : Path α} {c₀ : Bool} {n₀ n m i : Nat} {v : α} :
      Ok sib true n → Pok rest c₀ n₀ false n (m + Size_ sib + 1) →
      Pok (.isLeft false n (m + Size_ sib + 1) i v sib rest) c₀ n₀ true n m
  | redR {sib : Node_ α} {rest : Path α} {c₀ : Bool} {n₀ n m i : Nat} {v : α} :
      Ok sib true n → Pok rest c₀ n₀ false n (m + Size_ sib + 1) →
      Pok (.isRight false n (m + Size_ sib + 1) i v sib rest) c₀ n₀ true n m
  | blackL {sib : Node_ α} {rest : Path α} {c₀ cs c : Bool} {n₀ n m i : Nat} {v : α} :
      Ok sib cs n → Pok rest c₀ n₀ true (n + 1) (m + Size_ sib + 1) →
      Pok (.isLeft true (n + 1) (m + Size_ sib + 1) i v sib rest) c₀ n₀ c n m
  | blackR {sib : Node_ α} {rest : Path α} {c₀ cs c : Bool} {n₀ n m i : Nat} {v : α} :
      Ok sib cs n → Pok rest c₀ n₀ true (n + 1) (m + Size_ sib + 1) →
      Pok (.isRight true (n + 1) (m + Size_ sib + 1) i v sib rest) c₀ n₀ c n m

/-- Filling a valid context with a compatible valid subtree yields a valid
tree.  A black subtree may also fill a hole whose expected class is red. -/
theorem Pok.fill {p : Path α} {c₀ c c' : Bool} {n₀ n m : Nat} {t : Node_ α}
    (hp : Pok p c₀ n₀ c n m) (ht : Ok t c' n) (hsz : Size_ t = m)
    (hc : c = true → c' = true) :
    ∃ c₁, Ok (plug t p) c₁ n₀ ∧ (c₀ = true → c₁ = true) := by
  induction hp generalizing t c' with
  | root => exact ⟨c', ht, hc⟩
  | @redL sib rest c₀ n₀ n m i v hs hrest ih =>
    rw [hc rfl] at ht
    have h2 : Ok (Node_.node false n (m + Size_ sib + 1) t i v sib) false n := by
      rw [← hsz]; exact .red ht hs
    exact ih h2 rfl (by simp)
  | @redR sib rest c₀ n₀ n m i v hs hrest ih =>
    rw [hc rfl] at ht
    have h2 : Ok (Node_.node false n (m + Size_ sib + 1) sib i v t) false n := by
      rw [← hsz, Nat.add_comm (Size_ t) (Size_ sib)]; exact .red hs ht
    exact ih h2 rfl (by simp)
  | @blackL sib rest c₀ cs c n₀ n m i v hs hrest ih =>
    have h2 : Ok (Node_.node true (n + 1) (m + Size_ sib + 1) t i v sib) true (n + 1) := by
      rw [← hsz]; exact .black ht hs
    exact ih h2 rfl (fun _ => rfl)
  | @blackR sib rest c₀ cs c n₀ n m i v hs hrest ih =>
    have h2 : Ok (Node_.node true (n + 1) (m + Size_ sib + 1) sib i v t) true (n + 1) := by
      rw [← hsz, Nat.add_comm (Size_ t) (Size_ sib)]; exact .black hs ht
    exact ih h2 rfl (fun _ => rfl)

/-- Step `nd->size += sz` on the focused node. -/
def incSz (s : Nat) : Node_ α → Node_ α
  | .nil => .nil
  | .node b h z l i v r => .node b h (z + s) l i v r

/-- Loop `IncreaseSize_(nd, head, sz)`: add `s` to the focused node's stored
size and to the stored size of every ancestor on the chain, returning the
resulting whole tree. -/
def IncreaseSize_ (s : Nat) : Node_ α → Path α → Node_ α
  | t, .root => incSz s t
  | t, .isLeft b h z i v sib rest => IncreaseSize_ s (.node b h z (incSz s t) i v sib) rest
  | t, .isRight b h z i v sib rest => IncreaseSize_ s (.node b h z sib i v (incSz s t)) rest

/-- Loop `DecreaseSize_(nd)`: plug `t` into the hole and subtract one from
the stored size of every ancestor (starting at the hole's parent). -/
def DecreaseSize_ : Node_ α → Path α → Node_ α
  | t, .root => t
  | t, .isLeft b h z i v sib rest => DecreaseSize_ (.node b h (z - 1) t i v sib) rest
  | t, .isRight b h z i v sib rest => DecreaseSize_ (.node b h (z - 1) sib i v t) rest

/-- Unconditional `x->black = true; x->black_height++` (used on nodes known
to be red: insert case 1 and case 3, the lone child in removal, `sout`). -/
def BlackenInc_ : Node_ α → Node_ α
  | .nil => .nil
  | .node _ h z l i v r => .node true (h + 1) z l i v r

/-- Helper `PaintBlack_(nd)` of `RBTree.h`: repaint red as black bumping the
stored height, leave black (or null) nodes alone. -/
def PaintBlack_ : Node_ α → Node_ α
  | .nil => .nil
  | .node false h z l i v r => .node true (h + 1) z l i v r
  | .node true h z l i v r => .node true h z l i v r

/-- Tail of insert repair cases 2/4: `if (p->parent == head) return p;
return IncreaseSize_(p->parent, head, sz);` with `t` the repaired subtree
and the path its remaining context. -/
def finishUp (s : Nat) (t : Node_ α) : Path α → Node_ α
  | .root => t
  | .isLeft b h z i v sib rest => IncreaseSize_ s (.node b h z t i v sib) rest
  | .isRight b h z i v sib rest => IncreaseSize_ s (.node b h z sib i v t) rest

/-- Repair loop `InsertRepair_(nd, head, sz)` of `RBTree.h`, with the parent
chain given as an explicit path.  `nd` is the red subtree the loop is
focused on; stored sizes along the path still lack the increment `s`.
Returns the whole repaired tree.  The configurations that are unreachable
under the invariants (a red parent at the root; an empty focus in the
zig-zag rotation) fall back to plain reassembly. -/
def InsertRepair_ (s : Nat) : Node_ α → Path α → Node_ α
  | nd, .root => BlackenInc_ nd
  | nd, .isLeft pb ph pz pi pv psib rest =>
    if pb then IncreaseSize_ s (.node pb ph pz nd pi pv psib) rest else
    match rest with
    | .root => plug nd (.isLeft pb ph pz pi pv psib .root)
    | .isLeft gb gh gz gi gv u rest2 =>
      if RootBlack_ u then
        let g2 := Node_.node false (gh - 1) (Size_ psib + Size_ u + 1) psib gi gv u
        let p2 := Node_.node true (ph + 1) (Size_ nd + Size_ g2 + 1) nd pi pv g2
        finishUp s p2 rest2
      else
        let p2 := Node_.node true (ph + 1) (pz + s) nd pi pv psib
        let g2 := Node_.node false gh (gz + s) p2 gi gv (BlackenInc_ u)
        InsertRepair_ s g2 rest2
    | .isRight gb gh gz gi gv u rest2 =>
      if RootBlack_ u then
        match nd with
        | .nil => plug .nil (.isLeft pb ph pz pi pv psib (.isRight gb gh gz gi gv u rest2))
        | .node nb nh nz ndl ni nv ndr =>
          let pLow := Node_.node pb ph (Size_ ndr + Size_ psib + 1) ndr pi pv psib
          let g2 := Node_.node false (gh - 1) (Size_ u + Size_ ndl + 1) u gi gv ndl
          let p2 := Node_.node true (nh + 1) (Size_ g2 + Size_ pLow + 1) g2 ni nv pLow
          finishUp s p2 rest2
      else
        let p2 := Node_.node true (ph + 1) (pz + s) nd pi pv psib
        let g2 := Node_.node false gh (gz + s) (BlackenInc_ u) gi gv p2
        InsertRepair_ s g2 rest2
  | nd, .isRight pb ph pz pi pv psib rest =>
    if pb then IncreaseSize_ s (.node pb ph pz psib pi pv nd) rest else
    match rest with
    | .root => plug nd (.isRight pb ph pz pi pv psib .root)
    | .isRight gb gh gz gi gv u rest2 =>
      if RootBlack_ u then
        let g2 := Node_.node false (gh - 1) (Size_ u + Size_ psib + 1) u gi gv psib
        let p2 := Node_.node true (ph + 1) (Size_ g2 + Size_ nd + 1) g2 pi pv nd
        finishUp s p2 rest2
      else
        let p2 := Node_.node true (ph + 1) (pz + s) psib pi pv nd
        let g2 := Node_.node false gh (gz + s) (BlackenInc_ u) gi gv p2
        InsertRepair_ s g2 rest2
    | .isLeft gb gh gz gi gv u rest2 =>
      if RootBlack_ u then
        match nd with
        | .nil => plug .nil (.isRight pb ph pz pi pv psib (.isLeft gb gh gz gi gv u rest2))
        | .node nb nh nz ndl ni nv ndr =>
          let pLow := Node_.node pb ph (Size_ psib + Size_ ndl + 1) psib pi pv ndl
          let g2 := Node_.node false (gh - 1) (Size_ ndr + Size_ u + 1) ndr gi gv u
          let p2 := Node_.node true (nh + 1) (Size_ pLow + Size_ g2 + 1) pLow ni nv g2
          finishUp s p2 rest2
      else
        let p2 := Node_.node true (ph + 1) (pz + s) psib pi pv nd
        let g2 := Node_.node false gh (gz + s) p2 gi gv (BlackenInc_ u)
        InsertRepair_ s g2 rest2

theorem toPairs_incSz (s : Nat) (t : Node_ α) : toPairs (incSz s t) = toPairs t := by
  cases t <;> rfl

theorem Size_incSz (s : Nat) (t : Node_ α) (h : t ≠ .nil) :
    Size_ (incSz s t) = Size_ t + s := by
  cases t with
  | nil => exact absurd rfl h
  | node => rfl

theorem toPairs_IncreaseSize (s : Nat) (t : Node_ α) (p : Path α) :
    toPairs (IncreaseSize_ s t p) = leftP p ++ toPairs t ++ rightP p := by
  induction p generalizing t with
  | root => simp [IncreaseSize_, toPairs_incSz, leftP, rightP]
  | isLeft b h z i v sib rest ih =>
    simp [IncreaseSize_, ih, toPairs, toPairs_incSz, leftP, rightP]
  | isRight b h z i v sib rest ih =>
    simp [IncreaseSize_, ih, toPairs, toPairs_incSz, leftP, rightP]

theorem toPairs_DecreaseSize (t : Node_ α) (p : Path α) :
    toPairs (DecreaseSize_ t p) = leftP p ++ toPairs t ++ rightP p := by
  induction p generalizing t with
  | root => simp [DecreaseSize_, leftP, rightP]
  | isLeft b h z i v sib rest ih => simp [DecreaseSize_, ih, toPairs, leftP, rightP]
  | isRight b h z i v sib rest ih => simp [DecreaseSize_, ih, toPairs, leftP, rightP]

theorem toPairs_BlackenInc (t : Node_ α) : toPairs (BlackenInc_ t) = toPairs t := by
  cases t <;> rfl

theorem toPairs_PaintBlack (t : Node_ α) : toPairs (PaintBlack_ t) = toPairs t := by
  cases t with
  | nil => rfl
  | node b h z l i v r => cases b <;> rfl

theorem Size_PaintBlack (t : Node_ α) : Size_ (PaintBlack_ t) = Size_ t := by
  cases t with
  | nil => rfl
  | node b h z l i v r => cases b <;> rfl

theorem toPairs_finishUp (s : Nat) (t : Node_ α) (p : Path α) :
    toPairs (finishUp s t p) = leftP p ++ toPairs t ++ rightP p := by
  cases p with
  | root => simp [finishUp, leftP, rightP]
  | isLeft b h z i v sib rest =>
    simp [finishUp, toPairs_IncreaseSize, toPairs, leftP, rightP]
  | isRight b h z i v sib rest =>
    simp [finishUp, toPairs_IncreaseSize, toPairs, leftP, rightP]

theorem InsertRepair_isLeft_black (s : Nat) (nd : Node_ α) (h z i : Nat) (v : α)
    (sib : Node_ α) (rest : Path α) :
    InsertRepair_ s nd (.isLeft true h z i v sib rest)
      = IncreaseSize_ s (.node true h z nd i v sib) rest := by
  cases rest <;> rfl

theorem InsertRepair_isRight_black (s : Nat) (nd : Node_ α) (h z i : Nat) (v : α)
    (sib : Node_ α) (rest : Path α) :
    InsertRepair_ s nd (.isRight true h z i v sib rest)
      = IncreaseSize_ s (.node true h z sib i v nd) rest := by
  cases rest <;> rfl

/-- Insert repair never changes the in-order sequence: it returns exactly
the reassembled tree, modulo rebalancing. -/
theorem toPairs_InsertRepair (s : Nat) (nd : Node_ α) (p : Path α) :
    toPairs (InsertRepair_ s nd p) = leftP p ++ toPairs nd ++ rightP p := by
  induction nd, p using InsertRepair_.induct s with
  | _ =>
    simp_all [InsertRepair_, InsertRepair_isLeft_black, InsertRepair_isRight_black,
      toPairs_finishUp, toPairs_IncreaseSize, toPairs_plug,
      toPairs, toPairs_BlackenInc, leftP, rightP]

theorem okRedH {l r : Node_ α} {h n z i : Nat} {v : α}
    (hl : Ok l true n) (hr : Ok r true n) (hh : h = n) (hz : z = Size_ l + Size_ r + 1) :
    Ok (.node false h z l i v r) false n := by subst hh; exact hz ▸ .red hl hr

theorem okBlackH {l r : Node_ α} {cl cr : Bool} {h n z i : Nat} {v : α}
    (hl : Ok l cl n) (hr : Ok r cr n) (hh : h = n + 1) (hz : z = Size_ l + Size_ r + 1) :
    Ok (.node true h z l i v r) true (n + 1) := by subst hh; exact hz ▸ .black hl hr

/-- Size propagation `IncreaseSize_` keeps the tree valid: if the bumped
focus is valid and the path is valid for the pre-bump hole size, the result
is valid. -/
theorem IncreaseSize_ok {s : Nat} {t : Node_ α} {p : Path α} {c₀ c c' : Bool} {n₀ n m : Nat}
    (hp : Pok p c₀ n₀ c n m) (ht : Ok (incSz s t) c' n)
    (hsz : Size_ (incSz s t) = m + s) (hc : c = true → c' = true) :
    ∃ c₁, Ok (IncreaseSize_ s t p) c₁ n₀ ∧ (c₀ = true → c₁ = true) := by
  induction hp generalizing t c' with
  | root => exact ⟨c', ht, hc⟩
  | @redL sib rest c₀ n₀ n m i v hs hrest ih =>
    rw [hc rfl] at ht
    have h2 : Ok (incSz s (Node_.node false n (m + Size_ sib + 1) (incSz s t) i v sib)) false n := by
      show Ok (Node_.node false n (m + Size_ sib + 1 + s) (incSz s t) i v sib) false n
      exact okRedH ht hs rfl (by omega)
    exact ih h2 rfl (by simp)
  | @redR sib rest c₀ n₀ n m i v hs hrest ih =>
    rw [hc rfl] at ht
    have h2 : Ok (incSz s (Node_.node false n (m + Size_ sib + 1) sib i v (incSz s t))) false n := by
      show Ok (Node_.node false n (m + Size_ sib + 1 + s) sib i v (incSz s t)) false n
      exact okRedH hs ht rfl (by omega)
    exact ih h2 rfl (by simp)
  | @blackL sib rest c₀ cs c n₀ n m i v hs hrest ih =>
    have h2 : Ok (incSz s (Node_.node true (n + 1) (m + Size_ sib + 1) (incSz s t) i v sib)) true (n + 1) := by
      show Ok (Node_.node true (n + 1) (m + Size_ sib + 1 + s) (incSz s t) i v sib) true (n + 1)
      exact okBlackH ht hs rfl (by omega)
    exact ih h2 rfl (fun _ => rfl)
  | @blackR sib rest c₀ cs c n₀ n m i v hs hrest ih =>
    have h2 : Ok (incSz s (Node_.node true (n + 1) (m + Size_ sib + 1) sib i v (incSz s t))) true (n + 1) := by
      show Ok (Node_.node true (n + 1) (m + Size_ sib + 1 + s) sib i v (incSz s t)) true (n + 1)
      exact okBlackH hs ht rfl (by omega)
    exact ih h2 rfl (fun _ => rfl)

/-- The common tail of the insert repair: plug the repaired subtree and add
`s` to every remaining ancestor size. -/
theorem finishUp_ok {s : Nat} {t : Node_ α} {p : Path α} {c c' : Bool} {n₀ n m : Nat}
    (hp : Pok p true n₀ c n m) (ht : Ok t c' n) (hsz : Size_ t = m + s)
    (hc : c = true → c' = true) :
    ∃ n', Ok (finishUp s t p) true n' := by
  cases p with
  | root =>
    cases hp
    exact ⟨_, by simpa [finishUp] using hc rfl ▸ ht⟩
  | isLeft b h z i v sib rest =>
    cases hp with
    | redL hs hrest =>
      rw [hc rfl] at ht
      have h2 : Ok (incSz s (Node_.node false n (m + Size_ sib + 1) t i v sib)) false n := by
        show Ok (Node_.node false n (m + Size_ sib + 1 + s) t i v sib) false n
        · exact okRedH ht hs rfl (by omega)
      obtain ⟨c₁, h1, himp⟩ := IncreaseSize_ok hrest h2 rfl (by simp)
      exact ⟨n₀, himp rfl ▸ h1⟩
    | blackL hs hrest =>
      have h2 : Ok (incSz s (Node_.node true (n + 1) (m + Size_ sib + 1) t i v sib)) true (n + 1) := by
        show Ok (Node_.node true (n + 1) (m + Size_ sib + 1 + s) t i v sib) true (n + 1)
        · exact okBlackH ht hs rfl (by omega)
      obtain ⟨c₁, h1, himp⟩ := IncreaseSize_ok hrest h2 rfl (fun _ => rfl)
      exact ⟨n₀, himp rfl ▸ h1⟩
  | isRight b h z i v sib rest =>
    cases hp with
    | redR hs hrest =>
      rw [hc rfl] at ht
      have h2 : Ok (incSz s (Node_.node false n (m + Size_ sib + 1) sib i v t)) false n := by
        show Ok (Node_.node false n (m + Size_ sib + 1 + s) sib i v t) false n
        · exact okRedH hs ht rfl (by omega)
      obtain ⟨c₁, h1, himp⟩ := IncreaseSize_ok hrest h2 rfl (by simp)
      exact ⟨n₀, himp rfl ▸ h1⟩
    | blackR hs hrest =>
      have h2 : Ok (incSz s (Node_.node true (n + 1) (m + Size_ sib + 1) sib i v t)) true (n + 1) := by
        show Ok (Node_.node true (n + 1) (m + Size_ sib + 1 + s) sib i v t) true (n + 1)
        · exact okBlackH hs ht rfl (by omega)
      obtain ⟨c₁, h1, himp⟩ := IncreaseSize_ok hrest h2 rfl (fun _ => rfl)
      exact ⟨n₀, himp rfl ▸ h1⟩

theorem Size_BlackenInc (t : Node_ α) : Size_ (BlackenInc_ t) = Size_ t := by
  cases t <;> rfl

theorem Size_node (b : Bool) (h z i : Nat) (v : α) (l r : Node_ α) :
    Size_ (.node b h z l i v r) = z := rfl

/-- Insert repair restores the red-black invariant: given a valid context
whose stored sizes still lack the increment `s`, and a well-formed red
focus of the black height the hole expects whose size already includes
`s`, the repaired tree is valid with a black root. -/
theorem InsertRepair_ok (s : Nat) :
    ∀ (nd : Node_ α) (p : Path α) {c : Bool} {n₀ n m : Nat},
    Pok p true n₀ c n m → Ok nd false n → Size_ nd = m + s →
    ∃ n', Ok (InsertRepair_ s nd p) true n'
  | nd, .root, c, n₀, n, m, hp, hnd, hsz => by
    cases hp
    cases hnd with
    | red hl hr => exact ⟨_, by simpa [InsertRepair_, BlackenInc_] using Ok.black hl hr⟩
  | nd, .isLeft true ph pz pi pv psib rest, c, n₀, n, m, hp, hnd, hsz => by
    cases hp with
    | blackL hs hrest =>
      rw [InsertRepair_isLeft_black]
      have h2 : Ok (incSz s (Node_.node true (n + 1) (m + Size_ psib + 1) nd pi pv psib))
          true (n + 1) := by
        show Ok (Node_.node true (n + 1) (m + Size_ psib + 1 + s) nd pi pv psib) true (n + 1)
        exact okBlackH hnd hs rfl (by omega)
      obtain ⟨c₁, h1, himp⟩ := IncreaseSize_ok hrest h2 rfl (fun _ => rfl)
      exact ⟨n₀, himp rfl ▸ h1⟩
  | nd, .isRight true ph pz pi pv psib rest, c, n₀, n, m, hp, hnd, hsz => by
    cases hp with
    | blackR hs hrest =>
      rw [InsertRepair_isRight_black]
      have h2 : Ok (incSz s (Node_.node true (n + 1) (m + Size_ psib + 1) psib pi pv nd))
          true (n + 1) := by
        show Ok (Node_.node true (n + 1) (m + Size_ psib + 1 + s) psib pi pv nd) true (n + 1)
        exact okBlackH hs hnd rfl (by omega)
      obtain ⟨c₁, h1, himp⟩ := IncreaseSize_ok hrest h2 rfl (fun _ => rfl)
      exact ⟨n₀, himp rfl ▸ h1⟩
  | nd, .isLeft false ph pz pi pv psib .root, c, n₀, n, m, hp, hnd, hsz => by
    cases hp with
    | redL hs hrest => cases hrest
  | nd, .isRight false ph pz pi pv psib .root, c, n₀, n, m, hp, hnd, hsz => by
    cases hp with
    | redR hs hrest => cases hrest
  | nd, .isLeft false ph pz pi pv psib (.isLeft gb gh gz gi gv u rest2),
      c, n₀, n, m, hp, hnd, hsz => by
    cases hp with
    | redL hs hrest =>
    cases hrest with
    | blackL hu hrest2 =>
      cases hcu : RootBlack_ u with
      | true =>
        have hb := hu.root_black
        rw [hcu] at hb
        rw [← hb] at hu
        simp only [InsertRepair_, hcu, if_true, Bool.false_eq_true, if_false]
        exact finishUp_ok hrest2 (okBlackH hnd (okRedH hs hu (by omega) rfl) rfl rfl)
          (by simp only [Size_node]; omega) (fun _ => rfl)
      | false =>
        have hb := hu.root_black
        rw [hcu] at hb
        rw [← hb] at hu
        have hu2 : Ok (BlackenInc_ u) true (ph + 1) := by
          cases hu with | red hul hur => exact .black hul hur
        have hsu := Size_BlackenInc u
        simp only [InsertRepair_, hcu, Bool.false_eq_true, if_false]
        have hp2 : Ok (Node_.node true (ph + 1) (m + Size_ psib + 1 + s) nd pi pv psib)
            true (ph + 1) := okBlackH hnd hs rfl (by omega)
        have hg2 : Ok (Node_.node false (ph + 1) (m + Size_ psib + 1 + Size_ u + 1 + s)
            (Node_.node true (ph + 1) (m + Size_ psib + 1 + s) nd pi pv psib) gi gv
            (BlackenInc_ u)) false (ph + 1) :=
          okRedH hp2 hu2 rfl (by simp only [Size_node]; omega)
        exact InsertRepair_ok s _ rest2 hrest2 hg2 rfl
  | nd, .isRight false ph pz pi pv psib (.isRight gb gh gz gi gv u rest2),
      c, n₀, n, m, hp, hnd, hsz => by
    cases hp with
    | redR hs hrest =>
    cases hrest with
    | blackR hu hrest2 =>
      cases hcu : RootBlack_ u with
      | true =>
        have hb := hu.root_black
        rw [hcu] at hb
        rw [← hb] at hu
        simp only [InsertRepair_, hcu, if_true, Bool.false_eq_true, if_false]
        exact finishUp_ok hrest2 (okBlackH (okRedH hu hs (by omega) rfl) hnd rfl rfl)
          (by simp only [Size_node]; omega) (fun _ => rfl)
      | false =>
        have hb := hu.root_black
        rw [hcu] at hb
        rw [← hb] at hu
        have hu2 : Ok (BlackenInc_ u) true (ph + 1) := by
          cases hu with | red hul hur => exact .black hul hur
        have hsu := Size_BlackenInc u
        simp only [InsertRepair_, hcu, Bool.false_eq_true, if_false]
        have hp2 : Ok (Node_.node true (ph + 1) (m + Size_ psib + 1 + s) psib pi pv nd)
            true (ph + 1) := okBlackH hs hnd rfl (by omega)
        have hg2 : Ok (Node_.node false (ph + 1) (m + Size_ psib + 1 + Size_ u + 1 + s)
            (BlackenInc_ u) gi gv
            (Node_.node true (ph + 1) (m + Size_ psib + 1 + s) psib pi pv nd)) false (ph + 1) :=
          okRedH hu2 hp2 rfl (by simp only [Size_node]; omega)
        exact InsertRepair_ok s _ rest2 hrest2 hg2 rfl
  | nd, .isRight false ph pz pi pv psib (.isLeft gb gh gz gi gv u rest2),
      c, n₀, n, m, hp, hnd, hsz => by
    cases hp with
    | redR hs hrest =>
    cases hrest with
    | blackL hu hrest2 =>
      cases hcu : RootBlack_ u with
      | true =>
        have hb := hu.root_black
        rw [hcu] at hb
        rw [← hb] at hu
        cases hnd with
        | red hndl hndr =>
          simp only [InsertRepair_, hcu, if_true, Bool.false_eq_true, if_false]
          simp only [Size_node] at hsz
          exact finishUp_ok hrest2
            (okBlackH (okRedH hs hndl rfl rfl) (okRedH hndr hu (by omega) rfl) rfl rfl)
            (by simp only [Size_node]; omega) (fun _ => rfl)
      | false =>
        have hb := hu.root_black
        rw [hcu] at hb
        rw [← hb] at hu
        have hu2 : Ok (BlackenInc_ u) true (ph + 1) := by
          cases hu with | red hul hur => exact .black hul hur
        have hsu := Size_BlackenInc u
        simp only [InsertRepair_, hcu, Bool.false_eq_true, if_false]
        have hp2 : Ok (Node_.node true (ph + 1) (m + Size_ psib + 1 + s) psib pi pv nd)
            true (ph + 1) := okBlackH hs hnd rfl (by omega)
        have hg2 : Ok (Node_.node false (ph + 1) (m + Size_ psib + 1 + Size_ u + 1 + s)
            (Node_.node true (ph + 1) (m + Size_ psib + 1 + s) psib pi pv nd) gi gv
            (BlackenInc_ u)) false (ph + 1) := okRedH hp2 hu2 rfl (by simp only [Size_node]; omega)
        exact InsertRepair_ok s _ rest2 hrest2 hg2 rfl
  | nd, .isLeft false ph pz pi pv psib (.isRight gb gh gz gi gv u rest2),
      c, n₀, n, m, hp, hnd, hsz => by
    cases hp with
    | redL hs hrest =>
    cases hrest with
    | blackR hu hrest2 =>
      cases hcu : RootBlack_ u with
      | true =>
        have hb := hu.root_black
        rw [hcu] at hb
        rw [← hb] at hu
        cases hnd with
        | red hndl hndr =>
          simp only [InsertRepair_, hcu, if_true, Bool.false_eq_true, if_false]
          simp only [Size_node] at hsz
          exact finishUp_ok hrest2
            (okBlackH (okRedH hu hndl (by omega) rfl) (okRedH hndr hs rfl rfl) rfl rfl)
            (by simp only [Size_node]; omega) (fun _ => rfl)
      | false =>
        have hb := hu.root_black
        rw [hcu] at hb
        rw [← hb] at hu
        have hu2 : Ok (BlackenInc_ u) true (ph + 1) := by
          cases hu with | red hul hur => exact .black hul hur
        have hsu := Size_BlackenInc u
        simp only [InsertRepair_, hcu, Bool.false_eq_true, if_false]
        have hp2 : Ok (Node_.node true (ph + 1) (m + Size_ psib + 1 + s) nd pi pv psib)
            true (ph + 1) := okBlackH hnd hs rfl (by omega)
        have hg2 : Ok (Node_.node false (ph + 1) (m + Size_ psib + 1 + Size_ u + 1 + s)
            (BlackenInc_ u) gi gv
            (Node_.node true (ph + 1) (m + Size_ psib + 1 + s) nd pi pv psib)) false (ph + 1) :=
          okRedH hu2 hp2 rfl (by simp only [Size_node]; omega)
        exact InsertRepair_ok s _ rest2 hrest2 hg2 rfl

/-- Cursor into a tree: either a real node, given by focus plus context, or
the `Head` sentinel (the end position), which still owns the whole tree. -/
inductive Cur (α : Type) where
  | head (t : Node_ α)
  | pos (foc : Node_ α) (p : Path α)
deriving DecidableEq

/-- Left-child read of a focused node. -/
def leftOf : Node_ α → Node_ α
  | .nil => .nil
  | .node _ _ _ l _ _ _ => l

/-- Right-child read of a focused node. -/
def rightOf : Node_ α → Node_ α
  | .nil => .nil
  | .node _ _ _ _ _ _ r => r

/-- Root (address, value) pair of a focused node, if any. -/
def rootPair : Node_ α → Option (Nat × α)
  | .nil => none
  | .node _ _ _ _ i v _ => some (i, v)

/-- Fresh node as built by `GenNode_` via the `Node_()` constructor:
red, stored height 0, stored size 1, no children. -/
def freshNode (i : Nat) (v : α) : Node_ α := .node false 0 1 .nil i v .nil

/-- Descent of `Last_` accumulating context, ending at the attach point for
a new node hung as the right child of the rightmost node. -/
def lastAttach : Node_ α → Path α → Path α
  | .node b h z l i v .nil, p => .isRight b h z i v l p
  | .node b h z l i v r, p => lastAttach r (.isRight b h z i v l p)
  | .nil, p => p

/-- Descent of `First_` accumulating context, ending at the attach point for
a new node hung as the left child of the leftmost node. -/
def firstAttach : Node_ α → Path α → Path α
  | .node b h z .nil i v r, p => .isLeft b h z i v r p
  | .node b h z l i v r, p => firstAttach l (.isLeft b h z i v r p)
  | .nil, p => p

/-- `InsertBefore_(a, b)` of `RBTree.h`: link a fresh node (address `i`,
value `v`) at the in-order position just before the cursor — as the left
child when the cursor's node has no left child, otherwise as the right
child of `Last_` of that left subtree — then run `InsertRepair_` with
increment 1.  A null cursor (never produced by the container) repairs in
place. -/
def InsertBefore_ (cur : Cur α) (i : Nat) (v : α) : Node_ α :=
  match cur with
  | .head .nil => InsertRepair_ 1 (freshNode i v) .root
  | .head t => InsertRepair_ 1 (freshNode i v) (lastAttach t .root)
  | .pos (.node b h z .nil j w r) p =>
      InsertRepair_ 1 (freshNode i v) (.isLeft b h z j w r p)
  | .pos (.node b h z l j w r) p =>
      InsertRepair_ 1 (freshNode i v) (lastAttach l (.isLeft b h z j w r p))
  | .pos .nil p => InsertRepair_ 1 (freshNode i v) p

/-- Rank descent `Select_(nd, x)` of `RBTree.h`, accumulating the context of
the node found at 0-based rank `x`. -/
def selectZip : Node_ α → Nat → Path α → Node_ α × Path α
  | .nil, _, p => (.nil, p)
  | .node b h z l i v r, x, p =>
      if Size_ l = x then (.node b h z l i v r, p)
      else if x < Size_ l then selectZip l x (.isLeft b h z i v r p)
      else selectZip r (x - (Size_ l + 1)) (.isRight b h z i v l p)

/-- Cursor at 0-based rank `k` (the `Head` end cursor for `k = size()`). -/
def curAt (t : Node_ α) (k : Nat) : Cur α :=
  if k < Size_ t then .pos (selectZip t k .root).1 (selectZip t k .root).2 else .head t

/-- `push_back(val)`: insert before the end cursor. -/
def push_back (t : Node_ α) (i : Nat) (v : α) : Node_ α := InsertBefore_ (.head t) i v

/-- Descent of `First_` returning the leftmost node with its context. -/
def firstZip : Node_ α → Path α → Node_ α × Path α
  | .node b h z .nil i v r, p => (.node b h z .nil i v r, p)
  | .node b h z l i v r, p => firstZip l (.isLeft b h z i v r p)
  | .nil, p => (.nil, p)

/-- Descent of `Last_` returning the rightmost node with its context. -/
def lastZip : Node_ α → Path α → Node_ α × Path α
  | .node b h z l i v .nil, p => (.node b h z l i v .nil, p)
  | .node b h z l i v r, p => lastZip r (.isRight b h z i v l p)
  | .nil, p => (.nil, p)

/-- Cursor of `First_(head_)`: the first node, or `Head` itself when empty. -/
def firstCur : Node_ α → Cur α
  | .nil => .head .nil
  | .node b h z l i v r =>
      .pos (firstZip (.node b h z l i v r) .root).1 (firstZip (.node b h z l i v r) .root).2

/-- `push_front(val)`: insert before `First_(head_)`. -/
def push_front (t : Node_ α) (i : Nat) (v : α) : Node_ α := InsertBefore_ (firstCur t) i v

/-- Positional `insert(it, val)` (and `emplace(it, args...)`, which builds
the node the same way): insert before the cursor at rank `k`. -/
def insertAt (t : Node_ α) (k : Nat) (i : Nat) (v : α) : Node_ α :=
  InsertBefore_ (curAt t k) i v

theorem mkRedL {sib : Node_ α} {rest : Path α} {c₀ : Bool} {n₀ n m h z i : Nat} {v : α}
    (hs : Ok sib true n) (hrest : Pok rest c₀ n₀ false n z)
    (hh : h = n) (hz : z = m + Size_ sib + 1) :
    Pok (.isLeft false h z i v sib rest) c₀ n₀ true n m := by
  subst hh; subst hz; exact .redL hs hrest

theorem mkRedR {sib : Node_ α} {rest : Path α} {c₀ : Bool} {n₀ n m h z i : Nat} {v : α}
    (hs : Ok sib true n) (hrest : Pok rest c₀ n₀ false n z)
    (hh : h = n) (hz : z = m + Size_ sib + 1) :
    Pok (.isRight false h z i v sib rest) c₀ n₀ true n m := by
  subst hh; subst hz; exact .redR hs hrest

theorem mkBlackL {sib : Node_ α} {rest : Path α} {c₀ cs c : Bool} {n₀ n m h z i : Nat} {v : α}
    (hs : Ok sib cs n) (hrest : Pok rest c₀ n₀ true (n + 1) z)
    (hh : h = n + 1) (hz : z = m + Size_ sib + 1) :
    Pok (.isLeft true h z i v sib rest) c₀ n₀ c n m := by
  subst hh; subst hz; exact .blackL hs hrest

theorem mkBlackR {sib : Node_ α} {rest : Path α} {c₀ cs c : Bool} {n₀ n m h z i : Nat} {v : α}
    (hs : Ok sib cs n) (hrest : Pok rest c₀ n₀ true (n + 1) z)
    (hh : h = n + 1) (hz : z = m + Size_ sib + 1) :
    Pok (.isRight true h z i v sib rest) c₀ n₀ c n m := by
  subst hh; subst hz; exact .blackR hs hrest

/-- Descending to the rightmost attach point preserves the context
invariant, ending with a hole of black height 0 and size 0. -/
theorem lastAttach_pok {t : Node_ α} {c : Bool} {n : Nat} (ht : Ok t c n) :
    ∀ {p : Path α} {n₀ : Nat}, Pok p true n₀ c n (Size_ t) → t ≠ .nil →
    Pok (lastAttach t p) true n₀ true 0 0 := by
  induction ht with
  | nil => exact fun _ h => absurd rfl h
  | @red l r n i v hl hr ihl ihr =>
    intro p n₀ hp hne
    simp only [Size_node] at hp
    cases hr with
    | nil =>
      exact mkRedR hl hp rfl (by simp [Size_, Size_node]; try omega)
    | black hrl hrr =>
      simp only [lastAttach]
      exact ihr (mkRedR hl hp rfl (by simp [Size_, Size_node]; try omega)) (by simp)
  | @black l r cl cr n i v hl hr ihl ihr =>
    intro p n₀ hp hne
    simp only [Size_node] at hp
    cases hr with
    | nil =>
      exact mkBlackR hl hp rfl (by simp [Size_, Size_node]; try omega)
    | red hrl hrr =>
      simp only [lastAttach]
      exact ihr (mkBlackR hl hp rfl (by simp [Size_, Size_node]; try omega)) (by simp)
    | black hrl hrr =>
      simp only [lastAttach]
      exact ihr (mkBlackR hl hp rfl (by simp [Size_, Size_node]; try omega)) (by simp)

/-- Mirror of `lastAttach_pok` for the leftmost attach point. -/
theorem firstAttach_pok {t : Node_ α} {c : Bool} {n : Nat} (ht : Ok t c n) :
    ∀ {p : Path α} {n₀ : Nat}, Pok p true n₀ c n (Size_ t) → t ≠ .nil →
    Pok (firstAttach t p) true n₀ true 0 0 := by
  induction ht with
  | nil => exact fun _ h => absurd rfl h
  | @red l r n i v hl hr ihl ihr =>
    intro p n₀ hp hne
    simp only [Size_node] at hp
    cases hl with
    | nil =>
      exact mkRedL hr hp rfl (by simp [Size_, Size_node]; try omega)
    | black hll hlr =>
      simp only [firstAttach]
      exact ihl (mkRedL hr hp rfl (by simp [Size_, Size_node]; try omega)) (by simp)
  | @black l r cl cr n i v hl hr ihl ihr =>
    intro p n₀ hp hne
    simp only [Size_node] at hp
    cases hl with
    | nil =>
      exact mkBlackL hr hp rfl (by simp [Size_, Size_node]; try omega)
    | red hll hlr =>
      simp only [firstAttach]
      exact ihl (mkBlackL hr hp rfl (by simp [Size_, Size_node]; try omega)) (by simp)
    | black hll hlr =>
      simp only [firstAttach]
      exact ihl (mkBlackL hr hp rfl (by simp [Size_, Size_node]; try omega)) (by simp)

theorem lastAttach_pairs (t : Node_ α) (h : t ≠ .nil) : ∀ (p : Path α),
    leftP (lastAttach t p) = leftP p ++ toPairs t ∧ rightP (lastAttach t p) = rightP p := by
  induction t with
  | nil => exact absurd rfl h
  | node b hh z l i v r ihl ihr =>
    intro p
    cases r with
    | nil => simp [lastAttach, leftP, rightP, toPairs]
    | node rb rh rz rl ri rv rr =>
      obtain ⟨h1, h2⟩ := ihr (by simp) (.isRight b hh z i v l p)
      simp [lastAttach, h1, h2, leftP, rightP, toPairs]

theorem firstAttach_pairs (t : Node_ α) (h : t ≠ .nil) : ∀ (p : Path α),
    leftP (firstAttach t p) = leftP p ∧ rightP (firstAttach t p) = toPairs t ++ rightP p := by
  induction t with
  | nil => exact absurd rfl h
  | node b hh z l i v r ihl ihr =>
    intro p
    cases l with
    | nil => simp [firstAttach, leftP, rightP, toPairs]
    | node lb lh lz ll li lv lr =>
      obtain ⟨h1, h2⟩ := ihl (by simp) (.isLeft b hh z i v r p)
      simp [firstAttach, h1, h2, leftP, rightP, toPairs]

theorem toPairs_length (t : Node_ α) : (toPairs t).length = realSize t := by
  induction t with
  | nil => rfl
  | node b h z l i v r ihl ihr => simp [toPairs, realSize, ihl, ihr]; omega

theorem take_drop_get_concat {β : Type} {A B : List β} {c : β} {x : Nat} (h : A.length = x) :
    (A ++ c :: B).take x = A ∧ (A ++ c :: B).drop (x + 1) = B ∧
    (A ++ c :: B)[x]? = some c := by
  induction A generalizing x with
  | nil => subst h; simp
  | cons a A ih =>
    cases x with
    | zero => simp at h
    | succ x =>
      obtain ⟨h1, h2, h3⟩ := ih (by simpa using h)
      simp [h1, h2, h3]

theorem take_drop_get_concat_right {β : Type} {A B : List β} {c : β} {x k : Nat}
    (h : A.length = k) (hx : k < x) :
    (A ++ c :: B).take x = A ++ c :: B.take (x - (k + 1)) ∧
    (A ++ c :: B).drop (x + 1) = B.drop (x - (k + 1) + 1) ∧
    (A ++ c :: B)[x]? = B[x - (k + 1)]? := by
  induction A generalizing x k with
  | nil =>
    subst h
    cases x with
    | zero => omega
    | succ x => simp
  | cons a A ih =>
    cases k with
    | zero => simp at h
    | succ k =>
      cases x with
      | zero => omega
      | succ x =>
        obtain ⟨h1, h2, h3⟩ := ih (x := x) (by simpa using h) (by omega)
        have he : x + 1 - (k + 1 + 1) = x - (k + 1) := by omega
        simp [h1, h2, h3, he]

/-- Full specification of `Select_` on a valid tree: it finds a valid
focused node whose context decomposes the in-order pair sequence at rank
`x`, and the context invariant descends with it. -/
theorem selectZip_full {t : Node_ α} {c : Bool} {n : Nat} (ht : Ok t c n) :
    ∀ {x : Nat} {p : Path α} {n₀ : Nat}, Pok p true n₀ c n (Size_ t) → x < realSize t →
    ∃ f q c' n', selectZip t x p = (f, q) ∧ Ok f c' n' ∧
      Pok q true n₀ c' n' (Size_ f) ∧
      leftP q ++ toPairs (leftOf f) = leftP p ++ (toPairs t).take x ∧
      toPairs (rightOf f) ++ rightP q = (toPairs t).drop (x + 1) ++ rightP p ∧
      (toPairs t)[x]? = rootPair f := by
  induction ht with
  | nil => intro x p n₀ hp hx; simp [realSize] at hx
  | @red l r n i v hl hr ihl ihr =>
    intro x p n₀ hp hx
    simp only [Size_node] at hp
    have hlen : (toPairs l).length = Size_ l := by rw [toPairs_length, hl.size_eq]
    by_cases h1 : Size_ l = x
    · obtain ⟨e1, e2, e3⟩ := take_drop_get_concat (B := toPairs r) (c := (i, v)) (h1 ▸ hlen)
      refine ⟨.node false n (Size_ l + Size_ r + 1) l i v r, p, false, n,
        by simp [selectZip, h1], .red hl hr, by simpa only [Size_node] using hp, ?_, ?_, ?_⟩
      · simp [toPairs, leftOf, e1]
      · simp [toPairs, rightOf, e2]
      · simpa [toPairs, rootPair] using e3
    · by_cases h2 : x < Size_ l
      · obtain ⟨f, q, c', n', hsel, hOkf, hPok, hL, hR, hG⟩ :=
          ihl (mkRedL (i := i) (v := v) hr hp rfl rfl) (x := x) (by rw [← hl.size_eq]; omega)
        refine ⟨f, q, c', n', by simp [selectZip, h1, h2, hsel], hOkf, hPok, ?_, ?_, ?_⟩
        · rw [hL]
          simp only [leftP, toPairs]
          rw [List.take_append_of_le_length (by omega)]
        · rw [hR]
          simp only [rightP, toPairs]
          rw [List.drop_append_of_le_length (by omega)]
          simp
        · rw [← hG]
          simp only [toPairs]
          rw [List.getElem?_append_left (by omega)]
      · obtain ⟨e1, e2, e3⟩ := take_drop_get_concat_right (x := x) (B := toPairs r)
          (c := (i, v)) hlen (by omega)
        obtain ⟨f, q, c', n', hsel, hOkf, hPok, hL, hR, hG⟩ :=
          ihr (mkRedR (i := i) (v := v) hl hp rfl (by omega)) (x := x - (Size_ l + 1)) (by
            have e4 := hl.size_eq
            have e5 := hr.size_eq
            simp [realSize] at hx
            omega)
        refine ⟨f, q, c', n', by simp [selectZip, h1, h2, hsel], hOkf, hPok, ?_, ?_, ?_⟩
        · rw [hL]
          simp only [leftP, toPairs, e1]
          simp [List.append_assoc]
        · rw [hR]
          simp only [rightP, toPairs, e2]
        · simp only [toPairs, e3, hG]
  | @black l r cl cr n i v hl hr ihl ihr =>
    intro x p n₀ hp hx
    simp only [Size_node] at hp
    have hlen : (toPairs l).length = Size_ l := by rw [toPairs_length, hl.size_eq]
    by_cases h1 : Size_ l = x
    · obtain ⟨e1, e2, e3⟩ := take_drop_get_concat (B := toPairs r) (c := (i, v)) (h1 ▸ hlen)
      refine ⟨.node true (n + 1) (Size_ l + Size_ r + 1) l i v r, p, true, n + 1,
        by simp [selectZip, h1], .black hl hr, by simpa only [Size_node] using hp, ?_, ?_, ?_⟩
      · simp [toPairs, leftOf, e1]
      · simp [toPairs, rightOf, e2]
      · simpa [toPairs, rootPair] using e3
    · by_cases h2 : x < Size_ l
      · obtain ⟨f, q, c', n', hsel, hOkf, hPok, hL, hR, hG⟩ :=
          ihl (mkBlackL (i := i) (v := v) hr hp rfl rfl) (x := x) (by rw [← hl.size_eq]; omega)
        refine ⟨f, q, c', n', by simp [selectZip, h1, h2, hsel], hOkf, hPok, ?_, ?_, ?_⟩
        · rw [hL]
          simp only [leftP, toPairs]
          rw [List.take_append_of_le_length (by omega)]
        · rw [hR]
          simp only [rightP, toPairs]
          rw [List.drop_append_of_le_length (by omega)]
          simp
        · rw [← hG]
          simp only [toPairs]
          rw [List.getElem?_append_left (by omega)]
      · obtain ⟨e1, e2, e3⟩ := take_drop_get_concat_right (x := x) (B := toPairs r)
          (c := (i, v)) hlen (by omega)
        obtain ⟨f, q, c', n', hsel, hOkf, hPok, hL, hR, hG⟩ :=
          ihr (mkBlackR (i := i) (v := v) hl hp rfl (by omega)) (x := x - (Size_ l + 1)) (by
            have e4 := hl.size_eq
            have e5 := hr.size_eq
            simp [realSize] at hx
            omega)
        refine ⟨f, q, c', n', by simp [selectZip, h1, h2, hsel], hOkf, hPok, ?_, ?_, ?_⟩
        · rw [hL]
          simp only [leftP, toPairs, e1]
          simp [List.append_assoc]
        · rw [hR]
          simp only [rightP, toPairs, e2]
        · simp only [toPairs, e3, hG]

/-- Specification of the `First_` descent: it reaches the leftmost node,
which has no left child, preserving the context invariant. -/
theorem firstZip_full {t : Node_ α} {c : Bool} {n : Nat} (ht : Ok t c n) :
    ∀ {p : Path α} {n₀ : Nat}, Pok p true n₀ c n (Size_ t) → t ≠ .nil →
    ∃ f q c' n', firstZip t p = (f, q) ∧ Ok f c' n' ∧
      Pok q true n₀ c' n' (Size_ f) ∧ f ≠ .nil ∧ leftOf f = .nil ∧
      leftP q = leftP p ∧ toPairs f ++ rightP q = toPairs t ++ rightP p := by
  induction ht with
  | nil => exact fun _ h => absurd rfl h
  | @red l r n i v hl hr ihl ihr =>
    intro p n₀ hp hne
    simp only [Size_node] at hp
    cases hl with
    | nil =>
      exact ⟨_, _, false, _, rfl, .red .nil hr, by simpa only [Size_node] using hp,
        by simp, rfl, rfl, rfl⟩
    | black hll hlr =>
      simp only [firstZip]
      obtain ⟨f, q, c', n', h1, h2, h3, h4, h5, h6, h7⟩ :=
        ihl (mkRedL (i := i) (v := v) hr hp rfl rfl) (by simp)
      exact ⟨f, q, c', n', h1, h2, h3, h4, h5, by simpa [leftP] using h6,
        by simp [h7, rightP, toPairs]⟩
  | @black l r cl cr n i v hl hr ihl ihr =>
    intro p n₀ hp hne
    simp only [Size_node] at hp
    cases hl with
    | nil =>
      exact ⟨_, _, true, _, rfl, .black .nil hr, by simpa only [Size_node] using hp,
        by simp, rfl, rfl, rfl⟩
    | red hll hlr =>
      simp only [firstZip]
      obtain ⟨f, q, c', n', h1, h2, h3, h4, h5, h6, h7⟩ :=
        ihl (mkBlackL (i := i) (v := v) hr hp rfl rfl) (by simp)
      exact ⟨f, q, c', n', h1, h2, h3, h4, h5, by simpa [leftP] using h6,
        by simp [h7, rightP, toPairs]⟩
    | black hll hlr =>
      simp only [firstZip]
      obtain ⟨f, q, c', n', h1, h2, h3, h4, h5, h6, h7⟩ :=
        ihl (mkBlackL (i := i) (v := v) hr hp rfl rfl) (by simp)
      exact ⟨f, q, c', n', h1, h2, h3, h4, h5, by simpa [leftP] using h6,
        by simp [h7, rightP, toPairs]⟩

/-- Specification of the `Last_` descent: it reaches the rightmost node,
which has no right child, preserving the context invariant. -/
theorem lastZip_full {t : Node_ α} {c : Bool} {n : Nat} (ht : Ok t c n) :
    ∀ {p : Path α} {n₀ : Nat}, Pok p true n₀ c n (Size_ t) → t ≠ .nil →
    ∃ f q c' n', lastZip t p = (f, q) ∧ Ok f c' n' ∧
      Pok q true n₀ c' n' (Size_ f) ∧ f ≠ .nil ∧ rightOf f = .nil ∧
      rightP q = rightP p ∧ leftP q ++ toPairs f = leftP p ++ toPairs t := by
  induction ht with
  | nil => exact fun _ h => absurd rfl h
  | @red l r n i v hl hr ihl ihr =>
    intro p n₀ hp hne
    simp only [Size_node] at hp
    cases hr with
    | nil =>
      exact ⟨_, _, false, _, rfl, .red hl .nil, by simpa only [Size_node] using hp,
        by simp, rfl, rfl, rfl⟩
    | black hrl hrr =>
      simp only [lastZip]
      obtain ⟨f, q, c', n', h1, h2, h3, h4, h5, h6, h7⟩ :=
        ihr (mkRedR (i := i) (v := v) hl hp rfl (by omega)) (by simp)
      exact ⟨f, q, c', n', h1, h2, h3, h4, h5, by simpa [rightP] using h6,
        by simp [h7, leftP, toPairs]⟩
  | @black l r cl cr n i v hl hr ihl ihr =>
    intro p n₀ hp hne
    simp only [Size_node] at hp
    cases hr with
    | nil =>
      exact ⟨_, _, true, _, rfl, .black hl .nil, by simpa only [Size_node] using hp,
        by simp, rfl, rfl, rfl⟩
    | red hrl hrr =>
      simp only [lastZip]
      obtain ⟨f, q, c', n', h1, h2, h3, h4, h5, h6, h7⟩ :=
        ihr (mkBlackR (i := i) (v := v) hl hp rfl (by omega)) (by simp)
      exact ⟨f, q, c', n', h1, h2, h3, h4, h5, by simpa [rightP] using h6,
        by simp [h7, leftP, toPairs]⟩
    | black hrl hrr =>
      simp only [lastZip]
      obtain ⟨f, q, c', n', h1, h2, h3, h4, h5, h6, h7⟩ :=
        ihr (mkBlackR (i := i) (v := v) hl hp rfl (by omega)) (by simp)
      exact ⟨f, q, c', n', h1, h2, h3, h4, h5, by simpa [rightP] using h6,
        by simp [h7, leftP, toPairs]⟩

theorem drop_eq_cons_of_get {β : Type} {L : List β} {k : Nat} {c : β}
    (h : L[k]? = some c) : L.drop k = c :: L.drop (k + 1) := by
  induction L generalizing k with
  | nil => simp at h
  | cons a L ih =>
    cases k with
    | zero => simp at h; simp [h]
    | succ k => simpa using ih (by simpa using h)

/-- Appending a fresh node at the very end (`InsertBefore_` with the `Head`
cursor, which is what `push_back` does) keeps the tree valid. -/
theorem InsertBefore_head_ok {t : Node_ α} {n i : Nat} {v : α} (ht : Ok t true n) :
    ∃ n', Ok (InsertBefore_ (.head t) i v) true n' := by
  cases t with
  | nil =>
    exact InsertRepair_ok 1 _ _ (.root (c := true) (n := 0) (m := 0)) (.red .nil .nil) rfl
  | node b h z l j w r =>
    show ∃ n', Ok (InsertRepair_ 1 (freshNode i v) (lastAttach (.node b h z l j w r) .root)) true n'
    exact InsertRepair_ok 1 _ _
      (lastAttach_pok ht (.root (m := Size_ (.node b h z l j w r))) (by simp))
      (.red .nil .nil) rfl

theorem InsertBefore_head_pairs {t : Node_ α} {i : Nat} {v : α} :
    t ≠ .nil → toPairs (InsertBefore_ (.head t) i v) = toPairs t ++ [(i, v)] := by
  intro h
  cases t with
  | nil => exact absurd rfl h
  | node b hh z l j w r =>
    show toPairs (InsertRepair_ 1 (freshNode i v) (lastAttach (.node b hh z l j w r) .root))
      = _
    rw [toPairs_InsertRepair]
    obtain ⟨e1, e2⟩ := lastAttach_pairs (.node b hh z l j w r) (by simp) .root
    simp [e1, e2, leftP, rightP, freshNode, toPairs]

theorem InsertBefore_head_pairs_nil {i : Nat} {v : α} :
    toPairs (InsertBefore_ (.head (.nil : Node_ α)) i v) = [(i, v)] := rfl

/-- Inserting before a valid node cursor keeps the tree valid. -/
theorem InsertBefore_pos_ok {f : Node_ α} {q : Path α} {cf : Bool} {nf n₀ i : Nat} {v : α}
    (hOkf : Ok f cf nf) (hPok : Pok q true n₀ cf nf (Size_ f)) (hf : f ≠ .nil) :
    ∃ n', Ok (InsertBefore_ (.pos f q) i v) true n' := by
  cases hOkf with
  | nil => exact absurd rfl hf
  | @red l r nf j w hl hr =>
    simp only [Size_node] at hPok
    cases hl with
    | nil =>
      exact InsertRepair_ok 1 _ _ (mkRedL hr hPok rfl (by simp [Size_])) (.red .nil .nil) rfl
    | black hll hlr =>
      exact InsertRepair_ok 1 _ _
        (lastAttach_pok (.black hll hlr) (mkRedL hr hPok rfl (by simp [Size_node]; try omega))
          (by simp))
        (.red .nil .nil) rfl
  | @black l r cl cr nf j w hl hr =>
    simp only [Size_node] at hPok
    cases hl with
    | nil =>
      exact InsertRepair_ok 1 _ _ (c := true) (mkBlackL hr hPok rfl (by simp [Size_])) (.red .nil .nil) rfl
    | red hll hlr =>
      exact InsertRepair_ok 1 _ _
        (lastAttach_pok (.red hll hlr)
          (mkBlackL (c := false) hr hPok rfl (by simp [Size_node]; try omega)) (by simp))
        (.red .nil .nil) rfl
    | black hll hlr =>
      exact InsertRepair_ok 1 _ _
        (lastAttach_pok (.black hll hlr)
          (mkBlackL (c := true) hr hPok rfl (by simp [Size_node]; try omega)) (by simp))
        (.red .nil .nil) rfl

/-- Sequence effect of inserting before a node cursor: the new pair lands
right after the focus's left subtree, i.e. just before the focused element. -/
theorem InsertBefore_pos_pairs {fb : Bool} {fh fz fj i : Nat} {fl fr : Node_ α}
    {fw v : α} {q : Path α} :
    toPairs (InsertBefore_ (.pos (.node fb fh fz fl fj fw fr) q) i v)
      = leftP q ++ toPairs fl ++ (i, v) :: (fj, fw) :: (toPairs fr ++ rightP q) := by
  cases fl with
  | nil =>
    show toPairs (InsertRepair_ 1 (freshNode i v) (.isLeft fb fh fz fj fw fr q)) = _
    rw [toPairs_InsertRepair]
    simp [leftP, rightP, freshNode, toPairs]
  | node lb lh lz ll li lv lr =>
    show toPairs (InsertRepair_ 1 (freshNode i v)
      (lastAttach (.node lb lh lz ll li lv lr) (.isLeft fb fh fz fj fw fr q))) = _
    rw [toPairs_InsertRepair]
    obtain ⟨e1, e2⟩ := lastAttach_pairs (.node lb lh lz ll li lv lr) (by simp)
      (.isLeft fb fh fz fj fw fr q)
    simp [e1, e2, leftP, rightP, freshNode, toPairs]

theorem ne_nil_of_rootPair {f : Node_ α} {pr : Nat × α} (h : rootPair f = some pr) :
    f ≠ .nil := by
  intro he; subst he; simp [rootPair] at h

theorem push_back_ok {t : Node_ α} {n i : Nat} {v : α} (ht : Ok t true n) :
    ∃ n', Ok (push_back t i v) true n' := InsertBefore_head_ok ht

theorem push_back_pairs (t : Node_ α) (i : Nat) (v : α) :
    toPairs (push_back t i v) = toPairs t ++ [(i, v)] := by
  cases t with
  | nil => simp [push_back, InsertBefore_head_pairs_nil, toPairs]
  | node b h z l j w r => exact InsertBefore_head_pairs (by simp)

theorem push_front_ok {t : Node_ α} {n i : Nat} {v : α} (ht : Ok t true n) :
    ∃ n', Ok (push_front t i v) true n' := by
  cases t with
  | nil => exact InsertBefore_head_ok ht
  | node b h z l j w r =>
    obtain ⟨f, q, c', n', h1, h2, h3, h4, h5, h6, h7⟩ :=
      firstZip_full ht (.root (m := Size_ (.node b h z l j w r))) (by simp)
    show ∃ n', Ok (InsertBefore_ (firstCur (.node b h z l j w r)) i v) true n'
    simp only [firstCur, h1]
    exact InsertBefore_pos_ok h2 h3 h4

theorem push_front_pairs {t : Node_ α} {n i : Nat} {v : α} (ht : Ok t true n) :
    toPairs (push_front t i v) = (i, v) :: toPairs t := by
  cases t with
  | nil => rfl
  | node b h z l j w r =>
    obtain ⟨f, q, c', n', h1, h2, h3, h4, h5, h6, h7⟩ :=
      firstZip_full ht (.root (m := Size_ (.node b h z l j w r))) (by simp)
    show toPairs (InsertBefore_ (firstCur (.node b h z l j w r)) i v) = _
    simp only [firstCur, h1]
    cases f with
    | nil => exact absurd rfl h4
    | node fb fh fz fl fj fw fr =>
      have hfl : fl = .nil := h5
      subst hfl
      rw [InsertBefore_pos_pairs]
      simp only [toPairs, rightP, List.append_nil, List.nil_append] at h7
      rw [h6]
      simp only [leftP, toPairs, List.nil_append, List.append_nil]
      simp only [List.cons_append] at h7
      rw [h7]

/-- Validity of positional insert (`insert` / `emplace`) at any rank up to
and including the end. -/
theorem insertAt_ok {t : Node_ α} {n k i : Nat} {v : α} (ht : Ok t true n)
    (hk : k ≤ realSize t) :
    ∃ n', Ok (insertAt t k i v) true n' := by
  show ∃ n', Ok (InsertBefore_ (curAt t k) i v) true n'
  by_cases hc : k < Size_ t
  · obtain ⟨f, q, c', n', h1, h2, h3, h4, h5, h6⟩ :=
      selectZip_full ht (.root (m := Size_ t)) (x := k) (p := .root)
        (by rw [← ht.size_eq]; omega)
    simp only [curAt, if_pos hc, h1]
    have hget : (toPairs t)[k]? = some ((toPairs t).get ⟨k, by
      rw [toPairs_length]; rw [← ht.size_eq]; omega⟩) := List.getElem?_eq_getElem _
    exact InsertBefore_pos_ok h2 h3 (ne_nil_of_rootPair (hget ▸ h6).symm)
  · simp only [curAt, if_neg hc]
    exact InsertBefore_head_ok ht

/-- Sequence effect of positional insert: the new pair is placed at rank
`k`, everything from `k` on shifts right. -/
theorem insertAt_pairs {t : Node_ α} {n k i : Nat} {v : α} (ht : Ok t true n)
    (hk : k ≤ realSize t) :
    toPairs (insertAt t k i v) = (toPairs t).take k ++ (i, v) :: (toPairs t).drop k := by
  show toPairs (InsertBefore_ (curAt t k) i v) = _
  have hlen : (toPairs t).length = realSize t := toPairs_length t
  by_cases hc : k < Size_ t
  · obtain ⟨f, q, c', n', h1, h2, h3, h4, h5, h6⟩ :=
      selectZip_full ht (.root (m := Size_ t)) (x := k) (p := .root)
        (by rw [← ht.size_eq]; omega)
    simp only [curAt, if_pos hc, h1]
    have hget : (toPairs t)[k]? = some ((toPairs t).get ⟨k, by
      rw [hlen, ← ht.size_eq]; omega⟩) := List.getElem?_eq_getElem _
    have hf := ne_nil_of_rootPair (hget ▸ h6).symm
    cases f with
    | nil => exact absurd rfl hf
    | node fb fh fz fl fj fw fr =>
      rw [InsertBefore_pos_pairs]
      simp only [leftP, rightP, leftOf, rightOf, List.append_nil, List.nil_append] at h4 h5
      have h6s : (toPairs t)[k]? = some (fj, fw) := by simpa [rootPair] using h6
      rw [drop_eq_cons_of_get h6s]
      rw [← h4, ← h5]
  · have hke : k = realSize t := by rw [← ht.size_eq] at hk ⊢; omega
    simp only [curAt, if_neg hc]
    cases t with
    | nil =>
      simp [realSize] at hke
      subst hke
      simp [InsertBefore_head_pairs_nil, toPairs]
    | node b h z l j w r =>
      rw [InsertBefore_head_pairs (by simp)]
      rw [List.take_of_length_le (by omega), List.drop_of_length_le (by omega)]

/-- After-loop part of `RemoveRepair_` (cases 6, 5 and 4 of `RBTree.h`).
`d` is the subtree on the deficient side, `side` is true when the
deficiency is on the parent's left, `(pb, ph, pz)` are the parent's stored
fields (its size still stale by one), `s` the black sibling and `rest` the
parent's context.  A null sibling cannot occur under the invariants and
just reassembles. -/
def removeFix (d : Node_ α) (side : Bool) (pb : Bool) (ph pz pid : Nat) (pv : α)
    (s : Node_ α) (rest : Path α) : Node_ α :=
  match s with
  | .nil =>
      if side then DecreaseSize_ (.node true ph (pz - 1) d pid pv .nil) rest
      else DecreaseSize_ (.node true ph (pz - 1) .nil pid pv d) rest
  | .node sb sh sz2 sl si sv sr =>
    if side then
      if RootBlack_ sr = false then
        let sout := BlackenInc_ sr
        let p2 := Node_.node true (ph - cond pb 1 0) (Size_ d + Size_ sl + 1) d pid pv sl
        DecreaseSize_ (.node pb (sh + cond pb 1 0) (Size_ p2 + Size_ sout + 1) p2 si sv sout) rest
      else if RootBlack_ sl = false then
        match sl with
        | .nil => DecreaseSize_ (.node true ph (pz - 1) d pid pv (.node sb sh sz2 sl si sv sr)) rest
        | .node _ sinh sinz sinl sini sinv sinr =>
          let p2 := Node_.node true (ph - cond pb 1 0) (Size_ d + Size_ sinl + 1) d pid pv sinl
          let s2 := Node_.node true sh (Size_ sinr + Size_ sr + 1) sinr si sv sr
          DecreaseSize_ (.node pb (sinh + 1 + cond pb 1 0) (Size_ p2 + Size_ s2 + 1) p2 sini sinv s2) rest
      else
        DecreaseSize_
          (.node true ph (pz - 1) d pid pv (.node false (sh - 1) sz2 sl si sv sr)) rest
    else
      if RootBlack_ sl = false then
        let sout := BlackenInc_ sl
        let p2 := Node_.node true (ph - cond pb 1 0) (Size_ sr + Size_ d + 1) sr pid pv d
        DecreaseSize_ (.node pb (sh + cond pb 1 0) (Size_ sout + Size_ p2 + 1) sout si sv p2) rest
      else if RootBlack_ sr = false then
        match sr with
        | .nil => DecreaseSize_ (.node true ph (pz - 1) (.node sb sh sz2 sl si sv sr) pid pv d) rest
        | .node _ sinh sinz sinl sini sinv sinr =>
          let p2 := Node_.node true (ph - cond pb 1 0) (Size_ sinr + Size_ d + 1) sinr pid pv d
          let s2 := Node_.node true sh (Size_ sl + Size_ sinl + 1) sl si sv sinl
          DecreaseSize_ (.node pb (sinh + 1 + cond pb 1 0) (Size_ s2 + Size_ p2 + 1) s2 sini sinv p2) rest
      else
        DecreaseSize_
          (.node true ph (pz - 1) (.node false (sh - 1) sz2 sl si sv sr) pid pv d) rest

/-- Deletion repair loop `RemoveRepair_(p, s)`: `d` is the subtree on the
deficient side (null right after a black leaf was detached); the head of
the path is the parent whose other child is the sibling.  Stored sizes
along the path are stale by one; the repair decrements them as it resolves
the deficiency, exactly as the C++ loop does. -/
def RemoveRepair_ (d : Node_ α) : Path α → Node_ α
  | .root => d
  | .isLeft pb ph pz pid pv s rest =>
    match s with
    | .node false sh sz2 sl si sv sr =>
      removeFix d true false (ph - 1) (Size_ d + Size_ sl + 1 + 1) pid pv sl
        (.isLeft true (sh + 1) (Size_ d + Size_ sl + 1 + Size_ sr + 1 + 1) si sv sr rest)
    | .node true sh sz2 sl si sv sr =>
      if pb && RootBlack_ sl && RootBlack_ sr then
        RemoveRepair_
          (.node true (ph - 1) (pz - 1) d pid pv (.node false (sh - 1) sz2 sl si sv sr)) rest
      else
        removeFix d true pb ph pz pid pv (.node true sh sz2 sl si sv sr) rest
    | .nil => removeFix d true pb ph pz pid pv .nil rest
  | .isRight pb ph pz pid pv s rest =>
    match s with
    | .node false sh sz2 sl si sv sr =>
      removeFix d false false (ph - 1) (Size_ sr + Size_ d + 1 + 1) pid pv sr
        (.isRight true (sh + 1) (Size_ sr + Size_ d + 1 + Size_ sl + 1 + 1) si sv sl rest)
    | .node true sh sz2 sl si sv sr =>
      if pb && RootBlack_ sl && RootBlack_ sr then
        RemoveRepair_
          (.node true (ph - 1) (pz - 1) (.node false (sh - 1) sz2 sl si sv sr) pid pv d) rest
      else
        removeFix d false pb ph pz pid pv (.node true sh sz2 sl si sv sr) rest
    | .nil => removeFix d false pb ph pz pid pv .nil rest

/-- Physical removal of a focused node with at most one child (`Remove_`
after the two-child reduction): a red node is detached, a black node with a
lone (necessarily red) child is replaced by the blackened child, a black
leaf is detached and enters deletion repair. -/
def physRemove : Node_ α → Path α → Node_ α
  | .nil, q => plug .nil q
  | .node b bh2 z l i v r, q =>
    if b = false then DecreaseSize_ .nil q
    else match l, r with
    | .nil, .nil => RemoveRepair_ .nil q
    | .nil, c => DecreaseSize_ (BlackenInc_ c) q
    | c, _ => DecreaseSize_ (BlackenInc_ c) q

/-- Stored value of the rightmost node (`Last_`), used for the value swap
in the two-child case of `Remove_`. -/
def lastVal (dflt : α) : Node_ α → α
  | .nil => dflt
  | .node _ _ _ _ _ v .nil => v
  | .node _ _ _ _ _ _ r => lastVal dflt r

/-- Address read of a focused node. -/
def rootId : Node_ α → Nat
  | .nil => 0
  | .node _ _ _ _ i _ _ => i

/-- `Remove_(a)` on a focused node: a node with two children first swaps
stored values with its in-order predecessor (`Last_(a->left)`) and that
predecessor is physically removed instead.  Returns the new whole tree
together with the removed node's address and (post-swap) stored value —
the node `Remove_` returns in C++, whose value `merge` reuses as pivot. -/
def Remove_ [Inhabited α] : Node_ α → Path α → Node_ α × Nat × α
  | .nil, q => (plug .nil q, 0, default)
  | .node b bh2 z .nil i v r, q => (physRemove (.node b bh2 z .nil i v r) q, i, v)
  | .node b bh2 z l i v .nil, q => (physRemove (.node b bh2 z l i v .nil) q, i, v)
  | .node b bh2 z l i v r, q =>
      let x := lastZip l (.isLeft b bh2 z i (lastVal v l) r q)
      (physRemove x.1 x.2, rootId x.1, v)

/-- Positional `erase` at rank `k`: locate by `Select_`, then `Remove_`. -/
def eraseAt [Inhabited α] (t : Node_ α) (k : Nat) : Node_ α × Nat × α :=
  Remove_ (selectZip t k .root).1 (selectZip t k .root).2

/-- `pop_back()`: remove `Last_(head_->left)`. -/
def pop_back [Inhabited α] (t : Node_ α) : Node_ α × Nat × α :=
  Remove_ (lastZip t .root).1 (lastZip t .root).2

/-- `pop_front()`: remove `First_(head_->left)`. -/
def pop_front [Inhabited α] (t : Node_ α) : Node_ α × Nat × α :=
  Remove_ (firstZip t .root).1 (firstZip t .root).2

/-- Size propagation `DecreaseSize_` keeps the tree valid when the plugged
subtree is exactly one smaller than the hole expects. -/
theorem DecreaseSize_ok {t : Node_ α} {p : Path α} {c₀ c c' : Bool} {n₀ n m : Nat}
    (hp : Pok p c₀ n₀ c n m) (ht : Ok t c' n) (hsz : Size_ t = m - 1) (hm : 1 ≤ m)
    (hc : c = true → c' = true) :
    ∃ c₁, Ok (DecreaseSize_ t p) c₁ n₀ ∧ (c₀ = true → c₁ = true) := by
  induction hp generalizing t c' with
  | root => exact ⟨c', ht, hc⟩
  | @redL sib rest c₀ n₀ n m i v hs hrest ih =>
    rw [hc rfl] at ht
    have h2 : Ok (Node_.node false n (m + Size_ sib + 1 - 1) t i v sib) false n :=
      okRedH ht hs rfl (by omega)
    exact ih h2 (by simp [Size_node]; try omega) (by omega) (by simp)
  | @redR sib rest c₀ n₀ n m i v hs hrest ih =>
    rw [hc rfl] at ht
    have h2 : Ok (Node_.node false n (m + Size_ sib + 1 - 1) sib i v t) false n :=
      okRedH hs ht rfl (by omega)
    exact ih h2 (by simp [Size_node]; try omega) (by omega) (by simp)
  | @blackL sib rest c₀ cs c n₀ n m i v hs hrest ih =>
    have h2 : Ok (Node_.node true (n + 1) (m + Size_ sib + 1 - 1) t i v sib) true (n + 1) :=
      okBlackH ht hs rfl (by omega)
    exact ih h2 (by simp [Size_node]; try omega) (by omega) (fun _ => rfl)
  | @blackR sib rest c₀ cs c n₀ n m i v hs hrest ih =>
    have h2 : Ok (Node_.node true (n + 1) (m + Size_ sib + 1 - 1) sib i v t) true (n + 1) :=
      okBlackH hs ht rfl (by omega)
    exact ih h2 (by simp [Size_node]; try omega) (by omega) (fun _ => rfl)

/-- Build a node of either color whose children are both effectively black. -/
theorem okCond {l r : Node_ α} {b : Bool} {h n z i : Nat} {v : α}
    (hl : Ok l true n) (hr : Ok r true n) (hh : h = n + cond b 1 0)
    (hz : z = Size_ l + Size_ r + 1) :
    Ok (.node b h z l i v r) b (n + cond b 1 0) := by
  cases b with
  | false => simpa using okRedH hl hr (by simpa using hh) hz
  | true => simpa using okBlackH hl hr (by simpa using hh) hz

/-- The after-loop cases (6, 5, 4) of the deletion repair, deficiency on
the parent's left: given a black deficient subtree one short in height and
size, the result is valid.  The guard says case 4 (both nephews black) can
only be reached with a red parent. -/
theorem removeFix_ok_left {d s : Node_ α} {rest : Path α} {pb : Bool}
    {k n₀ m ph pz pid : Nat} {pv : α}
    (hd : Ok d true k) (hs : Ok s true (k + 1))
    (hrest : Pok rest true n₀ pb (k + 1 + cond pb 1 0) (m + Size_ s + 1))
    (hph : ph = k + 1 + cond pb 1 0) (hpz : pz = m + Size_ s + 1)
    (hszd : Size_ d = m - 1) (hm : 1 ≤ m)
    (hguard : RootBlack_ (leftOf s) = true → RootBlack_ (rightOf s) = true → pb = false) :
    ∃ n₁, Ok (removeFix d true pb ph pz pid pv s rest) true n₁ := by
  cases hs with
  | @black sl sr csl csr k2 si sv hsl hsr =>
    simp only [leftOf, rightOf] at hguard
    by_cases h6 : RootBlack_ sr = false
    · have hb := hsr.root_black
      rw [h6] at hb
      rw [← hb] at hsr
      have hsout : Ok (BlackenInc_ sr) true (k + 1) := by
        cases hsr with | red h1 h2 => exact .black h1 h2
      have hp2 : Ok (Node_.node true (ph - cond pb 1 0) (Size_ d + Size_ sl + 1) d pid pv sl)
          true (k + 1) := okBlackH hd hsl (by omega) rfl
      have hs2 := okCond (b := pb) (i := si) (v := sv) hp2 hsout rfl rfl
      simp only [removeFix, reduceIte, if_pos h6]
      have hsub := Size_BlackenInc sr
      obtain ⟨c₁, hok, himp⟩ := DecreaseSize_ok hrest hs2
        (by simp only [Size_node] at hszd ⊢; omega) (by omega) (fun h => h ▸ rfl)
      exact ⟨n₀, himp rfl ▸ hok⟩
    · have hbr : RootBlack_ sr = true := by simpa using h6
      have hsr2 : Ok sr true k := by rw [← hsr.root_black, hbr] at hsr; exact hsr
      by_cases h5 : RootBlack_ sl = false
      · have hb := hsl.root_black
        rw [h5] at hb
        rw [← hb] at hsl
        cases hsl with
        | @red sinl sinr k3 sini sinv hsinl hsinr =>
          simp only [removeFix, reduceIte, if_neg (by simp [h6] : ¬RootBlack_ sr = false), if_pos h5]
          have hp2 : Ok (Node_.node true (ph - cond pb 1 0) (Size_ d + Size_ sinl + 1)
              d pid pv sinl) true (k + 1) := okBlackH hd hsinl (by omega) rfl
          have hs2 : Ok (Node_.node true (k + 1) (Size_ sinr + Size_ sr + 1)
              sinr si sv sr) true (k + 1) := okBlackH hsinr hsr2 rfl rfl
          have hsin2 := okCond (b := pb) (i := sini) (v := sinv) hp2 hs2 rfl rfl
          obtain ⟨c₁, hok, himp⟩ := DecreaseSize_ok hrest hsin2
            (by simp only [Size_node] at hszd ⊢; omega) (by omega) (fun h => h ▸ rfl)
          exact ⟨n₀, himp rfl ▸ hok⟩
      · have hbl : RootBlack_ sl = true := by simpa using h5
        have hsl2 : Ok sl true k := by rw [← hsl.root_black, hbl] at hsl; exact hsl
        have hpb : pb = false := hguard hbl hbr
        subst hpb
        simp only [removeFix, reduceIte, if_neg (by simp [h6] : ¬RootBlack_ sr = false),
          if_neg (by simp [h5] : ¬RootBlack_ sl = false)]
        have hs2 : Ok (Node_.node false (k + 1 - 1) (Size_ sl + Size_ sr + 1)
            sl si sv sr) false k := okRedH hsl2 hsr2 (by omega) rfl
        have hp2 : Ok (Node_.node true ph (pz - 1) d pid pv
            (Node_.node false (k + 1 - 1) (Size_ sl + Size_ sr + 1) sl si sv sr))
            true (k + 1) := okBlackH hd hs2 (by simpa using hph) (by
              simp only [Size_node] at hpz hszd ⊢; omega)
        obtain ⟨c₁, hok, himp⟩ := DecreaseSize_ok hrest hp2
          (by simp only [Size_node] at hpz hszd ⊢; omega) (by omega) (by simp)
        exact ⟨n₀, himp rfl ▸ hok⟩

/-- Mirror of `removeFix_ok_left` for a deficiency on the parent's right. -/
theorem removeFix_ok_right {d s : Node_ α} {rest : Path α} {pb : Bool}
    {k n₀ m ph pz pid : Nat} {pv : α}
    (hd : Ok d true k) (hs : Ok s true (k + 1))
    (hrest : Pok rest true n₀ pb (k + 1 + cond pb 1 0) (m + Size_ s + 1))
    (hph : ph = k + 1 + cond pb 1 0) (hpz : pz = m + Size_ s + 1)
    (hszd : Size_ d = m - 1) (hm : 1 ≤ m)
    (hguard : RootBlack_ (leftOf s) = true → RootBlack_ (rightOf s) = true → pb = false) :
    ∃ n₁, Ok (removeFix d false pb ph pz pid pv s rest) true n₁ := by
  cases hs with
  | @black sl sr csl csr k2 si sv hsl hsr =>
    simp only [leftOf, rightOf] at hguard
    by_cases h6 : RootBlack_ sl = false
    · have hb := hsl.root_black
      rw [h6] at hb
      rw [← hb] at hsl
      have hsout : Ok (BlackenInc_ sl) true (k + 1) := by
        cases hsl with | red h1 h2 => exact .black h1 h2
      have hp2 : Ok (Node_.node true (ph - cond pb 1 0) (Size_ sr + Size_ d + 1) sr pid pv d)
          true (k + 1) := okBlackH hsr hd (by omega) rfl
      have hs2 := okCond (b := pb) (i := si) (v := sv) hsout hp2 rfl rfl
      simp only [removeFix, Bool.false_eq_true, if_false, if_pos h6]
      have hsub := Size_BlackenInc sl
      obtain ⟨c₁, hok, himp⟩ := DecreaseSize_ok hrest hs2
        (by simp only [Size_node] at hszd ⊢; omega) (by omega) (fun h => h ▸ rfl)
      exact ⟨n₀, himp rfl ▸ hok⟩
    · have hbl : RootBlack_ sl = true := by simpa using h6
      have hsl2 : Ok sl true k := by rw [← hsl.root_black, hbl] at hsl; exact hsl
      by_cases h5 : RootBlack_ sr = false
      · have hb := hsr.root_black
        rw [h5] at hb
        rw [← hb] at hsr
        cases hsr with
        | @red sinl sinr k3 sini sinv hsinl hsinr =>
          simp only [removeFix, Bool.false_eq_true, if_false,
            if_neg (by simp [h6] : ¬RootBlack_ sl = false), if_pos h5]
          have hp2 : Ok (Node_.node true (ph - cond pb 1 0) (Size_ sinr + Size_ d + 1)
              sinr pid pv d) true (k + 1) := okBlackH hsinr hd (by omega) rfl
          have hs2 : Ok (Node_.node true (k + 1) (Size_ sl + Size_ sinl + 1)
              sl si sv sinl) true (k + 1) := okBlackH hsl2 hsinl rfl rfl
          have hsin2 := okCond (b := pb) (i := sini) (v := sinv) hs2 hp2 rfl rfl
          obtain ⟨c₁, hok, himp⟩ := DecreaseSize_ok hrest hsin2
            (by simp only [Size_node] at hszd ⊢; omega) (by omega) (fun h => h ▸ rfl)
          exact ⟨n₀, himp rfl ▸ hok⟩
      · have hbr : RootBlack_ sr = true := by simpa using h5
        have hsr2 : Ok sr true k := by rw [← hsr.root_black, hbr] at hsr; exact hsr
        have hpb : pb = false := hguard hbl hbr
        subst hpb
        simp only [removeFix, Bool.false_eq_true, if_false,
          if_neg (by simp [h6] : ¬RootBlack_ sl = false),
          if_neg (by simp [h5] : ¬RootBlack_ sr = false)]
        have hs2 : Ok (Node_.node false (k + 1 - 1) (Size_ sl + Size_ sr + 1)
            sl si sv sr) false k := okRedH hsl2 hsr2 (by omega) rfl
        have hp2 : Ok (Node_.node true ph (pz - 1)
            (Node_.node false (k + 1 - 1) (Size_ sl + Size_ sr + 1) sl si sv sr) pid pv d)
            true (k + 1) := okBlackH hs2 hd (by simpa using hph) (by
              simp only [Size_node] at hpz hszd ⊢; omega)
        obtain ⟨c₁, hok, himp⟩ := DecreaseSize_ok hrest hp2
          (by simp only [Size_node] at hpz hszd ⊢; omega) (by omega) (by simp)
        exact ⟨n₀, himp rfl ▸ hok⟩

/-- Deletion repair restores the red-black invariant: the deficient
subtree `d` is effectively black, one short in black height and one short
in size for what the hole expects; the repaired tree is valid. -/
theorem RemoveRepair_ok :
    ∀ (p : Path α) (d : Node_ α) {c : Bool} {k n₀ m : Nat},
    Ok d true k → Pok p true n₀ c (k + 1) m → Size_ d = m - 1 → 1 ≤ m →
    ∃ n₁, Ok (RemoveRepair_ d p) true n₁
  | .root, d, c, k, n₀, m, hd, hp, hsz, hm => by
    cases hp
    exact ⟨k, hd⟩
  | .isLeft pb ph pz pid pv s rest, d, c, k, n₀, m, hd, hp, hsz, hm => by
    cases hp with
    | redL hs hrest =>
      cases hs with
      | @black sl sr csl csr k2 si sv hsl hsr =>
        simp only [RemoveRepair_, Bool.false_and, Bool.false_eq_true, if_false]
        exact removeFix_ok_left hd (.black hsl hsr) (by simpa using hrest) (by simp) rfl
          hsz hm (fun _ _ => rfl)
    | blackL hs hrest =>
      cases hs with
      | @red sl sr k2 si sv hsl hsr =>
        show ∃ n₁, Ok (removeFix d true false (k + 1 + 1 - 1) (Size_ d + Size_ sl + 1 + 1)
          pid pv sl (.isLeft true (k + 1 + 1) (Size_ d + Size_ sl + 1 + Size_ sr + 1 + 1)
          si sv sr rest)) true n₁
        have hz1 : m + Size_ (Node_.node false (k + 1) (Size_ sl + Size_ sr + 1)
            sl si sv sr) + 1 = Size_ d + Size_ sl + 1 + Size_ sr + 1 + 1 := by
          simp only [Size_node]; omega
        have hrest2 : Pok (Path.isLeft true (k + 1 + 1)
            (Size_ d + Size_ sl + 1 + Size_ sr + 1 + 1) si sv sr rest)
            true n₀ false (k + 1 + cond false 1 0) (Size_ d + 1 + Size_ sl + 1) :=
          mkBlackL (c := false) hsr (hz1 ▸ hrest) rfl (by omega)
        exact removeFix_ok_left (m := Size_ d + 1) hd hsl hrest2 (by simp) (by omega)
          (by omega) (by omega) (fun _ _ => rfl)
      | @black sl sr csl csr k2 si sv hsl hsr =>
        by_cases hbl : RootBlack_ sl = true
        · by_cases hbr : RootBlack_ sr = true
          · have hsl2 : Ok sl true k := by rw [← hsl.root_black, hbl] at hsl; exact hsl
            have hsr2 : Ok sr true k := by rw [← hsr.root_black, hbr] at hsr; exact hsr
            simp only [RemoveRepair_, hbl, hbr, Bool.and_true, Bool.true_and, if_true]
            have hs2 : Ok (Node_.node false (k + 1 - 1) (Size_ sl + Size_ sr + 1)
                sl si sv sr) false k := okRedH hsl2 hsr2 (by omega) rfl
            have hd2 : Ok (Node_.node true (k + 1 + 1 - 1)
                (m + Size_ (Node_.node true (k + 1) (Size_ sl + Size_ sr + 1)
                  sl si sv sr) + 1 - 1) d pid pv
                (Node_.node false (k + 1 - 1) (Size_ sl + Size_ sr + 1) sl si sv sr))
                true (k + 1) := okBlackH hd hs2 (by omega) (by
                  simp only [Size_node]; omega)
            exact RemoveRepair_ok rest _ hd2 hrest
              (by simp only [Size_node]; try omega) (by omega)
          · have hbr2 : RootBlack_ sr = false := by simpa using hbr
            simp only [RemoveRepair_, hbr2, Bool.and_false, Bool.false_eq_true, if_false]
            refine removeFix_ok_left hd (.black hsl hsr) (by simpa using hrest) (by simp) rfl
              hsz hm ?_
            intro hb1 hb2
            simp only [rightOf] at hb2
            rw [hb2] at hbr2
            simp at hbr2
        · have hbl2 : RootBlack_ sl = false := by simpa using hbl
          simp only [RemoveRepair_, hbl2, Bool.and_false, Bool.true_and, Bool.false_and,
            Bool.false_eq_true, if_false]
          refine removeFix_ok_left hd (.black hsl hsr) (by simpa using hrest) (by simp) rfl
            hsz hm ?_
          intro hb1 hb2
          simp only [leftOf] at hb1
          rw [hb1] at hbl2
          simp at hbl2
  | .isRight pb ph pz pid pv s rest, d, c, k, n₀, m, hd, hp, hsz, hm => by
    cases hp with
    | redR hs hrest =>
      cases hs with
      | @black sl sr csl csr k2 si sv hsl hsr =>
        simp only [RemoveRepair_, Bool.false_and, Bool.false_eq_true, if_false]
        exact removeFix_ok_right hd (.black hsl hsr) (by simpa using hrest) (by simp) rfl
          hsz hm (fun _ _ => rfl)
    | blackR hs hrest =>
      cases hs with
      | @red sl sr k2 si sv hsl hsr =>
        show ∃ n₁, Ok (removeFix d false false (k + 1 + 1 - 1) (Size_ sr + Size_ d + 1 + 1)
          pid pv sr (.isRight true (k + 1 + 1) (Size_ sr + Size_ d + 1 + Size_ sl + 1 + 1)
          si sv sl rest)) true n₁
        have hz1 : m + Size_ (Node_.node false (k + 1) (Size_ sl + Size_ sr + 1)
            sl si sv sr) + 1 = Size_ sr + Size_ d + 1 + Size_ sl + 1 + 1 := by
          simp only [Size_node]; omega
        have hrest2 : Pok (Path.isRight true (k + 1 + 1)
            (Size_ sr + Size_ d + 1 + Size_ sl + 1 + 1) si sv sl rest)
            true n₀ false (k + 1 + cond false 1 0) (Size_ d + 1 + Size_ sr + 1) :=
          mkBlackR (c := false) hsl (hz1 ▸ hrest) rfl (by omega)
        exact removeFix_ok_right (m := Size_ d + 1) hd hsr hrest2 (by simp) (by omega)
          (by omega) (by omega) (fun _ _ => rfl)
      | @black sl sr csl csr k2 si sv hsl hsr =>
        by_cases hbl : RootBlack_ sl = true
        · by_cases hbr : RootBlack_ sr = true
          · have hsl2 : Ok sl true k := by rw [← hsl.root_black, hbl] at hsl; exact hsl
            have hsr2 : Ok sr true k := by rw [← hsr.root_black, hbr] at hsr; exact hsr
            simp only [RemoveRepair_, hbl, hbr, Bool.and_true, Bool.true_and, if_true]
            have hs2 : Ok (Node_.node false (k + 1 - 1) (Size_ sl + Size_ sr + 1)
                sl si sv sr) false k := okRedH hsl2 hsr2 (by omega) rfl
            have hd2 : Ok (Node_.node true (k + 1 + 1 - 1)
                (m + Size_ (Node_.node true (k + 1) (Size_ sl + Size_ sr + 1)
                  sl si sv sr) + 1 - 1)
                (Node_.node false (k + 1 - 1) (Size_ sl + Size_ sr + 1) sl si sv sr) pid pv d)
                true (k + 1) := okBlackH hs2 hd (by omega) (by
                  simp only [Size_node]; omega)
            exact RemoveRepair_ok rest _ hd2 hrest
              (by simp only [Size_node]; try omega) (by omega)
          · have hbr2 : RootBlack_ sr = false := by simpa using hbr
            simp only [RemoveRepair_, hbr2, Bool.and_false, Bool.false_eq_true, if_false]
            refine removeFix_ok_right hd (.black hsl hsr) (by simpa using hrest) (by simp) rfl
              hsz hm ?_
            intro hb1 hb2
            simp only [rightOf] at hb2
            rw [hb2] at hbr2
            simp at hbr2
        · have hbl2 : RootBlack_ sl = false := by simpa using hbl
          simp only [RemoveRepair_, hbl2, Bool.and_false, Bool.true_and, Bool.false_and,
            Bool.false_eq_true, if_false]
          refine removeFix_ok_right hd (.black hsl hsr) (by simpa using hrest) (by simp) rfl
            hsz hm ?_
          intro hb1 hb2
          simp only [leftOf] at hb1
          rw [hb1] at hbl2
          simp at hbl2

/-- The after-loop deletion-repair cases only rearrange the subtree rooted
at the (stale) parent: the in-order sequence is preserved. -/
theorem removeFix_pairs (d : Node_ α) (side pb : Bool) (ph pz pid : Nat) (pv : α)
    (s : Node_ α) (rest : Path α) :
    toPairs (removeFix d side pb ph pz pid pv s rest) =
      if side then leftP rest ++ (toPairs d ++ (pid, pv) :: toPairs s) ++ rightP rest
      else leftP rest ++ (toPairs s ++ (pid, pv) :: toPairs d) ++ rightP rest := by
  cases s with
  | nil =>
    cases side <;>
      simp [removeFix, toPairs_DecreaseSize, toPairs, List.append_assoc]
  | node sb sh sz2 sl si sv sr =>
    cases side with
    | true =>
      by_cases h1 : RootBlack_ sr = false
      · simp [removeFix, h1, toPairs_DecreaseSize, toPairs, toPairs_BlackenInc,
          List.append_assoc]
      · by_cases h2 : RootBlack_ sl = false
        · cases sl with
          | nil =>
            simp [removeFix, h1, h2, toPairs_DecreaseSize, toPairs, List.append_assoc]
          | node sinb sinh sinz sinl sini sinv sinr =>
            simp [removeFix, h1, h2, toPairs_DecreaseSize, toPairs, List.append_assoc]
        · simp [removeFix, h1, h2, toPairs_DecreaseSize, toPairs, List.append_assoc]
    | false =>
      by_cases h1 : RootBlack_ sl = false
      · simp [removeFix, h1, toPairs_DecreaseSize, toPairs, toPairs_BlackenInc,
          List.append_assoc]
      · by_cases h2 : RootBlack_ sr = false
        · cases sr with
          | nil =>
            simp [removeFix, h1, h2, toPairs_DecreaseSize, toPairs, List.append_assoc]
          | node sinb sinh sinz sinl sini sinv sinr =>
            simp [removeFix, h1, h2, toPairs_DecreaseSize, toPairs, List.append_assoc]
        · simp [removeFix, h1, h2, toPairs_DecreaseSize, toPairs, List.append_assoc]

/-- The deletion repair loop preserves the in-order sequence: it yields the
context filled with the deficient subtree. -/
theorem RemoveRepair_pairs (d : Node_ α) (p : Path α) :
    toPairs (RemoveRepair_ d p) = leftP p ++ toPairs d ++ rightP p := by
  induction p generalizing d with
  | root => simp [RemoveRepair_, leftP, rightP]
  | isLeft pb ph pz pid pv s rest ih =>
    cases s with
    | nil =>
      simp [RemoveRepair_, removeFix_pairs, leftP, rightP, toPairs, List.append_assoc]
    | node sb sh sz2 sl si sv sr =>
      cases sb with
      | false =>
        simp [RemoveRepair_, removeFix_pairs, leftP, rightP, toPairs, List.append_assoc]
      | true =>
        by_cases hc : (pb && RootBlack_ sl && RootBlack_ sr) = true
        · simp [RemoveRepair_, hc, ih, leftP, rightP, toPairs, List.append_assoc]
        · rw [show RemoveRepair_ d (.isLeft pb ph pz pid pv
              (.node true sh sz2 sl si sv sr) rest)
            = removeFix d true pb ph pz pid pv (.node true sh sz2 sl si sv sr) rest by
              simp [RemoveRepair_, hc]]
          simp [removeFix_pairs, leftP, rightP, toPairs, List.append_assoc]
  | isRight pb ph pz pid pv s rest ih =>
    cases s with
    | nil =>
      simp [RemoveRepair_, removeFix_pairs, leftP, rightP, toPairs, List.append_assoc]
    | node sb sh sz2 sl si sv sr =>
      cases sb with
      | false =>
        simp [RemoveRepair_, removeFix_pairs, leftP, rightP, toPairs, List.append_assoc]
      | true =>
        by_cases hc : (pb && RootBlack_ sl && RootBlack_ sr) = true
        · simp [RemoveRepair_, hc, ih, leftP, rightP, toPairs, List.append_assoc]
        · rw [show RemoveRepair_ d (.isRight pb ph pz pid pv
              (.node true sh sz2 sl si sv sr) rest)
            = removeFix d false pb ph pz pid pv (.node true sh sz2 sl si sv sr) rest by
              simp [RemoveRepair_, hc]]
          simp [removeFix_pairs, leftP, rightP, toPairs, List.append_assoc]

/-- An effectively black subtree of black height `0` is empty. -/
theorem ok_black_zero {t : Node_ α} (h : Ok t true 0) : t = .nil := by
  cases h; rfl

/-- Blackening a red node (`BlackenInc_`) raises its effective black
height by one while staying valid. -/
theorem BlackenInc_ok {t : Node_ α} {n : Nat} (h : Ok t false n) :
    Ok (BlackenInc_ t) true (n + 1) := by
  cases h with
  | red hl hr => exact .black hl hr

/-- Physical removal of a node with at most one child keeps the whole
tree valid (for any expected hole class: the substitutes are black). -/
theorem physRemove_ok {b : Bool} {h z i : Nat} {l r : Node_ α} {v : α}
    {cf c : Bool} {n n₀ : Nat} {q : Path α}
    (hf : Ok (.node b h z l i v r) cf n)
    (hone : l = .nil ∨ r = .nil)
    (hq : Pok q true n₀ c n z) :
    ∃ n₁, Ok (physRemove (.node b h z l i v r) q) true n₁ := by
  cases hf with
  | @red _ _ k _ _ hl hr =>
    have hgoal : ∀ (hq2 : Pok q true n₀ c 0 (Size_ (Node_.nil (α := α)) + Size_ (Node_.nil (α := α)) + 1)),
        ∃ n₁, Ok (DecreaseSize_ (Node_.nil (α := α)) q) true n₁ := by
      intro hq2
      obtain ⟨c₁, hok, himp⟩ := DecreaseSize_ok hq2 .nil (by simp [Size_]) (by simp [Size_])
        (fun _ => rfl)
      exact ⟨n₀, himp rfl ▸ hok⟩
    rcases hone with hone | hone
    · subst hone
      cases hl
      have he2 : r = .nil := ok_black_zero hr
      subst he2
      exact hgoal hq
    · subst hone
      cases hr
      have he1 : l = .nil := ok_black_zero hl
      subst he1
      exact hgoal hq
  | @black _ _ cl cr k _ _ hl hr =>
    rcases hone with hone | hone
    · subst hone
      cases hl
      cases r with
      | nil =>
        show ∃ n₁, Ok (RemoveRepair_ .nil q) true n₁
        exact RemoveRepair_ok q .nil .nil hq (by simp [Size_]) (by simp [Size_])
      | node rb rh rz rl ri rv rr =>
        cases hr with
        | @red _ _ k2 _ _ hrl hrr =>
          show ∃ n₁, Ok (DecreaseSize_ (BlackenInc_
            (.node false 0 (Size_ rl + Size_ rr + 1) rl ri rv rr)) q) true n₁
          have hc2 : Ok (BlackenInc_ (Node_.node false 0 (Size_ rl + Size_ rr + 1)
              rl ri rv rr)) true (0 + 1) := BlackenInc_ok (.red hrl hrr)
          obtain ⟨c₁, hok, himp⟩ := DecreaseSize_ok hq hc2
            (by simp [Size_, Size_node, BlackenInc_]) (by simp [Size_, Size_node])
            (fun _ => rfl)
          exact ⟨n₀, himp rfl ▸ hok⟩
    · subst hone
      cases hr
      cases l with
      | nil =>
        show ∃ n₁, Ok (RemoveRepair_ .nil q) true n₁
        exact RemoveRepair_ok q .nil .nil hq (by simp [Size_]) (by simp [Size_])
      | node lb lh lz ll li lv lr =>
        cases hl with
        | @red _ _ k2 _ _ hll hlr =>
          show ∃ n₁, Ok (DecreaseSize_ (BlackenInc_
            (.node false 0 (Size_ ll + Size_ lr + 1) ll li lv lr)) q) true n₁
          have hc2 : Ok (BlackenInc_ (Node_.node false 0 (Size_ ll + Size_ lr + 1)
              ll li lv lr)) true (0 + 1) := BlackenInc_ok (.red hll hlr)
          obtain ⟨c₁, hok, himp⟩ := DecreaseSize_ok hq hc2
            (by simp [Size_, Size_node, BlackenInc_]) (by simp [Size_, Size_node])
            (fun _ => rfl)
          exact ⟨n₀, himp rfl ▸ hok⟩

/-- Physical removal drops exactly the focused pair from the in-order
sequence, keeping the focus's (at most one) child chain. -/
theorem physRemove_pairs {b : Bool} {h z i : Nat} {l r : Node_ α} {v : α}
    {cf : Bool} {n : Nat}
    (hf : Ok (.node b h z l i v r) cf n)
    (hone : l = .nil ∨ r = .nil) (q : Path α) :
    toPairs (physRemove (.node b h z l i v r) q) =
      leftP q ++ (toPairs l ++ toPairs r) ++ rightP q := by
  cases hf with
  | @red _ _ k _ _ hl hr =>
    rcases hone with hone | hone
    · subst hone
      cases hl
      have he2 : r = .nil := ok_black_zero hr
      subst he2
      show toPairs (DecreaseSize_ .nil q) = _
      simp [toPairs_DecreaseSize, toPairs]
    · subst hone
      cases hr
      have he1 : l = .nil := ok_black_zero hl
      subst he1
      show toPairs (DecreaseSize_ .nil q) = _
      simp [toPairs_DecreaseSize, toPairs]
  | @black _ _ cl cr k _ _ hl hr =>
    rcases hone with hone | hone
    · subst hone
      cases hl
      cases r with
      | nil =>
        show toPairs (RemoveRepair_ .nil q) = _
        simp [RemoveRepair_pairs, toPairs]
      | node rb rh rz rl ri rv rr =>
        cases hr with
        | @red _ _ k2 _ _ hrl hrr =>
          show toPairs (DecreaseSize_ (BlackenInc_
            (.node false 0 (Size_ rl + Size_ rr + 1) rl ri rv rr)) q) = _
          simp [toPairs_DecreaseSize, toPairs_BlackenInc, toPairs]
    · subst hone
      cases hr
      cases l with
      | nil =>
        show toPairs (RemoveRepair_ .nil q) = _
        simp [RemoveRepair_pairs, toPairs]
      | node lb lh lz ll li lv lr =>
        cases hl with
        | @red _ _ k2 _ _ hll hlr =>
          show toPairs (DecreaseSize_ (BlackenInc_
            (.node false 0 (Size_ ll + Size_ lr + 1) ll li lv lr)) q) = _
          simp [toPairs_DecreaseSize, toPairs_BlackenInc, toPairs]

/-- Address (`id`) of the rightmost node (`Last_`). -/
def lastId : Node_ α → Nat
  | .nil => 0
  | .node _ _ _ _ i _ .nil => i
  | .node _ _ _ _ _ _ r => lastId r

/-- In-order pairs left after `Remove_` of a focused node: one-child cases
drop the focus; the two-child case drops the in-order predecessor and
re-labels the focus with the predecessor value (the `std::swap` of stored
values in `Remove_`). -/
def remPairs : Node_ α → List (Nat × α)
  | .nil => []
  | .node _ _ _ .nil _ _ r => toPairs r
  | .node _ _ _ l _ _ .nil => toPairs l
  | .node _ _ _ l i v r => (toPairs l).dropLast ++ (i, lastVal v l) :: toPairs r

/-- Identity and value of the node `Remove_` unlinks and returns: the focus
itself in the one-child cases, the in-order predecessor carrying the
focus's value (after the swap) in the two-child case. -/
def remRet [Inhabited α] : Node_ α → Nat × α
  | .nil => (0, default)
  | .node _ _ _ .nil i v _ => (i, v)
  | .node _ _ _ _ i v .nil => (i, v)
  | .node _ _ _ l _ v _ => (lastId l, v)

theorem toPairs_ne_nil {t : Node_ α} (h : t ≠ .nil) : toPairs t ≠ [] := by
  cases t with
  | nil => exact absurd rfl h
  | node b bh z l i v r => simp [toPairs]

/-- The last in-order pair is the rightmost node's id and value. -/
theorem toPairs_getLast (dflt : α) :
    ∀ (t : Node_ α), t ≠ .nil →
      (toPairs t).getLast? = some (lastId t, lastVal dflt t) := by
  intro t
  induction t with
  | nil => exact fun h => absurd rfl h
  | node b bh z l i v r ihl ihr =>
    intro _
    cases r with
    | nil => simp [toPairs, lastId, lastVal, List.getLast?_append]
    | node rb rh rz rl ri rv rr =>
      have hr := ihr (by simp)
      rw [show toPairs (Node_.node b bh z l i v (Node_.node rb rh rz rl ri rv rr))
        = (toPairs l ++ [(i, v)]) ++ toPairs (Node_.node rb rh rz rl ri rv rr) by
          simp [toPairs]]
      rw [List.getLast?_append_of_ne_nil (toPairs l ++ [(i, v)]) (toPairs_ne_nil (by simp))]
      rw [hr]
      rw [show lastId (Node_.node b bh z l i v (Node_.node rb rh rz rl ri rv rr))
        = lastId (Node_.node rb rh rz rl ri rv rr) from rfl]
      rw [show lastVal dflt (Node_.node b bh z l i v (Node_.node rb rh rz rl ri rv rr))
        = lastVal dflt (Node_.node rb rh rz rl ri rv rr) by
          cases rr <;> rfl]

/-- Full specification of `Remove_` on a valid focused node: the tree stays
valid, the in-order sequence loses exactly the pair `remPairs` describes
(the focus, or — after the value swap — the in-order predecessor), and the
returned node is `remRet` (the predecessor's address with the focus's value
in the two-child case). -/
theorem Remove_full [Inhabited α] {a : Node_ α} {q : Path α} {cf : Bool} {n n₀ : Nat}
    (ha : Ok a cf n) (hq : Pok q true n₀ cf n (Size_ a)) (hne : a ≠ .nil) :
    (∃ n₁, Ok (Remove_ a q).1 true n₁) ∧
    toPairs (Remove_ a q).1 = leftP q ++ remPairs a ++ rightP q ∧
    (Remove_ a q).2 = remRet a := by
  cases a with
  | nil => exact absurd rfl hne
  | node b bh z l i v r =>
    cases l with
    | nil =>
      have hstep : Remove_ (Node_.node b bh z .nil i v r) q
          = (physRemove (Node_.node b bh z .nil i v r) q, i, v) := by
        simp only [Remove_]
      rw [hstep]
      refine ⟨physRemove_ok ha (.inl rfl) (by simpa only [Size_node] using hq), ?_,
        by simp only [remRet]⟩
      have hpr := physRemove_pairs ha (.inl rfl) q
      simpa [remPairs, toPairs] using hpr
    | node lb lh lz ll li lv lr =>
      cases r with
      | nil =>
        have hstep : Remove_ (Node_.node b bh z (Node_.node lb lh lz ll li lv lr) i v .nil) q
            = (physRemove (Node_.node b bh z (Node_.node lb lh lz ll li lv lr) i v .nil) q,
               i, v) := by
          simp only [Remove_]
        rw [hstep]
        refine ⟨physRemove_ok ha (.inr rfl) (by simpa only [Size_node] using hq), ?_,
          by simp only [remRet]⟩
        have hpr := physRemove_pairs ha (.inr rfl) q
        simpa [remPairs, toPairs] using hpr
      | node rb rhh rz rl ri rv rr =>
        have hp2 : ∃ cL nL, Ok (Node_.node lb lh lz ll li lv lr) cL nL ∧
            Pok (Path.isLeft b bh z i
                (lastVal v (Node_.node lb lh lz ll li lv lr))
                (Node_.node rb rhh rz rl ri rv rr) q)
              true n₀ cL nL (Size_ (Node_.node lb lh lz ll li lv lr)) := by
          cases ha with
          | red hl hr =>
            exact ⟨true, _, hl,
              mkRedL (m := Size_ (Node_.node lb lh lz ll li lv lr)) hr
                (by simpa only [Size_node] using hq) rfl (by simp only [Size_node])⟩
          | black hl hr =>
            exact ⟨_, _, hl,
              mkBlackL (m := Size_ (Node_.node lb lh lz ll li lv lr)) hr
                (by simpa only [Size_node] using hq) rfl (by simp only [Size_node])⟩
        obtain ⟨cL, nL, hL, hp3⟩ := hp2
        obtain ⟨f, q2, c2, n2, h1, h2, h3, h4, h5, h6, h7⟩ :=
          lastZip_full hL hp3 (by simp)
        have hstep : Remove_ (Node_.node b bh z (Node_.node lb lh lz ll li lv lr)
              i v (Node_.node rb rhh rz rl ri rv rr)) q
            = (physRemove f q2, rootId f, v) := by
          show (physRemove (lastZip (Node_.node lb lh lz ll li lv lr)
              (.isLeft b bh z i (lastVal v (Node_.node lb lh lz ll li lv lr))
                (Node_.node rb rhh rz rl ri rv rr) q)).1
            (lastZip (Node_.node lb lh lz ll li lv lr)
              (.isLeft b bh z i (lastVal v (Node_.node lb lh lz ll li lv lr))
                (Node_.node rb rhh rz rl ri rv rr) q)).2,
            rootId (lastZip (Node_.node lb lh lz ll li lv lr)
              (.isLeft b bh z i (lastVal v (Node_.node lb lh lz ll li lv lr))
                (Node_.node rb rhh rz rl ri rv rr) q)).1, v) = _
          rw [h1]
        cases f with
        | nil => exact absurd rfl h4
        | node fb fh fz fl fj fw fr =>
          simp only [rightOf] at h5
          subst h5
          have hlast : fj = lastId (Node_.node lb lh lz ll li lv lr) := by
            have hg := congrArg List.getLast? h7
            rw [List.getLast?_append_of_ne_nil _ (toPairs_ne_nil (by simp))] at hg
            rw [List.getLast?_append_of_ne_nil _ (toPairs_ne_nil (by simp))] at hg
            rw [toPairs_getLast v (Node_.node lb lh lz ll li lv lr) (by simp)] at hg
            rw [show (toPairs (Node_.node fb fh fz fl fj fw (Node_.nil (α := α)))).getLast?
                = some (fj, fw) by simp [toPairs]] at hg
            simp only [Option.some.injEq, Prod.mk.injEq] at hg
            exact hg.1
          have hfl : leftP q2 ++ toPairs fl
              = leftP q ++ (toPairs (Node_.node lb lh lz ll li lv lr)).dropLast := by
            have h7b : (leftP q2 ++ toPairs fl) ++ [(fj, fw)]
                = leftP q ++ toPairs (Node_.node lb lh lz ll li lv lr) := by
              simpa [toPairs, leftP, List.append_assoc] using h7
            have hdrop := congrArg List.dropLast h7b
            rw [List.dropLast_concat] at hdrop
            rw [List.dropLast_append_of_ne_nil _ (toPairs_ne_nil (by simp))] at hdrop
            exact hdrop
          refine ⟨?_, ?_, ?_⟩
          · rw [hstep]
            exact physRemove_ok h2 (.inr rfl) (by simpa only [Size_node] using h3)
          · rw [hstep]
            have hpr := physRemove_pairs h2 (.inr rfl) q2
            rw [hpr]
            have h6b : rightP q2 = (i, lastVal v (Node_.node lb lh lz ll li lv lr))
                :: (toPairs (Node_.node rb rhh rz rl ri rv rr) ++ rightP q) := h6
            rw [h6b]
            rw [show toPairs (Node_.nil (α := α)) = [] from rfl, List.append_nil]
            rw [hfl]
            simp [remPairs, List.append_assoc]
          · rw [hstep]
            show (rootId (Node_.node fb fh fz fl fj fw .nil), v) = _
            rw [show rootId (Node_.node fb fh fz fl fj fw (Node_.nil (α := α))) = fj from rfl]
            rw [hlast]
            rfl

theorem getLast_take {β : Type} (xs : List β) (k : Nat) (h : k ≤ xs.length)
    (h1 : 1 ≤ k) : (xs.take k).getLast? = xs[k - 1]? := by
  rw [List.getLast?_eq_getElem?, List.length_take, Nat.min_eq_left h,
    List.getElem?_take, if_pos (by omega)]

theorem dropLast_take {β : Type} (xs : List β) (k : Nat) (h : k ≤ xs.length) :
    (xs.take k).dropLast = xs.take (k - 1) := by
  rw [List.dropLast_eq_take, List.take_take, List.length_take]
  congr 1
  omega

/-- Positional erase keeps the tree a valid red-black tree. -/
theorem eraseAt_ok [Inhabited α] {t : Node_ α} {n k : Nat} (ht : Ok t true n)
    (hk : k < realSize t) : ∃ n₁, Ok (eraseAt t k).1 true n₁ := by
  obtain ⟨f, q, c2, n2, h1, h2, h3, h4, h5, h6⟩ :=
    selectZip_full ht (.root (m := Size_ t)) hk
  have hsome : (toPairs t)[k]? = rootPair f := h6
  rw [List.getElem?_eq_getElem (by rw [toPairs_length]; exact hk)] at hsome
  have hne : f ≠ .nil := ne_nil_of_rootPair hsome.symm
  simp only [eraseAt, h1]
  exact (Remove_full h2 h3 hne).1

/-- `erase` at a rank whose node has two children: the stored values of the
node and its in-order predecessor are swapped, and the predecessor node is
the one physically removed — the surviving entry keeps the address of rank
`k` but carries the value of rank `k - 1`, and the removed node (as
returned) has the predecessor's address with the rank-`k` value. -/
theorem eraseAt_two_child [Inhabited α] {t : Node_ α} {n k : Nat}
    (ht : Ok t true n) (hk : k < realSize t)
    (hl2 : leftOf (selectZip t k .root).1 ≠ .nil)
    (hr2 : rightOf (selectZip t k .root).1 ≠ .nil) :
    ∃ pk pk1 : Nat × α,
      1 ≤ k ∧
      (toPairs t)[k]? = some pk ∧ (toPairs t)[k - 1]? = some pk1 ∧
      toPairs (eraseAt t k).1
        = (toPairs t).take (k - 1) ++ (pk.1, pk1.2) :: (toPairs t).drop (k + 1) ∧
      (eraseAt t k).2 = (pk1.1, pk.2) := by
  obtain ⟨f, q, c2, n2, h1, h2, h3, h4, h5, h6⟩ :=
    selectZip_full ht (.root (m := Size_ t)) hk
  rw [h1] at hl2 hr2
  cases f with
  | nil => exact absurd (show leftOf ((Node_.nil (α := α), q)).1 = Node_.nil from rfl) hl2
  | node fb fh fz fl fj fw fr =>
    replace hl2 : fl ≠ Node_.nil := hl2
    replace hr2 : fr ≠ Node_.nil := hr2
    simp only [leftP, rightP, leftOf, rightOf, List.append_nil, List.nil_append] at h4 h5
    have hflne : toPairs fl ≠ [] := toPairs_ne_nil hl2
    have hfrne : toPairs fr ≠ [] := toPairs_ne_nil hr2
    have hk1 : 1 ≤ k := by
      by_contra hc0
      have hk0 : k = 0 := by omega
      subst hk0
      simp only [List.take_zero] at h4
      exact hflne (List.append_eq_nil.mp h4).2
    have hklen : k ≤ (toPairs t).length := by rw [toPairs_length]; omega
    obtain ⟨hok, hpairs, hret⟩ := Remove_full h2 h3 (by simp)
    have hdrop : leftP q ++ (toPairs fl).dropLast = (toPairs t).take (k - 1) := by
      have := congrArg List.dropLast h4
      rw [List.dropLast_append_of_ne_nil _ hflne] at this
      rw [dropLast_take _ _ hklen] at this
      exact this
    have hpred : (toPairs t)[k - 1]? = some (lastId fl, lastVal fw fl) := by
      have := congrArg List.getLast? h4
      rw [List.getLast?_append_of_ne_nil _ hflne] at this
      rw [getLast_take _ _ hklen hk1] at this
      rw [toPairs_getLast fw fl hl2] at this
      exact this.symm
    have hfoc : (toPairs t)[k]? = some (fj, fw) := h6
    refine ⟨(fj, fw), (lastId fl, lastVal fw fl), hk1, hfoc, hpred, ?_, ?_⟩
    · show toPairs (eraseAt t k).1 = _
      simp only [eraseAt, h1]
      rw [hpairs]
      cases fl with
      | nil => exact absurd rfl hl2
      | node flb flh flz fll fli flv flr =>
        cases fr with
        | nil => exact absurd rfl hr2
        | node frb frh frz frl fri frv frr =>
          simp only [remPairs]
          rw [show leftP q ++ ((toPairs (Node_.node flb flh flz fll fli flv flr)).dropLast
              ++ (fj, lastVal fw (Node_.node flb flh flz fll fli flv flr))
                :: toPairs (Node_.node frb frh frz frl fri frv frr)) ++ rightP q
            = (leftP q ++ (toPairs (Node_.node flb flh flz fll fli flv flr)).dropLast)
              ++ (fj, lastVal fw (Node_.node flb flh flz fll fli flv flr))
                :: (toPairs (Node_.node frb frh frz frl fri frv frr) ++ rightP q) by
              simp [List.append_assoc]]
          rw [hdrop, h5]
    · show (eraseAt t k).2 = _
      simp only [eraseAt, h1]
      rw [hret]
      cases fl with
      | nil => exact absurd rfl hl2
      | node flb flh flz fll fli flv flr =>
        cases fr with
        | nil => exact absurd rfl hr2
        | node frb frh frz frl fri frv frr =>
          simp only [remRet]

/-- `pop_back` removes exactly the last in-order element and returns it. -/
theorem pop_back_full [Inhabited α] {t : Node_ α} {n : Nat} (ht : Ok t true n)
    (hne : t ≠ .nil) :
    (∃ n₁, Ok (pop_back t).1 true n₁) ∧
    toPairs (pop_back t).1 = (toPairs t).dropLast ∧
    (toPairs t).getLast? = some (pop_back t).2 := by
  obtain ⟨f, q2, c2, n2, h1, h2, h3, h4, h5, h6, h7⟩ :=
    lastZip_full ht (.root (m := Size_ t)) hne
  simp only [pop_back, h1]
  cases f with
  | nil => exact absurd rfl h4
  | node fb fh fz fl fj fw fr =>
    replace h5 : fr = Node_.nil := h5
    subst h5
    simp only [leftP, rightP, List.nil_append] at h6 h7
    obtain ⟨hok, hpairs, hret⟩ := Remove_full h2 h3 (by simp)
    have hcat : (leftP q2 ++ toPairs fl) ++ [(fj, fw)] = toPairs t := by
      rw [show toPairs (Node_.node fb fh fz fl fj fw Node_.nil)
          = toPairs fl ++ [(fj, fw)] by simp [toPairs]] at h7
      rw [← List.append_assoc] at h7
      exact h7
    have hd : leftP q2 ++ toPairs fl = (toPairs t).dropLast := by
      have := congrArg List.dropLast hcat
      rw [List.dropLast_concat] at this
      exact this
    have hlast : (toPairs t).getLast? = some (fj, fw) := by
      rw [← hcat]
      simp
    refine ⟨hok, ?_, ?_⟩
    · show toPairs (Remove_ (Node_.node fb fh fz fl fj fw .nil) q2).1 = _
      rw [hpairs, h6, List.append_nil]
      cases fl with
      | nil => simpa [remPairs, toPairs] using hd
      | node flb flh flz fll fli flv flr => simpa [remPairs] using hd
    · show (toPairs t).getLast? = some (Remove_ (Node_.node fb fh fz fl fj fw .nil) q2).2
      rw [hret, hlast]
      cases fl with
      | nil => simp [remRet]
      | node flb flh flz fll fli flv flr => simp [remRet]

/-- `pop_front` removes exactly the first in-order element and returns it. -/
theorem pop_front_full [Inhabited α] {t : Node_ α} {n : Nat} (ht : Ok t true n)
    (hne : t ≠ .nil) :
    (∃ n₁, Ok (pop_front t).1 true n₁) ∧
    toPairs (pop_front t).1 = (toPairs t).drop 1 ∧
    (toPairs t).head? = some (pop_front t).2 := by
  obtain ⟨f, q2, c2, n2, h1, h2, h3, h4, h5, h6, h7⟩ :=
    firstZip_full ht (.root (m := Size_ t)) hne
  simp only [pop_front, h1]
  cases f with
  | nil => exact absurd rfl h4
  | node fb fh fz fl fj fw fr =>
    replace h5 : fl = Node_.nil := h5
    subst h5
    simp only [leftP, rightP, List.append_nil] at h6 h7
    obtain ⟨hok, hpairs, hret⟩ := Remove_full h2 h3 (by simp)
    have hcat : (fj, fw) :: (toPairs fr ++ rightP q2) = toPairs t := by
      rw [show toPairs (Node_.node fb fh fz Node_.nil fj fw fr)
          = (fj, fw) :: toPairs fr by simp [toPairs]] at h7
      simpa using h7
    refine ⟨hok, ?_, ?_⟩
    · show toPairs (Remove_ (Node_.node fb fh fz .nil fj fw fr) q2).1 = _
      rw [hpairs, h6, List.nil_append]
      rw [← hcat]
      simp [remPairs]
    · show (toPairs t).head? = some (Remove_ (Node_.node fb fh fz .nil fj fw fr) q2).2
      rw [hret, ← hcat]
      simp [remRet]

/-- The left-spine descent of `Merge_` (case `l->black_height <
r->black_height`): walk `r = r->left` while `!r->black ||
l->black_height != r->black_height`, accumulating the context. -/
def mergeDescL (g : Nat) : Node_ α → Path α → Node_ α × Path α
  | .nil, p => (.nil, p)
  | .node b bh z cl ci cv cr, p =>
    if b && (bh == g) then (.node b bh z cl ci cv cr, p)
    else mergeDescL g cl (.isLeft b bh z ci cv cr p)

/-- The right-spine descent of `Merge_` (case `l->black_height >
r->black_height`). -/
def mergeDescR (g : Nat) : Node_ α → Path α → Node_ α × Path α
  | .nil, p => (.nil, p)
  | .node b bh z cl ci cv cr, p =>
    if b && (bh == g) then (.node b bh z cl ci cv cr, p)
    else mergeDescR g cr (.isRight b bh z ci cv cl p)

/-- `Merge_(l, m, r)` of `RBTree.h`: join two trees around the reused pivot
node `m` (address `mi`, value `mv`).  Empty-side cases hang `m` as a red
leaf at the far end of the other side and repair; equal black heights make
`m` a black root; otherwise `m` replaces the first black node of matching
height on the taller side's spine, red, and an insert repair weighted with
the shorter side's size plus one fixes heights and sizes. -/
def Merge_ (l : Node_ α) (mi : Nat) (mv : α) (r : Node_ α) : Node_ α :=
  match l, r with
  | .nil, .nil => .node true 1 1 .nil mi mv .nil
  | .nil, .node rb rh rz rl ri rv rr =>
    InsertRepair_ 1 (.node false 0 1 .nil mi mv .nil)
      (firstAttach (.node rb rh rz rl ri rv rr) .root)
  | .node lb lh lz ll li lv lr, .nil =>
    InsertRepair_ 1 (.node false 0 1 .nil mi mv .nil)
      (lastAttach (.node lb lh lz ll li lv lr) .root)
  | l, r =>
    if BH_ l = BH_ r then .node true (BH_ l + 1) (Size_ l + Size_ r + 1) l mi mv r
    else if BH_ l < BH_ r then
      InsertRepair_ (Size_ l + 1)
        (.node false (BH_ l) (Size_ l + Size_ (mergeDescL (BH_ l) r .root).1 + 1)
          l mi mv (mergeDescL (BH_ l) r .root).1)
        (mergeDescL (BH_ l) r .root).2
    else
      InsertRepair_ (Size_ r + 1)
        (.node false (BH_ r) (Size_ (mergeDescR (BH_ r) l .root).1 + Size_ r + 1)
          (mergeDescR (BH_ r) l .root).1 mi mv r)
        (mergeDescR (BH_ r) l .root).2

/-- The `Merge_` left-spine descent stops at a black node of exactly the
requested black height, with a valid context and untouched in-order
sequence. -/
theorem mergeDescL_full {g : Nat} {t : Node_ α} {c : Bool} {n : Nat} (ht : Ok t c n) :
    ∀ {p : Path α} {n₀ : Nat}, Pok p true n₀ c n (Size_ t) → 1 ≤ g → g ≤ n →
    ∃ f q, mergeDescL g t p = (f, q) ∧ Ok f true g ∧ f ≠ .nil ∧
      Pok q true n₀ true g (Size_ f) ∧
      leftP q = leftP p ∧ toPairs f ++ rightP q = toPairs t ++ rightP p := by
  induction ht with
  | nil => intro p n₀ hp hg1 hg2; omega
  | @red l r k i v hl hr ihl ihr =>
    intro p n₀ hp hg1 hg2
    simp only [mergeDescL, Bool.false_and, Bool.false_eq_true, if_false]
    obtain ⟨f, q, h1, h2, h3, h4, h5, h6⟩ :=
      ihl (mkRedL (m := Size_ l) hr (by simpa only [Size_node] using hp) rfl
        (by simp only [Size_node])) hg1 hg2
    refine ⟨f, q, h1, h2, h3, h4, ?_, ?_⟩
    · rw [h5]; rfl
    · rw [h6]; simp [rightP, toPairs, List.append_assoc]
  | @black l r cl cr k i v hl hr ihl ihr =>
    intro p n₀ hp hg1 hg2
    by_cases hg : g = k + 1
    · subst hg
      have hcond : (true && ((k : Nat) + 1 == k + 1)) = true := by simp
      simp only [mergeDescL, hcond, if_true]
      exact ⟨_, _, rfl, .black hl hr, by simp, hp, rfl, rfl⟩
    · have hg3 : g ≤ k := by omega
      have hcond : (true && ((k : Nat) + 1 == g)) = false := by
        simp only [Bool.true_and, beq_eq_false_iff_ne, ne_eq]
        omega
      simp only [mergeDescL, hcond, Bool.false_eq_true, if_false]
      obtain ⟨f, q, h1, h2, h3, h4, h5, h6⟩ :=
        ihl (mkBlackL (c := cl) (m := Size_ l) hr (by simpa only [Size_node] using hp) rfl
          (by simp only [Size_node])) hg1 hg3
      refine ⟨f, q, h1, h2, h3, h4, ?_, ?_⟩
      · rw [h5]; rfl
      · rw [h6]; simp [rightP, toPairs, List.append_assoc]

/-- The `Merge_` right-spine descent, mirror of `mergeDescL_full`. -/
theorem mergeDescR_full {g : Nat} {t : Node_ α} {c : Bool} {n : Nat} (ht : Ok t c n) :
    ∀ {p : Path α} {n₀ : Nat}, Pok p true n₀ c n (Size_ t) → 1 ≤ g → g ≤ n →
    ∃ f q, mergeDescR g t p = (f, q) ∧ Ok f true g ∧ f ≠ .nil ∧
      Pok q true n₀ true g (Size_ f) ∧
      rightP q = rightP p ∧ leftP q ++ toPairs f = leftP p ++ toPairs t := by
  induction ht with
  | nil => intro p n₀ hp hg1 hg2; omega
  | @red l r k i v hl hr ihl ihr =>
    intro p n₀ hp hg1 hg2
    simp only [mergeDescR, Bool.false_and, Bool.false_eq_true, if_false]
    obtain ⟨f, q, h1, h2, h3, h4, h5, h6⟩ :=
      ihr (mkRedR (m := Size_ r) hl (by simpa only [Size_node] using hp) rfl
        (by omega)) hg1 hg2
    refine ⟨f, q, h1, h2, h3, h4, ?_, ?_⟩
    · rw [h5]; rfl
    · rw [h6]; simp [leftP, toPairs, List.append_assoc]
  | @black l r cl cr k i v hl hr ihl ihr =>
    intro p n₀ hp hg1 hg2
    by_cases hg : g = k + 1
    · subst hg
      have hcond : (true && ((k : Nat) + 1 == k + 1)) = true := by simp
      simp only [mergeDescR, hcond, if_true]
      exact ⟨_, _, rfl, .black hl hr, by simp, hp, rfl, rfl⟩
    · have hg3 : g ≤ k := by omega
      have hcond : (true && ((k : Nat) + 1 == g)) = false := by
        simp only [Bool.true_and, beq_eq_false_iff_ne, ne_eq]
        omega
      simp only [mergeDescR, hcond, Bool.false_eq_true, if_false]
      obtain ⟨f, q, h1, h2, h3, h4, h5, h6⟩ :=
        ihr (mkBlackR (c := cr) (m := Size_ r) hl (by simpa only [Size_node] using hp) rfl
          (by omega)) hg1 hg3
      refine ⟨f, q, h1, h2, h3, h4, ?_, ?_⟩
      · rw [h5]; rfl
      · rw [h6]; simp [leftP, toPairs, List.append_assoc]

/-- `Merge_` of two valid (effectively black) trees around pivot
`(mi, mv)`: the result is a valid tree whose in-order sequence is the
concatenation with the pivot in the middle. -/
theorem Merge_full {l r : Node_ α} {nl nr : Nat} (hl : Ok l true nl) (hr : Ok r true nr)
    (mi : Nat) (mv : α) :
    (∃ n', Ok (Merge_ l mi mv r) true n') ∧
    toPairs (Merge_ l mi mv r) = toPairs l ++ (mi, mv) :: toPairs r := by
  cases l with
  | nil =>
    cases r with
    | nil =>
      exact ⟨⟨1, .black .nil .nil⟩, by simp [Merge_, toPairs]⟩
    | node rb rh rz rl ri rv rr =>
      have hp := firstAttach_pok hr (.root (m := Size_ (Node_.node rb rh rz rl ri rv rr)))
        (by simp)
      obtain ⟨hfa1, hfa2⟩ := firstAttach_pairs (Node_.node rb rh rz rl ri rv rr)
        (by simp) Path.root
      constructor
      · exact InsertRepair_ok 1 _ _ hp (.red .nil .nil) rfl
      · show toPairs (InsertRepair_ 1 (.node false 0 1 .nil mi mv .nil)
          (firstAttach (Node_.node rb rh rz rl ri rv rr) .root)) = _
        rw [toPairs_InsertRepair, hfa1, hfa2]
        simp [toPairs, leftP, rightP]
  | node lb lh lz ll li lv lr =>
    cases r with
    | nil =>
      have hp := lastAttach_pok hl (.root (m := Size_ (Node_.node lb lh lz ll li lv lr)))
        (by simp)
      obtain ⟨hfa1, hfa2⟩ := lastAttach_pairs (Node_.node lb lh lz ll li lv lr)
        (by simp) Path.root
      constructor
      · exact InsertRepair_ok 1 _ _ hp (.red .nil .nil) rfl
      · show toPairs (InsertRepair_ 1 (.node false 0 1 .nil mi mv .nil)
          (lastAttach (Node_.node lb lh lz ll li lv lr) .root)) = _
        rw [toPairs_InsertRepair, hfa1, hfa2]
        simp [toPairs, leftP, rightP]
    | node rb rh rz rl ri rv rr =>
      have hnl1 : 1 ≤ nl := by
        by_contra hc
        have : nl = 0 := by omega
        exact absurd (ok_black_zero (this ▸ hl)) (by simp)
      have hnr1 : 1 ≤ nr := by
        by_contra hc
        have : nr = 0 := by omega
        exact absurd (ok_black_zero (this ▸ hr)) (by simp)
      have hbl := hl.bh_eq
      have hbr := hr.bh_eq
      by_cases h1 : BH_ (Node_.node lb lh lz ll li lv lr)
          = BH_ (Node_.node rb rh rz rl ri rv rr)
      · have hee : nr = nl := by
          rw [← hl.bh_eq, ← hr.bh_eq, h1]
        subst hee
        constructor
        · refine ⟨nr + 1, ?_⟩
          show Ok (Merge_ _ mi mv _) true (nr + 1)
          simp only [Merge_, if_pos h1]
          exact okBlackH hl hr (by rw [hl.bh_eq]) rfl
        · simp only [Merge_, if_pos h1]
          simp [toPairs]
      · by_cases h2 : BH_ (Node_.node lb lh lz ll li lv lr)
            < BH_ (Node_.node rb rh rz rl ri rv rr)
        · obtain ⟨f, q, hx1, hf, hfne, hq, hlp, hrp⟩ :=
            mergeDescL_full (g := BH_ (Node_.node lb lh lz ll li lv lr)) hr
              (.root (m := Size_ (Node_.node rb rh rz rl ri rv rr)))
              (by omega) (by omega)
          have hf2 : Ok f true nl := hl.bh_eq ▸ hf
          have hq2 : Pok q true nr true nl (Size_ f) := hl.bh_eq ▸ hq
          have hm2 : Ok (Node_.node false (BH_ (Node_.node lb lh lz ll li lv lr))
              (Size_ (Node_.node lb lh lz ll li lv lr) + Size_ f + 1)
              (Node_.node lb lh lz ll li lv lr) mi mv f) false nl :=
            okRedH hl hf2 hl.bh_eq rfl
          constructor
          · simp only [Merge_, if_neg h1, if_pos h2, hx1]
            exact InsertRepair_ok _ _ _ hq2 hm2 (by simp only [Size_node]; omega)
          · simp only [Merge_, if_neg h1, if_pos h2, hx1]
            rw [toPairs_InsertRepair, hlp]
            simp only [leftP, rightP, List.append_nil] at hrp ⊢
            rw [show toPairs (Node_.node false (BH_ (Node_.node lb lh lz ll li lv lr))
                (Size_ (Node_.node lb lh lz ll li lv lr) + Size_ f + 1)
                (Node_.node lb lh lz ll li lv lr) mi mv f)
              = toPairs (Node_.node lb lh lz ll li lv lr) ++ (mi, mv) :: toPairs f
              from rfl]
            rw [List.nil_append, List.append_assoc, ← hrp]
            simp
        · have h3 : BH_ (Node_.node rb rh rz rl ri rv rr)
              < BH_ (Node_.node lb lh lz ll li lv lr) := by omega
          obtain ⟨f, q, hx1, hf, hfne, hq, hrp, hlp⟩ :=
            mergeDescR_full (g := BH_ (Node_.node rb rh rz rl ri rv rr)) hl
              (.root (m := Size_ (Node_.node lb lh lz ll li lv lr)))
              (by omega) (by omega)
          have hf2 : Ok f true nr := hr.bh_eq ▸ hf
          have hq2 : Pok q true nl true nr (Size_ f) := hr.bh_eq ▸ hq
          have hm2 : Ok (Node_.node false (BH_ (Node_.node rb rh rz rl ri rv rr))
              (Size_ f + Size_ (Node_.node rb rh rz rl ri rv rr) + 1)
              f mi mv (Node_.node rb rh rz rl ri rv rr)) false nr :=
            okRedH hf2 hr hr.bh_eq rfl
          constructor
          · simp only [Merge_, if_neg h1, if_neg (by omega : ¬ BH_ (Node_.node lb lh lz ll li lv lr) < BH_ (Node_.node rb rh rz rl ri rv rr)), hx1]
            exact InsertRepair_ok _ _ _ hq2 hm2 (by simp only [Size_node]; omega)
          · simp only [Merge_, if_neg h1, if_neg (by omega : ¬ BH_ (Node_.node lb lh lz ll li lv lr) < BH_ (Node_.node rb rh rz rl ri rv rr)), hx1]
            rw [toPairs_InsertRepair]
            simp only [leftP, rightP, List.append_nil] at hlp ⊢
            rw [show toPairs (Node_.node false (BH_ (Node_.node rb rh rz rl ri rv rr))
                (Size_ f + Size_ (Node_.node rb rh rz rl ri rv rr) + 1)
                f mi mv (Node_.node rb rh rz rl ri rv rr))
              = toPairs f ++ (mi, mv) :: toPairs (Node_.node rb rh rz rl ri rv rr)
              from rfl]
            rw [hrp]
            simp only [rightP, List.append_nil]
            rw [← List.append_assoc, hlp]
            simp

/-- Public `merge(tree)`: nothing to do when the other tree is empty; a
head swap when this tree is empty; otherwise the pivot is popped from the
front of the other tree when it is the smaller one, else from the back of
this tree, and `Merge_` joins the remains.  Returns (this, other). -/
def isNil : Node_ α → Bool
  | .nil => true
  | .node _ _ _ _ _ _ _ => false

theorem isNil_iff {t : Node_ α} : isNil t = true ↔ t = .nil := by
  cases t <;> simp [isNil]

def mergeTrees [Inhabited α] (t u : Node_ α) : Node_ α × Node_ α :=
  if isNil u then (t, u)
  else if isNil t then (u, .nil)
  else if Size_ u < Size_ t then
    (Merge_ t (pop_front u).2.1 (pop_front u).2.2 (pop_front u).1, .nil)
  else
    (Merge_ (pop_back t).1 (pop_back t).2.1 (pop_back t).2.2 u, .nil)

/-- `merge` concatenates the two in-order sequences into this tree, keeps
it a valid red-black tree, and leaves the other tree empty. -/
theorem mergeTrees_spec [Inhabited α] {t u : Node_ α} {nt nu : Nat}
    (ht : Ok t true nt) (hu : Ok u true nu) :
    (∃ n', Ok (mergeTrees t u).1 true n') ∧
    toPairs (mergeTrees t u).1 = toPairs t ++ toPairs u ∧
    (mergeTrees t u).2 = .nil := by
  by_cases hu0 : u = .nil
  · subst hu0
    simp [mergeTrees, isNil, toPairs]
    exact ⟨nt, ht⟩
  · have hu1 : isNil u = false := by
      rw [← Bool.not_eq_true, isNil_iff]
      exact hu0
    by_cases ht0 : t = .nil
    · subst ht0
      have hred : mergeTrees (Node_.nil (α := α)) u = (u, .nil) := by
        simp only [mergeTrees, hu1, Bool.false_eq_true, if_false,
          show isNil (Node_.nil (α := α)) = true from rfl, if_true]
      rw [hred]
      exact ⟨⟨nu, hu⟩, by simp [toPairs], rfl⟩
    · have ht1 : isNil t = false := by
        rw [← Bool.not_eq_true, isNil_iff]
        exact ht0
      by_cases hsz : Size_ u < Size_ t
      · simp only [mergeTrees, hu1, ht1, Bool.false_eq_true, if_false, if_pos hsz]
        obtain ⟨⟨nf, hfok⟩, hfpairs, hfhead⟩ := pop_front_full hu hu0
        obtain ⟨hok, hpairs⟩ := Merge_full ht hfok (pop_front u).2.1 (pop_front u).2.2
        refine ⟨hok, ?_, trivial⟩
        rw [hpairs, hfpairs]
        have hcons := List.cons_head?_tail hfhead
        rw [List.drop_one]
        rw [show ((pop_front u).2.1, (pop_front u).2.2) = (pop_front u).2 from rfl]
        rw [hcons]
      · simp only [mergeTrees, hu1, ht1, Bool.false_eq_true, if_false, if_neg hsz]
        obtain ⟨⟨nf, hfok⟩, hfpairs, hflast⟩ := pop_back_full ht ht0
        obtain ⟨hok, hpairs⟩ := Merge_full hfok hu (pop_back t).2.1 (pop_back t).2.2
        refine ⟨hok, ?_, trivial⟩
        rw [hpairs, hfpairs]
        have hcat := List.dropLast_append_getLast? _ hflast
        rw [show ((pop_back t).2.1, (pop_back t).2.2) = (pop_back t).2 from rfl]
        rw [← hcat]
        simp

/-- Stored value of a focused node. -/
def rootVal [Inhabited α] : Node_ α → α
  | .nil => default
  | .node _ _ _ _ _ v _ => v

/-- `PaintBlack_` yields a valid effectively-black tree. -/
theorem PaintBlack_ok {t : Node_ α} {c : Bool} {n : Nat} (h : Ok t c n) :
    ∃ n', Ok (PaintBlack_ t) true n' := by
  cases h with
  | nil => exact ⟨0, .nil⟩
  | red hl hr => exact ⟨_, Ok.black hl hr⟩
  | black hl hr => exact ⟨_, Ok.black hl hr⟩

/-- The parent-climbing loop of `Split_`: each left-step parent is merged
(with its painted right subtree) into the right accumulator, each
right-step parent into the left accumulator. -/
def splitGo [Inhabited α] : Node_ α → Node_ α → Path α → Node_ α × Node_ α
  | accL, accR, .root => (accL, accR)
  | accL, accR, .isLeft pb ph pz pid pv sib rest =>
      splitGo accL (Merge_ accR pid pv (PaintBlack_ sib)) rest
  | accL, accR, .isRight pb ph pz pid pv sib rest =>
      splitGo (Merge_ (PaintBlack_ sib) pid pv accL) accR rest

/-- `Split_(nd, left, right, pivot)` on a focused node: detach and paint
the focus's subtrees, optionally merge the focus itself into the right
part, then climb to the root accumulating both sides. -/
def Split_ [Inhabited α] (f : Node_ α) (q : Path α) (pivot : Bool) :
    Node_ α × Node_ α :=
  splitGo (PaintBlack_ (leftOf f))
    (if pivot then
      Merge_ .nil (rootId f) (rootVal f) (PaintBlack_ (rightOf f))
    else PaintBlack_ (rightOf f)) q

/-- Public `split(it)` at rank `k`: locate the node and `Split_` with the
pivot going to the returned (right) tree; past-the-end splits off an empty
tree. -/
def splitAt [Inhabited α] (t : Node_ α) (k : Nat) : Node_ α × Node_ α :=
  if k < Size_ t then Split_ (selectZip t k .root).1 (selectZip t k .root).2 true
  else (t, .nil)

/-- The `Split_` climb keeps both accumulators valid and produces exactly
the in-order pairs left and right of the context hole around them. -/
theorem splitGo_full [Inhabited α] {q : Path α} {c₀ c : Bool} {n₀ n m : Nat}
    (hq : Pok q c₀ n₀ c n m) :
    ∀ {accL accR : Node_ α} {na nb : Nat},
    Ok accL true na → Ok accR true nb →
    (∃ nl, Ok (splitGo accL accR q).1 true nl) ∧
    (∃ nr, Ok (splitGo accL accR q).2 true nr) ∧
    toPairs (splitGo accL accR q).1 = leftP q ++ toPairs accL ∧
    toPairs (splitGo accL accR q).2 = toPairs accR ++ rightP q := by
  induction hq with
  | root =>
    intro accL accR na nb hL hR
    exact ⟨⟨na, hL⟩, ⟨nb, hR⟩, by simp [splitGo, leftP], by simp [splitGo, rightP]⟩
  | @redL sib rest c₀ n₀ n m i v hs hrest ih =>
    intro accL accR na nb hL hR
    simp only [splitGo]
    obtain ⟨ns, hps⟩ := PaintBlack_ok hs
    obtain ⟨hok2, hpairs2⟩ := Merge_full hR hps i v
    obtain ⟨nb2, hR2⟩ := hok2
    obtain ⟨g1, g2, g3, g4⟩ := ih hL hR2
    refine ⟨g1, g2, by rw [g3]; rfl, ?_⟩
    rw [g4, hpairs2, toPairs_PaintBlack]
    simp [rightP, List.append_assoc]
  | @redR sib rest c₀ n₀ n m i v hs hrest ih =>
    intro accL accR na nb hL hR
    simp only [splitGo]
    obtain ⟨ns, hps⟩ := PaintBlack_ok hs
    obtain ⟨hok2, hpairs2⟩ := Merge_full hps hL i v
    obtain ⟨na2, hL2⟩ := hok2
    obtain ⟨g1, g2, g3, g4⟩ := ih hL2 hR
    refine ⟨g1, g2, ?_, by rw [g4]; rfl⟩
    rw [g3, hpairs2, toPairs_PaintBlack]
    simp [leftP, List.append_assoc]
  | @blackL sib rest c₀ cs c n₀ n m i v hs hrest ih =>
    intro accL accR na nb hL hR
    simp only [splitGo]
    obtain ⟨ns, hps⟩ := PaintBlack_ok hs
    obtain ⟨hok2, hpairs2⟩ := Merge_full hR hps i v
    obtain ⟨nb2, hR2⟩ := hok2
    obtain ⟨g1, g2, g3, g4⟩ := ih hL hR2
    refine ⟨g1, g2, by rw [g3]; rfl, ?_⟩
    rw [g4, hpairs2, toPairs_PaintBlack]
    simp [rightP, List.append_assoc]
  | @blackR sib rest c₀ cs c n₀ n m i v hs hrest ih =>
    intro accL accR na nb hL hR
    simp only [splitGo]
    obtain ⟨ns, hps⟩ := PaintBlack_ok hs
    obtain ⟨hok2, hpairs2⟩ := Merge_full hps hL i v
    obtain ⟨na2, hL2⟩ := hok2
    obtain ⟨g1, g2, g3, g4⟩ := ih hL2 hR
    refine ⟨g1, g2, ?_, by rw [g4]; rfl⟩
    rw [g3, hpairs2, toPairs_PaintBlack]
    simp [leftP, List.append_assoc]

/-- `split` at rank `k`: the original tree keeps exactly the first `k`
in-order pairs, the returned tree receives the rest (the pivot included),
and both are valid red-black trees. -/
theorem splitAt_spec [Inhabited α] {t : Node_ α} {n k : Nat} (ht : Ok t true n) :
    (∃ nl, Ok (splitAt t k).1 true nl) ∧
    (∃ nr, Ok (splitAt t k).2 true nr) ∧
    toPairs (splitAt t k).1 = (toPairs t).take k ∧
    toPairs (splitAt t k).2 = (toPairs t).drop k := by
  by_cases hk : k < Size_ t
  · have hk2 : k < realSize t := by rw [← ht.size_eq]; exact hk
    obtain ⟨f, q, c2, n2, h1, h2, h3, h4, h5, h6⟩ :=
      selectZip_full ht (.root (m := Size_ t)) hk2
    simp only [splitAt, if_pos hk, h1]
    cases f with
    | nil =>
      rw [List.getElem?_eq_getElem (by rw [toPairs_length]; exact hk2)] at h6
      simp [rootPair] at h6
    | node fb fh fz fl fj fw fr =>
      obtain ⟨cfl, cfr, k2, hfl, hfr⟩ :
          ∃ cfl cfr k2, Ok fl cfl k2 ∧ Ok fr cfr k2 := by
        cases h2 with
        | red a b => exact ⟨_, _, _, a, b⟩
        | black a b => exact ⟨_, _, _, a, b⟩
      have hred : Split_ ((Node_.node fb fh fz fl fj fw fr, q)).1
            ((Node_.node fb fh fz fl fj fw fr, q)).2 true
          = splitGo (PaintBlack_ fl) (Merge_ .nil fj fw (PaintBlack_ fr)) q := rfl
      rw [hred]
      obtain ⟨npl, hpl⟩ := PaintBlack_ok hfl
      obtain ⟨npr, hpr⟩ := PaintBlack_ok hfr
      obtain ⟨hmok, hmpairs⟩ := Merge_full Ok.nil hpr fj fw
      obtain ⟨nm, hm⟩ := hmok
      obtain ⟨g1, g2, g3, g4⟩ := splitGo_full h3 hpl hm
      simp only [leftP, rightP, leftOf, rightOf, List.nil_append, List.append_nil]
        at h4 h5
      refine ⟨g1, g2, ?_, ?_⟩
      · rw [g3, toPairs_PaintBlack]
        exact h4
      · rw [g4, hmpairs, toPairs_PaintBlack]
        rw [drop_eq_cons_of_get (show (toPairs t)[k]? = some (fj, fw) from h6)]
        rw [← h5]
        simp [toPairs]
  · simp only [splitAt, if_neg hk]
    have hlen : (toPairs t).length ≤ k := by
      rw [toPairs_length, ← ht.size_eq]
      omega
    refine ⟨⟨n, ht⟩, ⟨0, .nil⟩, ?_, ?_⟩
    · rw [List.take_of_length_le hlen]
    · rw [List.drop_of_length_le hlen]
      rfl

/-- Climb contribution of `Order_`: for each ancestor of which the current
node lies in the right subtree, add the left-sibling size plus one. -/
def orderP : Path α → Nat
  | .root => 0
  | .isLeft _ _ _ _ _ _ rest => orderP rest
  | .isRight _ _ _ _ _ sib rest => orderP rest + Size_ sib + 1

/-- `Order_(nd)` of a cursor: rank of the referenced node (the end cursor
reads the whole tree's stored size, as `Order_` does on `Head`). -/
def Order_ : Cur α → Nat
  | .head t => Size_ t
  | .pos f q => Size_ (leftOf f) + orderP q

/-- `Difference_(a, b) = Order_(a) - Order_(b)` as a signed quantity. -/
def Difference_ (a b : Cur α) : Int := (Order_ a : Int) - (Order_ b : Int)

/-- The ascend-and-step of the positive `Advance_` loop: climb while the
current node is a right child, then move to the parent (`Head` when the
climb exits from the root). -/
def climbOutR : Node_ α → Path α → Cur α
  | f, .isRight b h z i v sib rest => climbOutR (.node b h z sib i v f) rest
  | f, .isLeft b h z i v sib rest => .pos (.node b h z f i v sib) rest
  | f, .root => .head f

/-- The ascend-and-step of the negative `Advance_` loop: climb while the
current node is a left child, then move to the parent. -/
def climbOutL : Node_ α → Path α → Cur α
  | f, .isLeft b h z i v sib rest => climbOutL (.node b h z f i v sib) rest
  | f, .isRight b h z i v sib rest => .pos (.node b h z sib i v f) rest
  | f, .root => .head f

/-- Context depth, the measure of the `Advance_` climb loops. -/
def plen : Path α → Nat
  | .root => 0
  | .isLeft _ _ _ _ _ _ rest => plen rest + 1
  | .isRight _ _ _ _ _ _ rest => plen rest + 1

theorem climbOutR_plen : ∀ (f : Node_ α) (q : Path α) (f2 : Node_ α) (q2 : Path α),
    climbOutR f q = .pos f2 q2 → plen q2 < plen q := by
  intro f q
  induction q generalizing f with
  | root => intro f2 q2 h; exact absurd h (by simp [climbOutR])
  | isLeft b h z i v sib rest ih =>
    intro f2 q2 hh
    simp only [climbOutR, Cur.pos.injEq] at hh
    obtain ⟨h1, h2⟩ := hh
    subst h2
    simp [plen]
  | isRight b h z i v sib rest ih =>
    intro f2 q2 hh
    simp only [climbOutR] at hh
    have := ih _ _ _ hh
    simp [plen]
    omega
theorem climbOutL_plen : ∀ (f : Node_ α) (q : Path α) (f2 : Node_ α) (q2 : Path α),
    climbOutL f q = .pos f2 q2 → plen q2 < plen q := by
  intro f q
  induction q generalizing f with
  | root => intro f2 q2 h; exact absurd h (by simp [climbOutL])
  | isRight b h z i v sib rest ih =>
    intro f2 q2 hh
    simp only [climbOutL, Cur.pos.injEq] at hh
    obtain ⟨h1, h2⟩ := hh
    subst h2
    simp [plen]
  | isLeft b h z i v sib rest ih =>
    intro f2 q2 hh
    simp only [climbOutL] at hh
    have := ih _ _ _ hh
    simp [plen]
    omega

/-- Exit of the positive `Advance_` loop: `Select_(nd->right, x)`. -/
def selDownR (f : Node_ α) (q : Path α) (x : Nat) : Cur α :=
  match f with
  | .nil => .pos f q
  | .node b h z l i v r => .pos (selectZip r x (.isRight b h z i v l q)).1
      (selectZip r x (.isRight b h z i v l q)).2

/-- Exit of the negative `Advance_` loop: `Select_(nd->left, x)`. -/
def selDownL (f : Node_ α) (q : Path α) (x : Nat) : Cur α :=
  match f with
  | .nil => .pos f q
  | .node b h z l i v r => .pos (selectZip l x (.isLeft b h z i v r q)).1
      (selectZip l x (.isLeft b h z i v r q)).2

def advPos (f : Node_ α) (q : Path α) (g : Nat) : Cur α :=
  if Size_ (rightOf f) < g then
    match hcl : climbOutR f q with
    | .head t => .head t
    | .pos f2 q2 =>
      if g - (Size_ (rightOf f) + 1) = 0 then .pos f2 q2
      else advPos f2 q2 (g - (Size_ (rightOf f) + 1))
  else selDownR f q (g - 1)
termination_by plen q
decreasing_by exact climbOutR_plen _ _ _ _ hcl

/-- The negative branch of `Advance_`. -/
def advNeg (f : Node_ α) (q : Path α) (g : Nat) : Cur α :=
  if Size_ (leftOf f) < g then
    match hcl : climbOutL f q with
    | .head t => .head t
    | .pos f2 q2 =>
      if g - (Size_ (leftOf f) + 1) = 0 then .pos f2 q2
      else advNeg f2 q2 (g - (Size_ (leftOf f) + 1))
  else selDownL f q (Size_ (leftOf f) - g)
termination_by plen q
decreasing_by exact climbOutL_plen _ _ _ _ hcl

/-- `Advance_(nd, x)` on a cursor: dispatch on the sign of `x`; an end
cursor moves backwards by selecting in the whole tree. -/
def Advance_ (c : Cur α) (x : Int) : Cur α :=
  if x = 0 then c
  else if x < 0 then
    match c with
    | .head t =>
      if (-x).toNat ≤ Size_ t then
        .pos (selectZip t (Size_ t - (-x).toNat) .root).1
          (selectZip t (Size_ t - (-x).toNat) .root).2
      else .head t
    | .pos f q => advNeg f q (-x).toNat
  else
    match c with
    | .head t => .head t
    | .pos f q => advPos f q x.toNat

/-- With a valid context, the `Order_` climb sum equals the number of
in-order pairs left of the hole. -/
theorem orderP_eq_leftP {q : Path α} {c₀ : Bool} {n₀ : Nat} {c : Bool} {n m : Nat}
    (hq : Pok q c₀ n₀ c n m) : orderP q = (leftP q).length := by
  induction hq with
  | root => rfl
  | @redL sib rest c₀ n₀ n m i v hs hrest ih =>
    simp only [orderP, leftP]
    exact ih
  | @redR sib rest c₀ n₀ n m i v hs hrest ih =>
    simp only [orderP, leftP, List.length_append, List.length_cons]
    rw [ih, hs.size_eq, ← toPairs_length]
    simp only [List.length_nil]
    try omega
  | @blackL sib rest c₀ cs c n₀ n m i v hs hrest ih =>
    simp only [orderP, leftP]
    exact ih
  | @blackR sib rest c₀ cs c n₀ n m i v hs hrest ih =>
    simp only [orderP, leftP, List.length_append, List.length_cons]
    rw [ih, hs.size_eq, ← toPairs_length]
    simp only [List.length_nil]
    try omega

/-- On valid subtrees the stored child sizes agree with the pair counts,
and a non-empty node's stored size is one more than its children's. -/
theorem Ok.child_sizes {f : Node_ α} {c : Bool} {n : Nat} (hf : Ok f c n)
    (hne : f ≠ .nil) :
    Size_ f = Size_ (leftOf f) + Size_ (rightOf f) + 1 ∧
    Size_ (leftOf f) = (toPairs (leftOf f)).length ∧
    Size_ (rightOf f) = (toPairs (rightOf f)).length := by
  cases hf with
  | nil => exact absurd rfl hne
  | @red l r k i v hl hr =>
    refine ⟨by simp [Size_node, leftOf, rightOf], ?_, ?_⟩
    · simp only [leftOf]
      rw [hl.size_eq, toPairs_length]
    · simp only [rightOf]
      rw [hr.size_eq, toPairs_length]
  | @black l r cl cr k i v hl hr =>
    refine ⟨by simp [Size_node, leftOf, rightOf], ?_, ?_⟩
    · simp only [leftOf]
      rw [hl.size_eq, toPairs_length]
    · simp only [rightOf]
      rw [hr.size_eq, toPairs_length]

/-- `Order_` of the node found by `Select_`: the requested rank, offset by
the pairs already left of the search context. -/
theorem selectZip_order {t : Node_ α} {c : Bool} {n : Nat} (ht : Ok t c n)
    {p : Path α} {n₀ x : Nat} (hp : Pok p true n₀ c n (Size_ t)) (hx : x < realSize t) :
    Order_ (.pos (selectZip t x p).1 (selectZip t x p).2) = (leftP p).length + x := by
  obtain ⟨f, q, c2, n2, h1, h2, h3, h4, h5, h6⟩ := selectZip_full ht hp hx
  rw [h1]
  show Size_ (leftOf f) + orderP q = _
  have hlen := congrArg List.length h4
  simp only [List.length_append, List.length_take, toPairs_length] at hlen
  rw [Nat.min_eq_left (by omega : x ≤ realSize t)] at hlen
  have hfl : Size_ (leftOf f) = realSize (leftOf f) := by
    cases f with
    | nil => simp [leftOf, Size_, realSize]
    | node fb fh fz fl fj fw fr =>
      show Size_ fl = realSize fl
      cases h2 with
      | red hll hrr => exact hll.size_eq
      | black hll hrr => exact hll.size_eq
  have hlen2 : (toPairs (leftOf f)).length = realSize (leftOf f) := toPairs_length _
  rw [hfl, orderP_eq_leftP h3]
  omega

/-- The positive climb: lands one past the subtree of the starting node,
with a valid cursor over the same whole tree. -/
theorem climbOutR_spec : ∀ {q : Path α} {f : Node_ α} {cf : Bool} {nf n₀ : Nat},
    Ok f cf nf → f ≠ .nil → Pok q true n₀ cf nf (Size_ f) →
    Order_ (climbOutR f q) = Size_ (leftOf f) + orderP q + Size_ (rightOf f) + 1 ∧
    (climbOutR f q = .head (plug f q) ∨
      ∃ f2 q2 c2 n2, climbOutR f q = .pos f2 q2 ∧ f2 ≠ .nil ∧ Ok f2 c2 n2 ∧
        Pok q2 true n₀ c2 n2 (Size_ f2) ∧ plug f2 q2 = plug f q) := by
  intro q
  induction q with
  | root =>
    intro f cf nf n₀ hf hne hq
    cases hq
    refine ⟨?_, .inl rfl⟩
    show Size_ f = _
    rw [(hf.child_sizes hne).1]
    simp [orderP]
  | isLeft b h z i v sib rest ih =>
    intro f cf nf n₀ hf hne hq
    have hsz := (hf.child_sizes hne).1
    cases hq with
    | redL hs hrest =>
      simp only [climbOutR]
      refine ⟨?_, .inr ⟨_, _, _, _, rfl, by simp,
        okRedH hf hs rfl
          (show Size_ f + Size_ sib + 1 = Size_ f + Size_ sib + 1 from rfl),
        by simpa only [Size_node] using hrest, rfl⟩⟩
      simp only [Order_, leftOf, rightOf, orderP] at hsz ⊢
      omega
    | blackL hs hrest =>
      simp only [climbOutR]
      refine ⟨?_, .inr ⟨_, _, _, _, rfl, by simp,
        okBlackH hf hs rfl
          (show Size_ f + Size_ sib + 1 = Size_ f + Size_ sib + 1 from rfl),
        by simpa only [Size_node] using hrest, rfl⟩⟩
      simp only [Order_, leftOf, rightOf, orderP] at hsz ⊢
      omega
  | isRight b h z i v sib rest ih =>
    intro f cf nf n₀ hf hne hq
    have hsz := (hf.child_sizes hne).1
    cases hq with
    | redR hs hrest =>
      simp only [climbOutR]
      obtain ⟨ho, hcase⟩ := ih
        (okRedH hs hf rfl
          (show Size_ f + Size_ sib + 1 = Size_ sib + Size_ f + 1 by omega))
        (by simp) (by simpa only [Size_node] using hrest)
      refine ⟨?_, hcase⟩
      rw [ho]
      simp only [leftOf, rightOf, orderP] at hsz ⊢
      omega
    | blackR hs hrest =>
      simp only [climbOutR]
      obtain ⟨ho, hcase⟩ := ih
        (okBlackH hs hf rfl
          (show Size_ f + Size_ sib + 1 = Size_ sib + Size_ f + 1 by omega))
        (by simp) (by simpa only [Size_node] using hrest)
      refine ⟨?_, hcase⟩
      rw [ho]
      simp only [leftOf, rightOf, orderP] at hsz ⊢
      omega

/-- The negative climb: either exits at the sentinel with no pairs left of
the context (only then), or lands on the nearest ancestor one position
before the starting subtree. -/
theorem climbOutL_spec : ∀ {q : Path α} {f : Node_ α} {cf : Bool} {nf n₀ : Nat},
    Ok f cf nf → f ≠ .nil → Pok q true n₀ cf nf (Size_ f) →
    ((∃ t, climbOutL f q = .head t ∧ orderP q = 0) ∨
      ∃ f2 q2 c2 n2, climbOutL f q = .pos f2 q2 ∧ f2 ≠ .nil ∧ Ok f2 c2 n2 ∧
        Pok q2 true n₀ c2 n2 (Size_ f2) ∧ plug f2 q2 = plug f q ∧
        Order_ (.pos f2 q2) + 1 = orderP q) := by
  intro q
  induction q with
  | root =>
    intro f cf nf n₀ hf hne hq
    exact .inl ⟨f, rfl, rfl⟩
  | isLeft b h z i v sib rest ih =>
    intro f cf nf n₀ hf hne hq
    cases hq with
    | redL hs hrest =>
      simp only [climbOutL]
      have hres := ih
        (okRedH (i := i) (v := v) hf hs rfl
          (show Size_ f + Size_ sib + 1 = Size_ f + Size_ sib + 1 from rfl))
        (by simp) (by simpa only [Size_node] using hrest)
      simpa only [orderP] using hres
    | blackL hs hrest =>
      simp only [climbOutL]
      have hres := ih
        (okBlackH (i := i) (v := v) hf hs rfl
          (show Size_ f + Size_ sib + 1 = Size_ f + Size_ sib + 1 from rfl))
        (by simp) (by simpa only [Size_node] using hrest)
      simpa only [orderP] using hres
  | isRight b h z i v sib rest ih =>
    intro f cf nf n₀ hf hne hq
    cases hq with
    | redR hs hrest =>
      simp only [climbOutL]
      refine .inr ⟨_, _, _, _, rfl, by simp,
        okRedH hs hf rfl
          (show Size_ f + Size_ sib + 1 = Size_ sib + Size_ f + 1 by omega),
        by simpa only [Size_node] using hrest, rfl, ?_⟩
      simp only [Order_, leftOf, orderP]
      omega
    | blackR hs hrest =>
      simp only [climbOutL]
      refine .inr ⟨_, _, _, _, rfl, by simp,
        okBlackH hs hf rfl
          (show Size_ f + Size_ sib + 1 = Size_ sib + Size_ f + 1 by omega),
        by simpa only [Size_node] using hrest, rfl, ?_⟩
      simp only [Order_, leftOf, orderP]
      omega

theorem advPos_eq_head {f : Node_ α} {q : Path α} {g : Nat} {t : Node_ α}
    (h1 : Size_ (rightOf f) < g) (h2 : climbOutR f q = .head t) :
    advPos f q g = .head t := by
  rw [advPos.eq_def]
  rw [if_pos h1]
  split
  · rename_i t2 heq
    rw [h2] at heq
    cases heq
    rfl
  · rename_i f2 q2 heq
    rw [h2] at heq
    cases heq

theorem advPos_eq_stop {f f2 : Node_ α} {q q2 : Path α} {g : Nat}
    (h1 : Size_ (rightOf f) < g) (h2 : climbOutR f q = .pos f2 q2)
    (h3 : g - (Size_ (rightOf f) + 1) = 0) :
    advPos f q g = .pos f2 q2 := by
  rw [advPos.eq_def]
  rw [if_pos h1]
  split
  · rename_i t2 heq
    rw [h2] at heq
    cases heq
  · rename_i f3 q3 heq
    rw [h2] at heq
    cases heq
    rw [if_pos h3]

theorem advPos_eq_go {f f2 : Node_ α} {q q2 : Path α} {g : Nat}
    (h1 : Size_ (rightOf f) < g) (h2 : climbOutR f q = .pos f2 q2)
    (h3 : ¬ g - (Size_ (rightOf f) + 1) = 0) :
    advPos f q g = advPos f2 q2 (g - (Size_ (rightOf f) + 1)) := by
  conv_lhs => rw [advPos.eq_def]
  rw [if_pos h1]
  split
  · rename_i t2 heq
    rw [h2] at heq
    cases heq
  · rename_i f3 q3 heq
    rw [h2] at heq
    cases heq
    rw [if_neg h3]

theorem advPos_eq_sel {b : Bool} {h z l i v r q g}
    (h1 : ¬ Size_ (rightOf (Node_.node b h z l (i : Nat) (v : α) r)) < g) :
    advPos (Node_.node b h z l i v r) q g
      = .pos (selectZip r (g - 1) (.isRight b h z i v l q)).1
          (selectZip r (g - 1) (.isRight b h z i v l q)).2 := by
  rw [advPos.eq_def]
  rw [if_neg h1]
  rfl

theorem advNeg_eq_head {f : Node_ α} {q : Path α} {g : Nat} {t : Node_ α}
    (h1 : Size_ (leftOf f) < g) (h2 : climbOutL f q = .head t) :
    advNeg f q g = .head t := by
  rw [advNeg.eq_def]
  rw [if_pos h1]
  split
  · rename_i t2 heq
    rw [h2] at heq
    cases heq
    rfl
  · rename_i f2 q2 heq
    rw [h2] at heq
    cases heq

theorem advNeg_eq_stop {f f2 : Node_ α} {q q2 : Path α} {g : Nat}
    (h1 : Size_ (leftOf f) < g) (h2 : climbOutL f q = .pos f2 q2)
    (h3 : g - (Size_ (leftOf f) + 1) = 0) :
    advNeg f q g = .pos f2 q2 := by
  rw [advNeg.eq_def]
  rw [if_pos h1]
  split
  · rename_i t2 heq
    rw [h2] at heq
    cases heq
  · rename_i f3 q3 heq
    rw [h2] at heq
    cases heq
    rw [if_pos h3]

theorem advNeg_eq_go {f f2 : Node_ α} {q q2 : Path α} {g : Nat}
    (h1 : Size_ (leftOf f) < g) (h2 : climbOutL f q = .pos f2 q2)
    (h3 : ¬ g - (Size_ (leftOf f) + 1) = 0) :
    advNeg f q g = advNeg f2 q2 (g - (Size_ (leftOf f) + 1)) := by
  conv_lhs => rw [advNeg.eq_def]
  rw [if_pos h1]
  split
  · rename_i t2 heq
    rw [h2] at heq
    cases heq
  · rename_i f3 q3 heq
    rw [h2] at heq
    cases heq
    rw [if_neg h3]

theorem advNeg_eq_sel {b : Bool} {h z l i v r q g}
    (h1 : ¬ Size_ (leftOf (Node_.node b h z l (i : Nat) (v : α) r)) < g) :
    advNeg (Node_.node b h z l i v r) q g
      = .pos (selectZip l (Size_ (leftOf (Node_.node b h z l i v r)) - g)
            (.isLeft b h z i v r q)).1
          (selectZip l (Size_ (leftOf (Node_.node b h z l i v r)) - g)
            (.isLeft b h z i v r q)).2 := by
  rw [advNeg.eq_def]
  rw [if_neg h1]
  rfl

/-- The positive `Advance_` loop moves the cursor exactly `g` positions
forward (the end cursor when `g` runs exactly off the end). -/
theorem advPos_order :
    ∀ (f : Node_ α) (q : Path α) (g : Nat) {cf : Bool} {nf n₀ : Nat},
    Ok f cf nf → f ≠ .nil → Pok q true n₀ cf nf (Size_ f) → 1 ≤ g →
    Size_ (leftOf f) + orderP q + g ≤ realSize (plug f q) →
    Order_ (advPos f q g) = Size_ (leftOf f) + orderP q + g := by
  intro f q g
  induction f, q, g using advPos.induct with
  | case1 f q g hlt t hcl =>
    intro cf nf n₀ hf hne hq hg hb
    rw [advPos_eq_head hlt hcl]
    obtain ⟨ho, hcase⟩ := climbOutR_spec hf hne hq
    rw [hcl] at ho
    rcases hcase with hh | ⟨f2, q2, c2, n2, heq, _⟩
    · rw [hcl] at hh
      injection hh with ht2
      subst ht2
      obtain ⟨c₁, hokp, _⟩ := Pok.fill hq hf rfl (fun hc => hc)
      have hszp : Size_ (plug f q) = realSize (plug f q) := hokp.size_eq
      simp only [Order_] at ho ⊢
      omega
    · rw [hcl] at heq
      cases heq
  | case2 f q g hlt f2 q2 hcl hz =>
    intro cf nf n₀ hf hne hq hg hb
    rw [advPos_eq_stop hlt hcl hz]
    obtain ⟨ho, hcase⟩ := climbOutR_spec hf hne hq
    rw [hcl] at ho
    rw [ho]
    omega
  | case3 f q g hlt f2 q2 hcl hz ih =>
    intro cf nf n₀ hf hne hq hg hb
    rw [advPos_eq_go hlt hcl hz]
    obtain ⟨ho, hcase⟩ := climbOutR_spec hf hne hq
    rw [hcl] at ho
    rcases hcase with hh | ⟨f3, q3, c3, n3, heq, hne3, hok3, hq3, hplug⟩
    · rw [hcl] at hh
      cases hh
    · rw [hcl] at heq
      injection heq with e1 e2
      subst e1
      subst e2
      simp only [Order_] at ho
      have hres := ih hok3 hne3 hq3 (by omega) (by rw [hplug]; omega)
      rw [hres]
      omega
  | case4 f q g hnlt =>
    intro cf nf n₀ hf hne hq hg hb
    cases f with
    | nil => exact absurd rfl hne
    | node b h z l i v r =>
      rw [advPos_eq_sel hnlt]
      simp only [rightOf] at hnlt
      have hls : Size_ l = (toPairs l).length := by
        cases hf with
        | red hl hr => rw [hl.size_eq, toPairs_length]
        | black hl hr => rw [hl.size_eq, toPairs_length]
      cases hf with
      | red hl hr =>
        have hsel := selectZip_order hr
          (mkRedR (m := Size_ r) (i := i) (v := v) hl
            (by simpa only [Size_node] using hq) rfl (by omega))
          (x := g - 1) (by rw [← hr.size_eq]; omega)
        rw [hsel]
        simp only [leftP, leftOf, orderP, List.length_append, List.length_cons,
          List.length_nil]
        rw [← orderP_eq_leftP hq]
        omega
      | black hl hr =>
        have hsel := selectZip_order hr
          (mkBlackR (m := Size_ r) (i := i) (v := v) hl
            (by simpa only [Size_node] using hq) rfl (by omega))
          (x := g - 1) (by rw [← hr.size_eq]; omega)
        rw [hsel]
        simp only [leftP, leftOf, orderP, List.length_append, List.length_cons,
          List.length_nil]
        rw [← orderP_eq_leftP hq]
        omega

/-- The negative `Advance_` loop moves the cursor exactly `g` positions
backwards. -/
theorem advNeg_order :
    ∀ (f : Node_ α) (q : Path α) (g : Nat) {cf : Bool} {nf n₀ : Nat},
    Ok f cf nf → f ≠ .nil → Pok q true n₀ cf nf (Size_ f) → 1 ≤ g →
    g ≤ Size_ (leftOf f) + orderP q →
    Order_ (advNeg f q g) + g = Size_ (leftOf f) + orderP q := by
  intro f q g
  induction f, q, g using advNeg.induct with
  | case1 f q g hlt t hcl =>
    intro cf nf n₀ hf hne hq hg hb
    rcases climbOutL_spec hf hne hq with ⟨t2, hcl2, hord⟩ | ⟨f2, q2, c2, n2, heq, _⟩
    · omega
    · rw [hcl] at heq
      cases heq
  | case2 f q g hlt f2 q2 hcl hz =>
    intro cf nf n₀ hf hne hq hg hb
    rw [advNeg_eq_stop hlt hcl hz]
    rcases climbOutL_spec hf hne hq with ⟨t2, hcl2, hord⟩ | ⟨f3, q3, c3, n3, heq, hne3, hok3, hq3, hplug, hordeq⟩
    · rw [hcl] at hcl2
      cases hcl2
    · rw [hcl] at heq
      injection heq with e1 e2
      subst e1
      subst e2
      omega
  | case3 f q g hlt f2 q2 hcl hz ih =>
    intro cf nf n₀ hf hne hq hg hb
    rw [advNeg_eq_go hlt hcl hz]
    rcases climbOutL_spec hf hne hq with ⟨t2, hcl2, hord⟩ | ⟨f3, q3, c3, n3, heq, hne3, hok3, hq3, hplug, hordeq⟩
    · rw [hcl] at hcl2
      cases hcl2
    · rw [hcl] at heq
      injection heq with e1 e2
      subst e1
      subst e2
      simp only [Order_] at hordeq
      have hres := ih hok3 hne3 hq3 (by omega) (by omega)
      omega
  | case4 f q g hnlt =>
    intro cf nf n₀ hf hne hq hg hb
    cases f with
    | nil => exact absurd rfl hne
    | node b h z l i v r =>
      rw [advNeg_eq_sel hnlt]
      simp only [leftOf] at hnlt hb ⊢
      have hls : Size_ l = realSize l := by
        cases hf with
        | red hl hr => exact hl.size_eq
        | black hl hr => exact hl.size_eq
      cases hf with
      | red hl hr =>
        have hsel := selectZip_order hl
          (mkRedL (m := Size_ l) (i := i) (v := v) hr
            (by simpa only [Size_node] using hq) rfl (by omega))
          (x := Size_ l - g) (by omega)
        rw [hsel]
        simp only [leftP]
        rw [← orderP_eq_leftP hq]
        omega
      | black hl hr =>
        have hsel := selectZip_order hl
          (mkBlackL (m := Size_ l) (i := i) (v := v) hr
            (by simpa only [Size_node] using hq) rfl (by omega))
          (x := Size_ l - g) (by omega)
        rw [hsel]
        simp only [leftP]
        rw [← orderP_eq_leftP hq]
        omega

/-- `Order_` of the cursor at rank `j` is `j` (also for the end cursor). -/
theorem curAt_order {t : Node_ α} {n j : Nat} (ht : Ok t true n)
    (hj : j ≤ realSize t) : Order_ (curAt t j) = j := by
  by_cases h : j < Size_ t
  · simp only [curAt, if_pos h]
    have := selectZip_order ht (.root (m := Size_ t)) (x := j)
      (by rw [← ht.size_eq]; exact h)
    simpa [leftP] using this
  · simp only [curAt, if_neg h]
    show Size_ t = j
    rw [ht.size_eq]
    rw [ht.size_eq] at h
    omega

/-- The cursor returned by `Select_` at a valid rank is a valid in-tree
cursor whose context reassembles the same tree. -/
theorem curAt_valid {t : Node_ α} {n j : Nat} (ht : Ok t true n)
    (hj : j < realSize t) :
    ∃ f q c2 n2, curAt t j = .pos f q ∧ Ok f c2 n2 ∧ f ≠ .nil ∧
      Pok q true n c2 n2 (Size_ f) ∧ toPairs (plug f q) = toPairs t ∧
      Size_ (leftOf f) + orderP q = j := by
  obtain ⟨f, q, c2, n2, h1, h2, h3, h4, h5, h6⟩ :=
    selectZip_full ht (.root (m := Size_ t)) hj
  have hlt : j < Size_ t := by rw [ht.size_eq]; exact hj
  have hne : f ≠ .nil := by
    rw [List.getElem?_eq_getElem (by rw [toPairs_length]; exact hj)] at h6
    exact ne_nil_of_rootPair h6.symm
  refine ⟨f, q, c2, n2, by simp only [curAt, if_pos hlt, h1], h2, hne, h3, ?_, ?_⟩
  · cases f with
    | nil => exact absurd rfl hne
    | node fb fh fz fl fj fw fr =>
      rw [toPairs_plug]
      simp only [leftP, rightP, leftOf, rightOf, List.nil_append, List.append_nil] at h4 h5
      rw [show toPairs (Node_.node fb fh fz fl fj fw fr)
        = toPairs fl ++ (fj, fw) :: toPairs fr from rfl]
      rw [show leftP q ++ (toPairs fl ++ (fj, fw) :: toPairs fr) ++ rightP q
        = (leftP q ++ toPairs fl) ++ (fj, fw) :: (toPairs fr ++ rightP q) by
          simp [List.append_assoc]]
      rw [h4, h5]
      rw [← drop_eq_cons_of_get (show (toPairs t)[j]? = some (fj, fw) from h6)]
      exact List.take_append_drop j (toPairs t)
  · have := selectZip_order ht (.root (m := Size_ t)) (x := j)
      (by rw [← ht.size_eq]; exact hlt)
    rw [h1] at this
    simpa [leftP, Order_] using this

/-- `Advance_` then `Difference_` recovers the offset: moving the rank-`j`
cursor by `k` (staying inside `[0, size]`) lands on the cursor whose order
differs from the original by exactly `k`. -/
theorem advance_difference {t : Node_ α} {n : Nat} (ht : Ok t true n)
    {j : Nat} (hj : j ≤ realSize t) (k : Int)
    (hk1 : 0 ≤ (j : Int) + k) (hk2 : (j : Int) + k ≤ (realSize t : Int)) :
    Difference_ (Advance_ (curAt t j) k) (curAt t j) = k := by
  have hord : Order_ (curAt t j) = j := curAt_order ht hj
  by_cases hk0 : k = 0
  · subst hk0
    simp [Advance_, Difference_]
  · by_cases hkneg : k < 0
    · have hg1 : 1 ≤ (-k).toNat := by omega
      by_cases hlt : j < Size_ t
      · obtain ⟨f, q, c2, n2, h1, h2, hne, h3, hplug, horder⟩ :=
          curAt_valid ht (by rw [← ht.size_eq]; exact hlt)
        rw [h1]
        show Difference_ (Advance_ (.pos f q) k) _ = k
        rw [show Advance_ (Cur.pos f q) k = advNeg f q (-k).toNat by
          simp only [Advance_, if_neg hk0, if_pos hkneg]]
        have hbound : (-k).toNat ≤ Size_ (leftOf f) + orderP q := by omega
        have := advNeg_order f q (-k).toNat h2 hne h3 hg1 hbound
        simp only [Difference_, Order_] at *
        omega
      · have hj2 : j = realSize t := by rw [← ht.size_eq] at hj ⊢; omega
        simp only [curAt, if_neg hlt]
        rw [show Advance_ (Cur.head t) k = .pos (selectZip t (Size_ t - (-k).toNat) .root).1
            (selectZip t (Size_ t - (-k).toNat) .root).2 by
          simp only [Advance_, if_neg hk0, if_pos hkneg]
          rw [if_pos (by rw [ht.size_eq]; omega)]]
        have hsel := selectZip_order ht (.root (m := Size_ t)) (x := Size_ t - (-k).toNat)
          (by rw [← ht.size_eq]; rw [ht.size_eq]; omega)
        simp only [Difference_]
        rw [hsel]
        simp only [Order_, leftP, List.length_nil]
        rw [ht.size_eq]
        omega
    · have hkpos : 0 < k := by omega
      have hg1 : 1 ≤ k.toNat := by omega
      by_cases hlt : j < Size_ t
      · obtain ⟨f, q, c2, n2, h1, h2, hne, h3, hplug, horder⟩ :=
          curAt_valid ht (by rw [← ht.size_eq]; exact hlt)
        rw [h1]
        show Difference_ (Advance_ (.pos f q) k) _ = k
        rw [show Advance_ (Cur.pos f q) k = advPos f q k.toNat by
          simp only [Advance_, if_neg hk0, if_neg hkneg]]
        have hrs : realSize (plug f q) = realSize t := by
          rw [← toPairs_length, hplug, toPairs_length]
        have hbound : Size_ (leftOf f) + orderP q + k.toNat ≤ realSize (plug f q) := by
          rw [hrs]
          omega
        have := advPos_order f q k.toNat h2 hne h3 hg1 hbound
        simp only [Difference_, Order_] at *
        omega
      · exfalso
        have hj2 : j = realSize t := by rw [← ht.size_eq] at hj ⊢; omega
        omega

/-- The descent loop of `PartitionBound_`: go right while the predicate
holds at the current value, else record the node and go left. -/
def pbGo (func : α → Bool) : Node_ α → Path α → Cur α → Cur α
  | .nil, _, last => last
  | .node b h z l i v r, p, last =>
    if func v then pbGo func r (.isRight b h z i v l p) last
    else pbGo func l (.isLeft b h z i v r p) (.pos (.node b h z l i v r) p)

/-- `PartitionBound_(func)`: start at the root with `Head` as the
fallback. -/
def PartitionBound_ (func : α → Bool) (t : Node_ α) : Cur α :=
  pbGo func t .root (.head t)

theorem mem_take_middle {β : Type} {x : β} :
    ∀ (A : List β) (B : List β) (m : Nat), A.length < m → x ∈ (A ++ x :: B).take m := by
  intro A
  induction A with
  | nil =>
    intro B m hm
    cases m with
    | zero => omega
    | succ m2 => simp [List.take]
  | cons a A ih =>
    intro B m hm
    cases m with
    | zero => omega
    | succ m2 =>
      simp only [List.cons_append, List.take, List.mem_cons]
      exact .inr (ih B m2 (by simpa using hm))

theorem mem_drop_middle {β : Type} {x : β} :
    ∀ (A : List β) (B : List β) (m : Nat), m ≤ A.length → x ∈ (A ++ x :: B).drop m := by
  intro A
  induction A with
  | nil =>
    intro B m hm
    have : m = 0 := by simpa using hm
    subst this
    simp
  | cons a A ih =>
    intro B m hm
    cases m with
    | zero => simp
    | succ m2 =>
      simp only [List.cons_append, List.drop]
      exact ih B m2 (by simpa using hm)

/-- Stepping into the right child preserves the context invariant. -/
theorem Pok.stepR {b : Bool} {h z i : Nat} {l r : Node_ α} {v : α} {p : Path α}
    {c : Bool} {n n₀ : Nat}
    (ht : Ok (.node b h z l i v r) c n)
    (hp : Pok p true n₀ c n (Size_ (Node_.node b h z l i v r))) :
    ∃ c2 n2, Ok r c2 n2 ∧ Pok (.isRight b h z i v l p) true n₀ c2 n2 (Size_ r) := by
  cases ht with
  | red hl hr =>
    exact ⟨_, _, hr,
      mkRedR (m := Size_ r) hl (by simpa only [Size_node] using hp) rfl (by omega)⟩
  | black hl hr =>
    exact ⟨_, _, hr,
      mkBlackR (m := Size_ r) hl (by simpa only [Size_node] using hp) rfl
        (by omega)⟩

/-- Stepping into the left child preserves the context invariant. -/
theorem Pok.stepL {b : Bool} {h z i : Nat} {l r : Node_ α} {v : α} {p : Path α}
    {c : Bool} {n n₀ : Nat}
    (ht : Ok (.node b h z l i v r) c n)
    (hp : Pok p true n₀ c n (Size_ (Node_.node b h z l i v r))) :
    ∃ c2 n2, Ok l c2 n2 ∧ Pok (.isLeft b h z i v r p) true n₀ c2 n2 (Size_ l) := by
  cases ht with
  | red hl hr =>
    exact ⟨_, _, hl,
      mkRedL (m := Size_ l) hr (by simpa only [Size_node] using hp) rfl (by omega)⟩
  | black hl hr =>
    exact ⟨_, _, hl,
      mkBlackL (m := Size_ l) hr (by simpa only [Size_node] using hp) rfl
        (by omega)⟩

/-- Loop invariant of `PartitionBound_`: the crossover index `m` of the
monotone predicate stays inside the current window, and the recorded
cursor sits at the window's right boundary; at the end its order is
exactly `m`, and only the end cursor can sit past every element. -/
theorem pbGo_spec (func : α → Bool) (t₀ : Node_ α) (S : List (Nat × α)) (m : Nat)
    (htake : ∀ pr ∈ S.take m, func pr.2 = true)
    (hdrop : ∀ pr ∈ S.drop m, func pr.2 = false) :
    ∀ {t : Node_ α} {p : Path α} {c : Bool} {n n₀ : Nat} {L : Cur α},
    Ok t c n → Pok p true n₀ c n (Size_ t) →
    S = leftP p ++ toPairs t ++ rightP p →
    (leftP p).length ≤ m → m ≤ (leftP p).length + realSize t →
    Order_ L = (leftP p).length + realSize t →
    (L = .head t₀ ∨ Order_ L < S.length) →
    Order_ (pbGo func t p L) = m ∧
    (pbGo func t p L = .head t₀ ∨ Order_ (pbGo func t p L) < S.length) := by
  intro t
  induction t with
  | nil =>
    intro p c n n₀ L ht hp hS hlo hhi hL hLcase
    simp only [pbGo]
    constructor
    · simp only [realSize] at hhi hL
      omega
    · exact hLcase
  | node b h z l i v r ihl ihr =>
    intro p c n n₀ L ht hp hS hlo hhi hL hLcase
    have hls : Size_ l = realSize l := by
      cases ht with
      | red hl hr => exact hl.size_eq
      | black hl hr => exact hl.size_eq
    have hll : (toPairs l).length = realSize l := toPairs_length l
    have hrl : (toPairs r).length = realSize r := toPairs_length r
    have hSdec : S = (leftP p ++ toPairs l) ++ (i, v)
        :: (toPairs r ++ rightP p) := by
      rw [hS]
      rw [show toPairs (Node_.node b h z l i v r)
        = toPairs l ++ (i, v) :: toPairs r from rfl]
      simp [List.append_assoc]
    have hreal : realSize (Node_.node b h z l i v r) = realSize l + realSize r + 1 := by
      simp [realSize]
    simp only [pbGo]
    by_cases hv : func v = true
    · rw [if_pos hv]
      have hidx : (leftP p).length + realSize l < m := by
        by_contra hge
        have hmem : (i, v) ∈ S.drop m := by
          rw [hSdec]
          exact mem_drop_middle _ _ _ (by
            simp only [List.length_append]
            omega)
        have hfv := hdrop _ hmem
        rw [hv] at hfv
        cases hfv
      obtain ⟨c2, n2, hr2, hp2⟩ := Pok.stepR ht hp
      apply ihr hr2 hp2
      · rw [hSdec]
        simp [leftP, rightP, List.append_assoc]
      · simp only [leftP, List.length_append, List.length_cons, List.length_nil]
        omega
      · simp only [leftP, List.length_append, List.length_cons, List.length_nil]
        rw [hreal] at hhi
        omega
      · simp only [leftP, List.length_append, List.length_cons, List.length_nil]
        rw [hreal] at hL
        omega
      · exact hLcase
    · rw [if_neg hv]
      have hidx : m ≤ (leftP p).length + realSize l := by
        by_contra hge
        have hmem : (i, v) ∈ S.take m := by
          rw [hSdec]
          exact mem_take_middle _ _ _ (by
            simp only [List.length_append]
            omega)
        exact hv (htake _ hmem)
      obtain ⟨c2, n2, hl2, hp2⟩ := Pok.stepL ht hp
      apply ihl hl2 hp2
      · rw [hSdec]
        simp [leftP, rightP, List.append_assoc]
      · exact hlo
      · simpa only [leftP] using hidx
      · simp only [Order_, leftOf, leftP]
        rw [orderP_eq_leftP hp, hls]
        omega
      · refine .inr ?_
        have hSlen : (leftP p).length + realSize l < S.length := by
          rw [hSdec]
          simp only [List.length_append, List.length_cons]
          omega
        simp only [Order_, leftOf]
        rw [orderP_eq_leftP hp, hls]
        omega

/-- `PartitionBound_` on a monotone predicate returns the cursor of the
first position where the predicate is false (the end cursor when the
predicate holds everywhere). -/
theorem PartitionBound_spec (func : α → Bool) {t : Node_ α} {n : Nat}
    (ht : Ok t true n) {m : Nat} (hm : m ≤ realSize t)
    (htake : ∀ pr ∈ (toPairs t).take m, func pr.2 = true)
    (hdrop : ∀ pr ∈ (toPairs t).drop m, func pr.2 = false) :
    Order_ (PartitionBound_ func t) = m ∧
    (m = realSize t → PartitionBound_ func t = .head t) := by
  obtain ⟨h1, h2⟩ := pbGo_spec func t (toPairs t) m htake hdrop ht
    (.root (m := Size_ t)) (by simp [leftP, rightP]) (by simp [leftP])
    (by simp [leftP]; exact hm)
    (by simp only [Order_, leftP, List.length_nil, Nat.zero_add]; exact ht.size_eq)
    (.inl rfl)
  refine ⟨h1, fun hmeq => ?_⟩
  rcases h2 with h2 | h2
  · exact h2
  · rw [toPairs_length] at h2
    omega

/-- Subtree relation: every node of a tree heads a subtree. -/
inductive Subtree : Node_ α → Node_ α → Prop where
  | refl (t : Node_ α) : Subtree t t
  | left {s l r : Node_ α} {b : Bool} {h z i : Nat} {v : α} :
      Subtree s l → Subtree s (.node b h z l i v r)
  | right {s l r : Node_ α} {b : Bool} {h z i : Nat} {v : α} :
      Subtree s r → Subtree s (.node b h z l i v r)

/-- Black-node counts along every root-to-absent-child path. -/
def blackCounts : Node_ α → List Nat
  | .nil => [0]
  | .node b _ _ l _ _ r =>
      (blackCounts l ++ blackCounts r).map (fun x => x + cond b 1 0)

theorem ok_subtree {s t : Node_ α} (hst : Subtree s t) :
    ∀ {c : Bool} {n : Nat}, Ok t c n → ∃ c2 n2, Ok s c2 n2 := by
  induction hst with
  | refl => exact fun ht => ⟨_, _, ht⟩
  | left hsub ih =>
    intro c n ht
    cases ht with
    | red hl hr => exact ih hl
    | black hl hr => exact ih hl
  | right hsub ih =>
    intro c n ht
    cases ht with
    | red hl hr => exact ih hr
    | black hl hr => exact ih hr

theorem blackCounts_ok {t : Node_ α} {c : Bool} {n : Nat} (ht : Ok t c n) :
    ∀ x ∈ blackCounts t, x = n := by
  induction ht with
  | nil => simp [blackCounts]
  | @red l r k i v hl hr ihl ihr =>
    intro x hx
    simp only [blackCounts, List.mem_map, List.mem_append] at hx
    obtain ⟨y, hy | hy, hxy⟩ := hx
    · rw [← hxy, ihl y hy]
      rfl
    · rw [← hxy, ihr y hy]
      rfl
  | @black l r cl cr k i v hl hr ihl ihr =>
    intro x hx
    simp only [blackCounts, List.mem_map, List.mem_append] at hx
    obtain ⟨y, hy | hy, hxy⟩ := hx
    · rw [← hxy, ihl y hy]
      rfl
    · rw [← hxy, ihr y hy]
      rfl

/-- Trees reachable from the empty tree by the public mutating
operations, with their C++ preconditions (valid iterators, non-empty pops). -/
inductive Reachable [Inhabited α] : Node_ α → Prop where
  | empty : Reachable .nil
  | push_back {t : Node_ α} (i : Nat) (v : α) :
      Reachable t → Reachable (push_back t i v)
  | push_front {t : Node_ α} (i : Nat) (v : α) :
      Reachable t → Reachable (push_front t i v)
  | insert {t : Node_ α} (k i : Nat) (v : α) (hk : k ≤ realSize t) :
      Reachable t → Reachable (insertAt t k i v)
  | erase {t : Node_ α} (k : Nat) (hk : k < realSize t) :
      Reachable t → Reachable (eraseAt t k).1
  | pop_back {t : Node_ α} (h : t ≠ .nil) : Reachable t → Reachable (pop_back t).1
  | pop_front {t : Node_ α} (h : t ≠ .nil) : Reachable t → Reachable (pop_front t).1
  | mergeFst {t u : Node_ α} : Reachable t → Reachable u →
      Reachable (mergeTrees t u).1
  | mergeSnd {t u : Node_ α} : Reachable t → Reachable u →
      Reachable (mergeTrees t u).2
  | splitFst {t : Node_ α} (k : Nat) : Reachable t → Reachable (splitAt t k).1
  | splitSnd {t : Node_ α} (k : Nat) : Reachable t → Reachable (splitAt t k).2

/-- Every reachable tree is a valid red-black tree (effectively black
root at some black height). -/
theorem Reachable.ok [Inhabited α] {t : Node_ α} (h : Reachable t) :
    ∃ n, Ok t true n := by
  induction h with
  | empty => exact ⟨0, .nil⟩
  | push_back i v hr ih => exact push_back_ok ih.choose_spec
  | push_front i v hr ih => exact push_front_ok ih.choose_spec
  | insert k i v hk hr ih => exact insertAt_ok ih.choose_spec hk
  | erase k hk hr ih => exact eraseAt_ok ih.choose_spec hk
  | pop_back hne hr ih => exact (pop_back_full ih.choose_spec hne).1
  | pop_front hne hr ih => exact (pop_front_full ih.choose_spec hne).1
  | mergeFst hr hu iht ihu =>
    exact (mergeTrees_spec iht.choose_spec ihu.choose_spec).1
  | mergeSnd hr hu iht ihu =>
    rw [(mergeTrees_spec iht.choose_spec ihu.choose_spec).2.2]
    exact ⟨0, .nil⟩
  | splitFst k hr ih => exact (splitAt_spec ih.choose_spec).1
  | splitSnd k hr ih => exact (splitAt_spec ih.choose_spec).2.1

/-- Move construction (`RBTree(RBTree&&)`): `Init_()` builds a fresh empty
head, then `std::swap(head_, tree.head_)` — the new tree takes the
source's contents and the source is left with the fresh empty head.
Returns (destination, source-afterwards). -/
def moveCtor (src : Node_ α) : Node_ α × Node_ α := (src, .nil)

/-- Move assignment (`operator=(RBTree&&)`): only `std::swap(head_,
tree.head_)` — the two trees exchange contents.  Returns
(destination-afterwards, source-afterwards). -/
def moveAssign (dst src : Node_ α) : Node_ α × Node_ α := (src, dst)

/-- `ClearTree_()`: frees every node; the tree left behind is empty. -/
def ClearTree_ (t : Node_ α) : Node_ α := .nil

/-- `CopyTree_(dest, orig)`: rebuilds `orig`'s structure with fresh nodes
under the (empty) destination head; as a value the destination ends up
with the same tree. -/
def CopyTree_ (orig : Node_ α) : Node_ α := orig

/-- Copy assignment `t = t` with the source aliasing the destination:
`ClearTree_()` first empties the shared tree, then `CopyTree_` copies
from the now-empty source. -/
def selfCopyAssign (t : Node_ α) : Node_ α := CopyTree_ (ClearTree_ t)

/-- A mutable cursor (`Iterator_`): a nullable node pointer. -/
structure Iterator_ (α : Type) where
  ptr : Option (Node_ α)

/-- A read-only cursor (`ConstIterator_`). -/
structure ConstIterator_ (α : Type) where
  ptr : Option (Node_ α)

/-- `Iterator_::is_null()`: `return !ptr_;`. -/
def Iterator_.is_null (it : Iterator_ α) : Bool := it.ptr.isNone

/-- `Iterator_::operator bool()`: `return !ptr_;`. -/
def Iterator_.operatorBool (it : Iterator_ α) : Bool := it.ptr.isNone

/-- `ConstIterator_::is_null()`: `return !ptr_;`. -/
def ConstIterator_.is_null (it : ConstIterator_ α) : Bool := it.ptr.isNone

/-- `ConstIterator_::operator bool()`: `return !ptr_;`. -/
def ConstIterator_.operatorBool (it : ConstIterator_ α) : Bool := it.ptr.isNone

/-- Concrete sample trees used by the witnesses. -/
def W1 : Node_ Nat := .node true 1 1 .nil 10 100 .nil

def W2 : Node_ Nat :=
  .node true 1 3 (.node false 0 1 .nil 20 200 .nil) 21 201
    (.node false 0 1 .nil 22 202 .nil)

/-- C1: every tree reachable from the empty tree by the public insert,
erase, merge and split operations satisfies the red-black invariants:
`CheckRB_`'s node checks hold everywhere (stored sizes, stored black
heights consistent on both children, no red-red), the root is effectively
black, and every node's stored `black_height` equals the black-node count
along every path from it to an absent child. -/
theorem claim_C1 [Inhabited α] {t : Node_ α} (h : Reachable t) :
    TreeOk_ t = true ∧ ∀ s, Subtree s t → ∀ x ∈ blackCounts s, x = BH_ s := by
  obtain ⟨n, hok⟩ := h.ok
  refine ⟨?_, ?_⟩
  · simp only [TreeOk_, hok.checks, hok.root_black, Bool.and_self]
  · intro s hs x hx
    obtain ⟨c2, n2, hs2⟩ := ok_subtree hs hok
    rw [blackCounts_ok hs2 x hx, hs2.bh_eq]

theorem claim_C1_witness :
    TreeOk_ (push_back (Node_.nil) 1 (0 : Nat)) = true ∧
    ∀ s, Subtree s (push_back (Node_.nil) 1 (0 : Nat)) →
      ∀ x ∈ blackCounts s, x = BH_ s :=
  claim_C1 (.push_back 1 0 .empty)

/-- C2: `merge` concatenates the two in-order value sequences into the
receiving tree and leaves the other tree empty, whichever side the pivot
is structurally removed from. -/
theorem claim_C2 [Inhabited α] {t u : Node_ α} {nt nu : Nat}
    (ht : Ok t true nt) (hu : Ok u true nu) :
    toList (mergeTrees t u).1 = toList t ++ toList u ∧
    (mergeTrees t u).2 = .nil := by
  obtain ⟨_, hp, hnil⟩ := mergeTrees_spec ht hu
  refine ⟨?_, hnil⟩
  rw [toList, hp]
  simp [toList]

theorem claim_C2_witness :
    toList (mergeTrees W1 W2).1 = toList W1 ++ toList W2 ∧
    (mergeTrees W1 W2).2 = .nil :=
  claim_C2 (ok_of_checks (by decide)) (ok_of_checks (by decide))

/-- C3: `split(at)` at rank `k` returns the tree of all elements from
rank `k` (inclusive) to the end, keeps the strict prefix in the receiver,
and splitting at the end cursor returns an empty tree leaving the
receiver unchanged. -/
theorem claim_C3 [Inhabited α] {t : Node_ α} {n : Nat} (ht : Ok t true n)
    (k : Nat) (hk : k ≤ realSize t) :
    toList (splitAt t k).1 = (toList t).take k ∧
    toList (splitAt t k).2 = (toList t).drop k ∧
    (k = realSize t → (splitAt t k).1 = t ∧ (splitAt t k).2 = .nil) := by
  obtain ⟨h1, h2, h3, h4⟩ := splitAt_spec ht (k := k)
  refine ⟨?_, ?_, ?_⟩
  · rw [toList, h3]
    simp [toList]
  · rw [toList, h4]
    simp [toList]
  · intro hke
    have : ¬ k < Size_ t := by rw [ht.size_eq]; omega
    simp [splitAt, this]

theorem claim_C3_witness :
    (toList (splitAt W2 1).1 = (toList W2).take 1 ∧
     toList (splitAt W2 1).2 = (toList W2).drop 1 ∧
     (1 = realSize W2 → (splitAt W2 1).1 = W2 ∧ (splitAt W2 1).2 = .nil)) ∧
    1 ≤ realSize W2 :=
  ⟨claim_C3 (ok_of_checks (by decide)) 1 (by decide), by decide⟩

/-- C4: splitting at any position and merging the two halves back
reproduces the original in-order value sequence. -/
theorem claim_C4 [Inhabited α] {t : Node_ α} {n : Nat} (ht : Ok t true n)
    (k : Nat) :
    toList (mergeTrees (splitAt t k).1 (splitAt t k).2).1 = toList t := by
  obtain ⟨⟨nl, hl⟩, ⟨nr, hr⟩, h3, h4⟩ := splitAt_spec ht (k := k)
  obtain ⟨_, hp, _⟩ := mergeTrees_spec hl hr
  rw [toList, hp, h3, h4]
  rw [List.take_append_drop]
  rfl

theorem claim_C4_witness :
    toList (mergeTrees (splitAt W2 2).1 (splitAt W2 2).2).1 = toList W2 :=
  claim_C4 (ok_of_checks (by decide)) 2

/-- C5: `select` then `order` round-trips every valid rank, and advancing
any cursor (a node's, or the end cursor) by an in-bounds offset `k` moves
its order by exactly `k`, so `Difference_` of the advanced and original
cursors is `k`. -/
theorem claim_C5 {t : Node_ α} {n : Nat} (ht : Ok t true n) :
    (∀ r, r < realSize t →
      Order_ (.pos (selectZip t r .root).1 (selectZip t r .root).2) = r) ∧
    (∀ j, j ≤ realSize t → ∀ k : Int,
      0 ≤ (j : Int) + k → (j : Int) + k ≤ (realSize t : Int) →
      Difference_ (Advance_ (curAt t j) k) (curAt t j) = k) := by
  constructor
  · intro r hr
    have := selectZip_order ht (.root (m := Size_ t)) (x := r) hr
    simpa [leftP] using this
  · intro j hj k hk1 hk2
    exact advance_difference ht hj k hk1 hk2

theorem claim_C5_witness :
    (∀ r, r < realSize W2 →
      Order_ (.pos (selectZip W2 r .root).1 (selectZip W2 r .root).2) = r) ∧
    (∀ j, j ≤ realSize W2 → ∀ k : Int,
      0 ≤ (j : Int) + k → (j : Int) + k ≤ (realSize W2 : Int) →
      Difference_ (Advance_ (curAt W2 j) k) (curAt W2 j) = k) :=
  claim_C5 (ok_of_checks (by decide))

/-- C6: on a predicate that is monotone over the in-order values (true
exactly on the first `m` positions), `PartitionBound_` returns the cursor
of rank `m` — the first position whose value fails the predicate — and
the end cursor when the predicate holds at every position. -/
theorem claim_C6 {t : Node_ α} {n : Nat} (ht : Ok t true n)
    (func : α → Bool) (m : Nat) (hm : m ≤ realSize t)
    (htake : ∀ pr ∈ (toPairs t).take m, func pr.2 = true)
    (hdrop : ∀ pr ∈ (toPairs t).drop m, func pr.2 = false) :
    Order_ (PartitionBound_ func t) = m ∧
    (m = realSize t → PartitionBound_ func t = .head t) :=
  PartitionBound_spec func ht hm htake hdrop

theorem claim_C6_witness :
    Order_ (PartitionBound_ (fun x => decide (x < 202)) W2) = 2 ∧
    (2 = realSize W2 →
      PartitionBound_ (fun x => decide (x < 202)) W2 = .head W2) :=
  claim_C6 (ok_of_checks (by decide)) (fun x => decide (x < 202)) 2
    (by decide) (by decide) (by decide)

/-- C7: erasing at a rank whose node has two children swaps the stored
value with the in-order predecessor and physically removes the
predecessor: the surviving entry at rank `k - 1` keeps the named node's
address with the predecessor's former value, the node handed back for
freeing carries the predecessor's address (with the named node's former
value), and the value sequence is the original one with the erased
position dropped. -/
theorem claim_C7 [Inhabited α] {t : Node_ α} {n k : Nat} (ht : Ok t true n)
    (hk : k < realSize t)
    (hl2 : leftOf (selectZip t k .root).1 ≠ .nil)
    (hr2 : rightOf (selectZip t k .root).1 ≠ .nil) :
    ∃ pk pk1 : Nat × α,
      (toPairs t)[k]? = some pk ∧ (toPairs t)[k - 1]? = some pk1 ∧
      toPairs (eraseAt t k).1
        = (toPairs t).take (k - 1) ++ (pk.1, pk1.2) :: (toPairs t).drop (k + 1) ∧
      (toPairs (eraseAt t k).1)[k - 1]? = some (pk.1, pk1.2) ∧
      (eraseAt t k).2 = (pk1.1, pk.2) ∧
      toList (eraseAt t k).1 = (toList t).take k ++ (toList t).drop (k + 1) := by
  obtain ⟨pk, pk1, hk1, h1, h2, h3, h4⟩ := eraseAt_two_child ht hk hl2 hr2
  have hlen : (toPairs t).length = realSize t := toPairs_length t
  refine ⟨pk, pk1, h1, h2, h3, ?_, h4, ?_⟩
  · rw [h3]
    rw [List.getElem?_append_right (by
      simp only [List.length_take]
      omega)]
    simp only [List.length_take]
    rw [Nat.min_eq_left (by omega)]
    simp
  · rw [toList, h3]
    have htake2 : (toList t).take k = (toList t).take (k - 1) ++ [pk1.2] := by
      have hs : k - 1 + 1 = k := by omega
      rw [← hs, List.take_succ]
      congr 1
      rw [toList, List.getElem?_map, h2]
      rfl
    rw [htake2]
    simp [toList, List.map_take, List.map_drop, List.append_assoc]

theorem claim_C7_witness :
    ∃ pk pk1 : Nat × Nat,
      (toPairs W2)[1]? = some pk ∧ (toPairs W2)[1 - 1]? = some pk1 ∧
      toPairs (eraseAt W2 1).1
        = (toPairs W2).take (1 - 1) ++ (pk.1, pk1.2) :: (toPairs W2).drop (1 + 1) ∧
      (toPairs (eraseAt W2 1).1)[1 - 1]? = some (pk.1, pk1.2) ∧
      (eraseAt W2 1).2 = (pk1.1, pk.2) ∧
      toList (eraseAt W2 1).1 = (toList W2).take 1 ++ (toList W2).drop (1 + 1) :=
  claim_C7 (ok_of_checks (by decide)) (by decide) (by decide) (by decide)

/-- C8 (corrected): move construction transfers the contents and leaves
the source empty, but move assignment is a plain head swap — the source
receives the destination's previous contents, so it is left empty only
when the destination was empty. -/
theorem claim_C8 (dst src : Node_ α) :
    toList (moveCtor src).1 = toList src ∧ (moveCtor src).2 = .nil ∧
    realSize (moveCtor src).2 = 0 ∧
    toList (moveAssign dst src).1 = toList src ∧
    (moveAssign dst src).2 = dst :=
  ⟨rfl, rfl, rfl, rfl, rfl⟩

/-- C8, counterexample to the original claim: move-assigning from a
non-empty source into a non-empty destination leaves the source holding
the destination's previous (non-empty) contents, not empty. -/
theorem claim_C8_counterexample :
    ¬ ((moveAssign (freshNode 1 (0 : Nat)) (freshNode 2 0)).2 = .nil) := by
  simp [moveAssign, freshNode]

/-- C9: for both cursor flavors the boolean conversion operator computes
`!ptr_`, exactly `is_null()` — it is true precisely on the null cursor,
so a cursor holding a valid node converts to false. -/
theorem claim_C9 {α : Type} :
    (∀ it : Iterator_ α, Iterator_.operatorBool it = Iterator_.is_null it ∧
      (∀ nd, it.ptr = some nd → Iterator_.operatorBool it = false) ∧
      (it.ptr = none → Iterator_.operatorBool it = true)) ∧
    (∀ it : ConstIterator_ α,
      ConstIterator_.operatorBool it = ConstIterator_.is_null it ∧
      (∀ nd, it.ptr = some nd → ConstIterator_.operatorBool it = false) ∧
      (it.ptr = none → ConstIterator_.operatorBool it = true)) := by
  constructor
  · intro it
    refine ⟨rfl, ?_, ?_⟩
    · intro nd hnd
      simp [Iterator_.operatorBool, hnd]
    · intro hnd
      simp [Iterator_.operatorBool, hnd]
  · intro it
    refine ⟨rfl, ?_, ?_⟩
    · intro nd hnd
      simp [ConstIterator_.operatorBool, hnd]
    · intro hnd
      simp [ConstIterator_.operatorBool, hnd]

theorem claim_C9_witness :
    Iterator_.operatorBool ⟨some W1⟩ = false ∧
    Iterator_.operatorBool (⟨none⟩ : Iterator_ Nat) = true ∧
    ConstIterator_.operatorBool ⟨some W1⟩ = false ∧
    ConstIterator_.operatorBool (⟨none⟩ : ConstIterator_ Nat) = true :=
  ⟨(claim_C9.1 ⟨some W1⟩).2.1 W1 rfl, (claim_C9.1 ⟨none⟩).2.2 rfl,
   (claim_C9.2 ⟨some W1⟩).2.1 W1 rfl, (claim_C9.2 ⟨none⟩).2.2 rfl⟩

/-- C10: self copy-assignment first clears the tree and then deep-copies
from the now-empty aliased source, so the tree ends up empty whatever it
held before. -/
theorem claim_C10 (t : Node_ α) :
    selfCopyAssign t = .nil ∧ toList (selfCopyAssign t) = [] ∧
    realSize (selfCopyAssign t) = 0 :=
  ⟨rfl, rfl, rfl⟩

end RBT
